import Mathlib

/-!
Verification development for the clkbufmap pass of the synthesis repository
(src/my_synthesis_repo/passes/techmap/clkbufmap.cc).  The pass inserts clock
buffer and pad cells on clock networks of a hierarchical netlist.  The
definitions below are a shallow embedding of the data model and of the
per-module transformation of ClkbufmapPass::execute, together with the
module ordering helper ClkbufmapPass::module_queue and the port-name
splitting helper split_portname_pair.
-/

set_option maxHeartbeats 1000000

namespace Clkbufmap

/-- Identifier of the netlist IR (RTLIL::IdString): either a user-written
name or an automatically generated fresh name (NEW_ID in the source). -/
inductive WName where
  | user (s : String)
  | auto (n : Nat)
deriving DecidableEq, Repr

/-- One bit of a signal (RTLIL::SigBit): a bit of a named wire, or a
constant. -/
inductive SigBit where
  | wireBit (w : WName) (i : Nat)
  | constBit (v : Nat)
deriving DecidableEq, Repr

/-- An ordered bit vector (RTLIL::SigSpec). -/
abbrev SigSpec := List SigBit

/-- One port connection of a cell: the port name, whether the port is an
output of the cell (cell->output), and the connected signal. -/
structure Conn where
  port : WName
  isOutput : Bool
  sig : SigSpec
deriving DecidableEq, Repr

/-- A cell instance. -/
structure Cell where
  name : WName
  ctype : WName
  conns : List Conn
deriving DecidableEq, Repr

/-- Wire attributes read by the pass: clkbuf_inhibit, clkbuf_driver,
clkbuf_sink and clkbuf_inv (the latter names the paired inverter port). -/
structure WAttrs where
  inhibit : Bool := false
  driver : Bool := false
  sink : Bool := false
  inv : Option String := none
deriving DecidableEq, Repr

/-- A wire: a named bit vector with optional port direction flags. -/
structure Wire where
  name : WName
  width : Nat
  port_input : Bool := false
  port_output : Bool := false
  attrs : WAttrs := {}
deriving DecidableEq, Repr

/-- A module of the design. -/
structure Module where
  name : WName
  wires : List Wire
  cells : List Cell
  connects : List (SigSpec × SigSpec) := []
  blackbox : Bool := false
  top : Bool := false
  ports : List WName := []
deriving DecidableEq, Repr

/-- RTLIL::escape_id: prepend a backslash unless the name is empty or
already starts with a backslash or a dollar sign. -/
def escapeId (s : String) : String :=
  if s = "" then s
  else if s.front == '\\' || s.front == '$' then s
  else "\\" ++ s

/-- split_portname_pair of the source: if the first name holds a colon,
the part after the first colon becomes the second name and the part
before it becomes the first name; otherwise both are returned unchanged. -/
def split_portname_pair (port1 port2 : String) : String × String :=
  match port1.toList.findIdx? (fun c => c = ':') with
  | none => (port1, port2)
  | some pos => ((port1.toList.take pos).asString, (port1.toList.drop (pos + 1)).asString)

/-- Configuration of the pass (the -buf and -inpad options).  An empty
cell type string means the option was not given. -/
structure Config where
  bufCelltype : String := ""
  bufPortname : String := ""
  bufPortname2 : String := ""
  inpadCelltype : String := ""
  inpadPortname : String := ""
  inpadPortname2 : String := ""
deriving DecidableEq, Repr

/-- Look up a module of the design by name (Design::module). -/
def findModule (design : List Module) (t : WName) : Option Module :=
  design.find? (fun md => md.name == t)

/-- Look up a wire of a module by name (Module::wire). -/
def findWire (m : Module) (n : WName) : Option Wire :=
  m.wires.find? (fun w => w.name == n)

/-- Computation of buffer_inputs (source lines 122 to 130): it is false
exactly when the configured pad cell type names a module of the design
whose wire named after the buffer output port carries the clkbuf_driver
attribute. -/
def computeBufferInputs (design : List Module) (cfg : Config) : Bool :=
  match findModule design (WName.user (escapeId cfg.inpadCelltype)) with
  | none => true
  | some im =>
    match findWire im (WName.user (escapeId cfg.bufPortname)) with
    | none => true
    | some bw => !bw.attrs.driver

mutual

/-- The module ordering of ClkbufmapPass::module_queue: a depth-first
post-order walk of the instantiation relation, guarded by the list of
already scheduled modules.  The recursion of the source has no cycle
detection, so the embedding carries explicit fuel; on acyclic designs a
fuel larger than the instantiation depth reproduces the source exactly. -/
def module_queue (design : List Module) (fuel : Nat) (m : Module)
    (sorted : List Module) : List Module :=
  match fuel with
  | 0 => sorted
  | f + 1 =>
    if m.name ∈ sorted.map Module.name then sorted
    else mqCells design f m.cells sorted ++ [m]
termination_by (fuel, 0, 0)

/-- Helper of module_queue: walk the cell list of a module and recurse
into every instantiated module found in the design. -/
def mqCells (design : List Module) (fuel : Nat) (cs : List Cell)
    (sorted : List Module) : List Module :=
  match cs with
  | [] => sorted
  | c :: rest =>
    match findModule design c.ctype with
    | none => mqCells design fuel rest sorted
    | some sub => mqCells design fuel rest (module_queue design fuel sub sorted)
termination_by (fuel, 1, cs.length)

end

/-- Processing order of the whole pass: fold module_queue over the
selected root modules (source lines 132 to 136). -/
def moduleOrder (design : List Module) (fuel : Nat) (roots : List Module) : List Module :=
  roots.foldl (fun s r => module_queue design fuel r s) []

/-- The run-wide tag tables: sink_ports, buf_ports and the two inverter
maps, each keyed by (cell type, port name, bit index). -/
structure GState where
  sinkPorts : Finset (WName × WName × Nat)
  bufPorts : Finset (WName × WName × Nat)
  invOut : List ((WName × WName × Nat) × (WName × Nat))
  invIn : List ((WName × WName × Nat) × (WName × Nat))

/-- Blackbox tag extraction for one port wire (source lines 140 to 157):
the clkbuf_driver attribute feeds buf_ports, clkbuf_sink feeds
sink_ports, and clkbuf_inv feeds both inverter maps, for every bit of
the wire, keyed by the module name. -/
def blackboxWire (mn : WName) (gst : GState) (w : Wire) : GState :=
  let g1 :=
    if w.attrs.driver then
      { gst with bufPorts := gst.bufPorts ∪
          (((List.range w.width).map (fun i => (mn, w.name, i))).toFinset) }
    else gst
  let g2 :=
    if w.attrs.sink then
      { g1 with sinkPorts := g1.sinkPorts ∪
          (((List.range w.width).map (fun i => (mn, w.name, i))).toFinset) }
    else g1
  match w.attrs.inv with
  | none => g2
  | some s =>
    let inName := WName.user (escapeId s)
    { g2 with
      invOut := ((List.range w.width).map
          (fun i => ((mn, w.name, i), (inName, i)))) ++ g2.invOut,
      invIn := ((List.range w.width).map
          (fun i => ((mn, inName, i), (w.name, i)))) ++ g2.invIn }

/-- Blackbox tag extraction over all ports of a blackbox module. -/
def blackboxUpdate (gst : GState) (m : Module) : GState :=
  m.ports.foldl (fun g p =>
    match findWire m p with
    | none => g
    | some w => blackboxWire m.name g w) gst

/-- The canonical signal map (SigMap) as a finite table of aliases;
a bit not in the table is its own representative. -/
abbrev Smap := List (SigBit × SigBit)

/-- Application of the canonical signal map to a bit. -/
def sigApply (sm : Smap) (b : SigBit) : SigBit :=
  (sm.lookup b).getD b

/-- Per-module tag collection (source lines 167 to 179): for every bit of
every cell connection whose (cell type, port, index) triple is in the
table, the canonical image of the connected bit enters the set. -/
def collectTagBits (tags : Finset (WName × WName × Nat)) (sm : Smap)
    (cells : List Cell) : Finset SigBit :=
  cells.foldl (fun acc c =>
    c.conns.foldl (fun acc conn =>
      (List.range conn.sig.length).foldl (fun acc i =>
        if (c.ctype, conn.port, i) ∈ tags then
          insert (sigApply sm (conn.sig.getD i (SigBit.constBit 0))) acc
        else acc) acc) acc) ∅

/-- The raw driven-bit set (source lines 212 to 217): every bit standing
verbatim in an output connection of some cell; note that no canonical
mapping is applied here. -/
def collectDriven (cells : List Cell) : Finset SigBit :=
  cells.foldl (fun acc c =>
    c.conns.foldl (fun acc conn =>
      if conn.isOutput then conn.sig.foldl (fun acc b => insert b acc) acc
      else acc) acc) ∅

/-- Connection of a named port of a cell (Cell::getPort). -/
def getPort (c : Cell) (p : WName) : Option SigSpec :=
  (c.conns.find? (fun cn => cn.port == p)).map Conn.sig

/-- One item of the inverter propagation scan: the canonical bit of one
cell port bit, together with the canonical partner bit when the slot is
registered as an inverter output and when it is registered as an
inverter input. -/
structure ScanItem where
  bit : SigBit
  ruleOut : Option SigBit
  ruleIn : Option SigBit
deriving DecidableEq, Repr

/-- The canonical bit sitting at a partner (port, index) slot of a cell. -/
def partnerBit (sm : Smap) (c : Cell) (pr : WName × Nat) : Option SigBit :=
  (getPort c pr.1).bind (fun s => (s.get? pr.2).map (sigApply sm))

/-- The scan items of one module, in the order cells, connections, bit
indices (source lines 185 to 188). -/
def scanItems (invOut invIn : List ((WName × WName × Nat) × (WName × Nat)))
    (sm : Smap) (cells : List Cell) : List ScanItem :=
  cells.flatMap (fun c =>
    c.conns.flatMap (fun conn =>
      (List.range conn.sig.length).map (fun i =>
        { bit := sigApply sm (conn.sig.getD i (SigBit.constBit 0))
          ruleOut := (invOut.lookup (c.ctype, conn.port, i)).bind (partnerBit sm c)
          ruleIn := (invIn.lookup (c.ctype, conn.port, i)).bind (partnerBit sm c) })))

/-- Module-local state of the inverter propagation: the sink bit set and
the already-buffered bit set. -/
structure PropState where
  sink : Finset SigBit
  buf : Finset SigBit
deriving DecidableEq

/-- One scan item applied to the state (the body of the loop at source
lines 185 to 209): rule one marks a sink inverter output as buffered and
requests a buffer on the inverter input; rule two pushes the buffered
mark forward from an inverter input to its output.  The second component
reports whether a rule fired. -/
def stepItem (st : PropState) (it : ScanItem) : PropState × Bool :=
  let r1 : PropState × Bool :=
    match it.ruleOut with
    | some other =>
      if it.bit ∉ st.buf ∧ it.bit ∈ st.sink then
        (⟨insert other st.sink, insert it.bit st.buf⟩, true)
      else (st, false)
    | none => (st, false)
  let st1 := r1.1
  match it.ruleIn with
  | some other =>
    if it.bit ∈ st1.buf ∧ other ∉ st1.buf then
      (⟨st1.sink, insert other st1.buf⟩, true)
    else (st1, r1.2)
  | none => (st1, r1.2)

/-- One full scan over all items, carrying the retry flag. -/
def scanOnce : List ScanItem → PropState → PropState × Bool
  | [], st => (st, false)
  | it :: rest, st =>
    let s := stepItem st it
    let r := scanOnce rest s.1
    (r.1, s.2 || r.2)

/-- The retry loop of the propagation, with explicit fuel: rescan while
some rule fired in the previous scan. -/
def propagate (items : List ScanItem) : Nat → PropState → PropState
  | 0, st => st
  | fuel + 1, st =>
    let s := scanOnce items st
    if s.2 then propagate items fuel s.1 else s.1

/-- The singleton or empty set of an optional bit. -/
def optSet : Option SigBit → Finset SigBit
  | some o => {o}
  | none => ∅

/-- All bits that the propagation can ever add to the buffered set: the
scanned canonical bits themselves and every inverter-output partner bit
of rule two. -/
def bufUniv : List ScanItem → Finset SigBit
  | [] => ∅
  | it :: rest => insert it.bit (optSet it.ruleIn ∪ bufUniv rest)

/-- All bits that rule one can ever add to the sink set. -/
def sinkUniv : List ScanItem → Finset SigBit
  | [] => ∅
  | it :: rest => optSet it.ruleOut ∪ sinkUniv rest

/-- A fuel amount sufficient to reach the fixed point: the buffered set
grows strictly on every repeated scan and stays inside the initial set
united with bufUniv. -/
def propFuel (items : List ScanItem) (st : PropState) : Nat :=
  (st.buf ∪ bufUniv items).card + 1

/-- The propagation loop of the source, run to its fixed point. -/
def propagateRun (items : List ScanItem) (st : PropState) : PropState :=
  propagate items (propFuel items st) st

/-- The cell type names of the secondary buffer cells (ID::BUFR and
ID::BUFIO) and their input port (ID::I). -/
def idBUFR : WName := WName.user "\\BUFR"

/-- The BUFIO secondary buffer cell type. -/
def idBUFIO : WName := WName.user "\\BUFIO"

/-- The input port name of the secondary buffer cells. -/
def idI : WName := WName.user "\\I"

/-- Whether a wire is processed by the insertion loops (source lines 231
to 241 and 274 to 284): it must be selected, and when no explicit
selection was given the clkbuf_inhibit attribute excludes it. -/
def processedWire (select : Bool) (wsel : WName → Bool) (w : Wire) : Bool :=
  wsel w.name && !(!select && w.attrs.inhibit)

/-- The canonical bits of all processed wires (the first insertion-loop
pass, source lines 224 to 252), used to pre-register secondary buffer
cells. -/
def computeBufBits (select : Bool) (wsel : WName → Bool) (sm : Smap)
    (wires : List Wire) : List SigBit :=
  wires.foldl (fun acc w =>
    if w.port_input && w.port_output then acc
    else if !(processedWire select wsel w) then acc
    else acc ++ (List.range w.width).map (fun i => sigApply sm (SigBit.wireBit w.name i))) []

/-- The secondary buffer registration (source lines 255 to 267): every
BUFR or BUFIO cell whose single raw input bit stands among the canonical
processed-wire bits is recorded under that raw bit. -/
def computeBufrPairs (cells : List Cell) (bufBits : List SigBit) : List (SigBit × WName) :=
  cells.foldl (fun acc c =>
    if c.ctype == idBUFR || c.ctype == idBUFIO then
      match getPort c idI with
      | some [b] => if b ∈ bufBits then acc ++ [(b, c.name)] else acc
      | _ => acc
    else acc) []

/-- Classification of one wire bit by the insertion decision chain
(source lines 288 to 335). -/
inductive BitDecision where
  | alreadyBuf
  | notSink
  | doInsert
  | deferUp
  | noAction
deriving DecidableEq, Repr

/-- The per-bit decision of the insertion engine: already buffered bits
are only marked, non-sink bits are ignored, bits driven verbatim inside
the module or sitting on a top-level input port receive a buffer, other
input-port bits are deferred to the parent. -/
def classifyBit (sinkW bufW driven : Finset SigBit) (sm : Smap)
    (topMod : Bool) (w : Wire) (i : Nat) : BitDecision :=
  let wb := SigBit.wireBit w.name i
  let mb := sigApply sm wb
  if mb ∈ bufW then .alreadyBuf
  else if mb ∉ sinkW then .notSink
  else if wb ∈ driven then .doInsert
  else if w.port_input && topMod then .doInsert
  else if w.port_input then .deferUp
  else .noAction

/-- Mutable state threaded through the insertion loop: the NEW_ID
counter, the added wires and cells, the buffered-bits substitution table
(most recent entry first, matching map overwrite), the tag registrations
for the parent, the input rewiring queue and the added connections. -/
structure InsState where
  counter : Nat
  newWires : List Wire := []
  newCells : List Cell := []
  buffered : List (SigBit × WName × WName) := []
  bufAdds : List (WName × WName × Nat) := []
  sinkAdds : List (WName × WName × Nat) := []
  inputQueue : List (WName × WName) := []
  connects : List (SigSpec × SigSpec) := []
deriving DecidableEq, Repr

/-- The insertion action for one bit classified doInsert (source lines
298 to 325): create the buffer cell (unless the bit is a top input and
the pad itself drives the clock), then the pad cell on top inputs, and
record the canonical bit with the finally created cell and the fresh
internal wire. -/
def insertForBit (cfg : Config) (bufferInputs topMod : Bool) (w : Wire)
    (mb : SigBit) (st : InsState) : InsState :=
  let is_input := w.port_input && !(cfg.inpadCelltype == "") && topMod
  let step1 : Option WName × Option WName × InsState :=
    if !(cfg.bufCelltype == "") && (!is_input || bufferInputs) then
      let cn := WName.auto st.counter
      let iw := WName.auto (st.counter + 1)
      let cell : Cell :=
        ⟨cn, WName.user (escapeId cfg.bufCelltype),
          [⟨WName.user (escapeId cfg.bufPortname), true, [mb]⟩,
           ⟨WName.user (escapeId cfg.bufPortname2), false, [SigBit.wireBit iw 0]⟩]⟩
      (some cn, some iw,
        { st with counter := st.counter + 2,
                  newCells := st.newCells ++ [cell],
                  newWires := st.newWires ++ [⟨iw, 1, false, false, {}⟩] })
    else (none, none, st)
  let step2 : Option WName × Option WName × InsState :=
    if is_input then
      let st1 := step1.2.2
      let c2 := WName.auto st1.counter
      let iw2 := WName.auto (st1.counter + 1)
      let firstSig : SigSpec :=
        match step1.2.1 with
        | some iw => [SigBit.wireBit iw 0]
        | none => [mb]
      let cell2 : Cell :=
        ⟨c2, WName.user (escapeId cfg.inpadCelltype),
          [⟨WName.user (escapeId cfg.inpadPortname), true, firstSig⟩,
           ⟨WName.user (escapeId cfg.inpadPortname2), false, [SigBit.wireBit iw2 0]⟩]⟩
      let paired := match step1.1 with
        | some cn => cn
        | none => c2
      (some paired, some iw2,
        { st1 with counter := st1.counter + 2,
                   newCells := st1.newCells ++ [cell2],
                   newWires := st1.newWires ++ [⟨iw2, 1, false, false, {}⟩] })
    else step1
  match step2.1, step2.2.1 with
  | some cn, some iw => { step2.2.2 with buffered := (mb, cn, iw) :: step2.2.2.buffered }
  | _, _ => step2.2.2

/-- The per-bit action of the insertion loop (the body of the loop at
source lines 288 to 335): act on one bit according to its
classification, and remember the index when an input-port bit reached
the insertion branch. -/
def wireBitStep (cfg : Config) (bufferInputs topMod : Bool) (modName : WName)
    (sinkW bufW driven : Finset SigBit) (sm : Smap) (w : Wire)
    (acc : InsState × List Nat) (i : Nat) : InsState × List Nat :=
  let st := acc.1
  let ib := acc.2
  let mb := sigApply sm (SigBit.wireBit w.name i)
  match classifyBit sinkW bufW driven sm topMod w i with
  | .alreadyBuf =>
    (if w.port_output then { st with bufAdds := st.bufAdds ++ [(modName, w.name, i)] } else st, ib)
  | .notSink => (st, ib)
  | .doInsert =>
    (insertForBit cfg bufferInputs topMod w mb st,
     if w.port_input then ib ++ [i] else ib)
  | .deferUp => ({ st with sinkAdds := st.sinkAdds ++ [(modName, w.name, i)] }, ib)
  | .noAction => (st, ib)

/-- Processing of one wire by the insertion loop (source lines 269 to
355): skip malformed and unprocessed wires (registering unprocessed
output ports in buf_ports), classify and act on every bit, and rebuild
the wire when some bit of an input port received a buffer. -/
def processWire (cfg : Config) (bufferInputs select topMod : Bool)
    (wsel : WName → Bool) (sm : Smap) (modName : WName)
    (sinkW bufW driven : Finset SigBit) (st : InsState) (w : Wire) : InsState :=
  if w.port_input && w.port_output then st
  else if !(processedWire select wsel w) then
    if w.port_output then
      { st with bufAdds := st.bufAdds ++ (List.range w.width).map (fun i => (modName, w.name, i)) }
    else st
  else
    let res := (List.range w.width).foldl
      (wireBitStep cfg bufferInputs topMod modName sinkW bufW driven sm w) (st, [])
    let st := res.1
    if res.2.isEmpty then st
    else
      let nw := WName.auto st.counter
      let newWire : Wire := ⟨nw, w.width, w.port_input, w.port_output, w.attrs⟩
      let conns := (List.range w.width).map (fun i =>
        let wb := SigBit.wireBit w.name i
        match st.buffered.lookup (sigApply sm wb) with
        | some (_, iw) => (([SigBit.wireBit iw 0] : SigSpec), ([SigBit.wireBit nw i] : SigSpec))
        | none => (([wb] : SigSpec), ([SigBit.wireBit nw i] : SigSpec)))
      { st with counter := st.counter + 1,
                newWires := st.newWires ++ [newWire],
                connects := st.connects ++ conns,
                inputQueue := st.inputQueue ++ [(w.name, nw)] }

/-- The whole insertion loop over the snapshotted wire list. -/
def insertStage (cfg : Config) (bufferInputs select topMod : Bool)
    (wsel : WName → Bool) (sm : Smap) (modName : WName)
    (sinkW bufW driven : Finset SigBit) (counter0 : Nat)
    (wires : List Wire) : InsState :=
  wires.foldl (processWire cfg bufferInputs select topMod wsel sm modName sinkW bufW driven)
    { counter := counter0 }

/-- Marking of newly buffered output ports (source lines 357 to 368). -/
def markOutputs (wsel : WName → Bool) (sm : Smap)
    (buffered : List (SigBit × WName × WName)) (modName : WName)
    (wires : List Wire) : List (WName × WName × Nat) :=
  wires.foldl (fun acc w =>
    if !(wsel w.name) then acc
    else if w.port_input || !w.port_output then acc
    else acc ++ (List.range w.width).filterMap (fun i =>
      if (buffered.lookup (sigApply sm (SigBit.wireBit w.name i))).isSome then
        some (modName, w.name, i)
      else none)) []

/-- Rewriting of one bit of an output connection during driver
reconnection (source lines 375 to 400): a bit whose canonical form is in
the substitution table moves to the fresh internal wire, unless the cell
is the inserted buffer itself. -/
def rewriteOutBit (sm : Smap) (buffered : List (SigBit × WName × WName))
    (cname : WName) (b : SigBit) : SigBit :=
  match buffered.lookup (sigApply sm b) with
  | some (cn, iw) => if cname = cn then b else SigBit.wireBit iw 0
  | none => b

/-- Whether the driver reconnection loop reaches a canonical bit: some
cell other than the inserted buffer holds a bit of that canonical class
in an output connection.  Only then is the secondary-buffer repoint for
that bit executed. -/
def touchedBit (sm : Smap) (buffered : List (SigBit × WName × WName))
    (cells : List Cell) (b : SigBit) : Bool :=
  cells.any (fun c => c.conns.any (fun conn =>
    conn.isOutput && conn.sig.any (fun bit =>
      (sigApply sm bit == b) &&
      (match buffered.lookup b with
       | some p => !(c.name == p.1)
       | none => false))))

/-- Driver reconnection for one cell: rewrite the output connection bits,
and when the cell is a registered secondary buffer whose key bit is
reached by the loop, point its input port at the fresh internal wire
(source lines 370 to 401). -/
def reconnectCell (sm : Smap) (buffered : List (SigBit × WName × WName))
    (bufrPairs : List (SigBit × WName)) (cells : List Cell) (c : Cell) : Cell :=
  let conns1 := c.conns.map (fun conn =>
    if conn.isOutput then { conn with sig := conn.sig.map (rewriteOutBit sm buffered c.name) }
    else conn)
  let conns2 :=
    if c.ctype == idBUFR || c.ctype == idBUFIO then
      match bufrPairs.find? (fun p => p.2 == c.name) with
      | some p =>
        if touchedBit sm buffered cells p.1 then
          match buffered.lookup p.1 with
          | some q =>
            conns1.map (fun conn =>
              if conn.port == idI then
                { conn with sig := conn.sig.map (fun _ => SigBit.wireBit q.2 0) }
              else conn)
          | none => conns1
        else conns1
      | none => conns1
    else conns1
  { c with conns := conns2 }

/-- Driver reconnection over all cells of the module. -/
def reconnectStage (sm : Smap) (buffered : List (SigBit × WName × WName))
    (bufrPairs : List (SigBit × WName)) (cells : List Cell) : List Cell :=
  cells.map (reconnectCell sm buffered bufrPairs cells)

/-- Exchange of two names (Module::swap_names). -/
def swapName (o n x : WName) : WName :=
  if x = o then n else if x = n then o else x

/-- Name exchange applied to a bit: renaming a wire renames every
reference to it. -/
def swapBit (o n : WName) (b : SigBit) : SigBit :=
  match b with
  | .wireBit w i => .wireBit (swapName o n w) i
  | .constBit v => .constBit v

/-- One step of the deferred port-identity exchange (source lines 403 to
412): swap the names of the old port wire and its replacement, then
demote the old wire (now carrying the fresh name) to a plain internal
wire with cleared attributes and port flags. -/
def swapStep (st : List Wire × List Cell × List (SigSpec × SigSpec))
    (p : WName × WName) : List Wire × List Cell × List (SigSpec × SigSpec) :=
  let wires := st.1.map (fun w =>
    let w1 : Wire := { w with name := swapName p.1 p.2 w.name }
    if w1.name = p.2 then { w1 with port_input := false, port_output := false, attrs := {} }
    else w1)
  let cells := st.2.1.map (fun c =>
    { c with conns := c.conns.map (fun cn => { cn with sig := cn.sig.map (swapBit p.1 p.2) }) })
  let conns := st.2.2.map (fun pr => (pr.1.map (swapBit p.1 p.2), pr.2.map (swapBit p.1 p.2)))
  (wires, cells, conns)

/-- The deferred identity exchange over the whole input queue. -/
def swapStage (queue : List (WName × WName)) (wires : List Wire)
    (cells : List Cell) (conns : List (SigSpec × SigSpec)) :
    List Wire × List Cell × List (SigSpec × SigSpec) :=
  queue.foldl swapStep (wires, cells, conns)

/-- Module::fixup_ports: recompute the port list from the wire flags. -/
def fixupPorts (wires : List Wire) : List WName :=
  (wires.filter (fun w => w.port_input || w.port_output)).map Wire.name

/-- One past an auto index, zero on user names; used to compute the
first unused NEW_ID index. -/
def autoSize : WName → Nat
  | .auto k => k + 1
  | .user _ => 0

/-- First unused NEW_ID index of a module: one past every auto name
already used by a wire or a cell. -/
def maxAutoIdx (m : Module) : Nat :=
  max (m.wires.foldl (fun a w => max a (autoSize w.name)) 0)
      (m.cells.foldl (fun a c => max a (autoSize c.name)) 0)

/-- The whole per-module transformation of ClkbufmapPass::execute
(source lines 138 to 415): blackbox modules only publish their port
tags; ordinary modules collect tags, propagate them through inverters,
insert buffer and pad cells, mark buffered output ports, reconnect
drivers, exchange port identities and recompute the port list.  Returns
the updated tag tables and the transformed module. -/
def processModule (cfg : Config) (bufferInputs select : Bool)
    (wsel : WName → Bool) (sm : Smap) (gst : GState) (m : Module) :
    GState × Module :=
  if m.blackbox then (blackboxUpdate gst m, m)
  else
    let sink0 := collectTagBits gst.sinkPorts sm m.cells
    let buf0 := collectTagBits gst.bufPorts sm m.cells
    let items := scanItems gst.invOut gst.invIn sm m.cells
    let pr := propagateRun items ⟨sink0, buf0⟩
    let driven := collectDriven m.cells
    let bufBits := computeBufBits select wsel sm m.wires
    let bufrPairs := computeBufrPairs m.cells bufBits
    let ins := insertStage cfg bufferInputs select m.top wsel sm m.name
      pr.sink pr.buf driven (maxAutoIdx m) m.wires
    let wires1 := m.wires ++ ins.newWires
    let cells1 := m.cells ++ ins.newCells
    let bufAdds2 := markOutputs wsel sm ins.buffered m.name wires1
    let cells2 := reconnectStage sm ins.buffered bufrPairs cells1
    let fin := swapStage ins.inputQueue wires1 cells2 (m.connects ++ ins.connects)
    let gst2 : GState :=
      { gst with
        bufPorts := gst.bufPorts ∪ ins.bufAdds.toFinset ∪ bufAdds2.toFinset,
        sinkPorts := gst.sinkPorts ∪ ins.sinkAdds.toFinset }
    (gst2, { m with wires := fin.1, cells := fin.2.1, connects := fin.2.2,
                    ports := fixupPorts fin.1 })

/-- Strict precedence in a list: T occurs in the part of the list
before an occurrence of M. -/
def beforeIn (l : List Module) (T M : Module) : Prop :=
  ∃ l1 l2, l = l1 ++ M :: l2 ∧ T ∈ l1

/-- All module names of a list are distinct. -/
def NodupNames (l : List Module) : Prop :=
  (l.map Module.name).Nodup

/-- The dependency-closure property of a schedule: every module of the
list has each of its instantiated design modules strictly before it. -/
def ClosedSched (design l : List Module) : Prop :=
  ∀ M ∈ l, ∀ c ∈ M.cells, ∀ T, findModule design c.ctype = some T → beforeIn l T M

/-- Whether a bit is a bit of the wire named wn. -/
def isWBit (wn : WName) : SigBit → Bool
  | .wireBit x _ => x == wn
  | .constBit _ => false

/-- A result bit preserves the occurrences of the bits of the wire
named wn: whenever either side is a bit of that wire, the bit is
unchanged. -/
def bitPreserves (wn : WName) (b bp : SigBit) : Prop :=
  (isWBit wn b || isWBit wn bp) = true → bp = b

/-- Positionwise preservation of wn-bit occurrences in a signal. -/
def sigPreserves (wn : WName) (s sp : SigSpec) : Prop :=
  List.Forall₂ (bitPreserves wn) s sp

/-- Preservation of wn-bit occurrences in a connection: same port, same
direction, positionwise preserved signal. -/
def connPreserves (wn : WName) (c cp : Conn) : Prop :=
  cp.port = c.port ∧ cp.isOutput = c.isOutput ∧ sigPreserves wn c.sig cp.sig

/-- Preservation of wn-bit occurrences in a cell: same name, same type,
positionwise preserved connections. -/
def cellPreserves (wn : WName) (c cp : Cell) : Prop :=
  cp.name = c.name ∧ cp.ctype = c.ctype ∧
  List.Forall₂ (connPreserves wn) c.conns cp.conns

/-- Preservation of wn-bit occurrences in a module-level connection
pair. -/
def pairPreserves (wn : WName) (p pp : SigSpec × SigSpec) : Prop :=
  sigPreserves wn p.1 pp.1 ∧ sigPreserves wn p.2 pp.2

/-- No connection of the cell mentions any bit of the wire named wn. -/
def noWireRef (wn : WName) (c : Cell) : Bool :=
  c.conns.all (fun conn => conn.sig.all (fun b => !(isWBit wn b)))

/-- No side of a module-level connection pair mentions a bit of wn. -/
def noPairRef (wn : WName) (p : SigSpec × SigSpec) : Bool :=
  p.1.all (fun b => !(isWBit wn b)) && p.2.all (fun b => !(isWBit wn b))

/-- Invariant threaded through the insertion loop for the
inhibited-wire frame argument: the counter never drops below its
initial value, every buffered substitution key avoids the bits of wn
and every substituted internal wire is a fresh auto name, the created
cells and connections never mention a bit of wn, and the rewiring
queue avoids the name wn on the old side and uses fresh auto names on
the new side. -/
def InsInv (wn : WName) (c0 : Nat) (st : InsState) : Prop :=
  c0 ≤ st.counter ∧
  (∀ e ∈ st.buffered, isWBit wn e.1 = false ∧
    ∃ k, e.2.2 = WName.auto k ∧ c0 ≤ k) ∧
  (∀ c ∈ st.newCells, noWireRef wn c = true) ∧
  (∀ p ∈ st.connects, noPairRef wn p = true) ∧
  (∀ q ∈ st.inputQueue, q.1 ≠ wn ∧ ∃ k, q.2 = WName.auto k ∧ c0 ≤ k)

/-!
Lemmas about the inverter propagation loop.
-/

lemma stepItem_mono (st : PropState) (it : ScanItem) :
    st.sink ⊆ (stepItem st it).1.sink ∧ st.buf ⊆ (stepItem st it).1.buf := by
  rcases it with ⟨bit, ro, ri⟩
  cases ro with
  | none =>
    cases ri with
    | none => exact ⟨subset_rfl, subset_rfl⟩
    | some o =>
      simp only [stepItem]
      split_ifs with h
      · exact ⟨subset_rfl, Finset.subset_insert _ _⟩
      · exact ⟨subset_rfl, subset_rfl⟩
  | some p =>
    cases ri with
    | none =>
      simp only [stepItem]
      split_ifs with h
      · exact ⟨Finset.subset_insert _ _, Finset.subset_insert _ _⟩
      · exact ⟨subset_rfl, subset_rfl⟩
    | some o =>
      simp only [stepItem]
      split_ifs with h1 h2 h2
      · exact ⟨Finset.subset_insert _ _,
          (Finset.subset_insert _ _).trans (Finset.subset_insert _ _)⟩
      · exact ⟨Finset.subset_insert _ _, Finset.subset_insert _ _⟩
      · exact ⟨subset_rfl, Finset.subset_insert _ _⟩
      · exact ⟨subset_rfl, subset_rfl⟩

lemma stepItem_flag_false (st : PropState) (it : ScanItem)
    (h : (stepItem st it).2 = false) : (stepItem st it).1 = st := by
  rcases it with ⟨bit, ro, ri⟩
  cases ro with
  | none =>
    cases ri with
    | none => rfl
    | some o =>
      simp only [stepItem] at h ⊢
      split_ifs at h ⊢ with h1
      rfl
  | some p =>
    cases ri with
    | none =>
      simp only [stepItem] at h ⊢
      split_ifs at h ⊢ with h1
      rfl
    | some o =>
      simp only [stepItem] at h ⊢
      split_ifs at h ⊢ with h1 h2 h2
      rfl

lemma stepItem_flag_true (st : PropState) (it : ScanItem)
    (h : (stepItem st it).2 = true) : st.buf ⊂ (stepItem st it).1.buf := by
  rcases it with ⟨bit, ro, ri⟩
  cases ro with
  | none =>
    cases ri with
    | none => simp [stepItem] at h
    | some o =>
      simp only [stepItem] at h ⊢
      split_ifs at h ⊢ with h1
      exact Finset.ssubset_insert h1.2
  | some p =>
    cases ri with
    | none =>
      simp only [stepItem] at h ⊢
      split_ifs at h ⊢ with h1
      exact Finset.ssubset_insert h1.1
    | some o =>
      simp only [stepItem] at h ⊢
      split_ifs at h ⊢ with h1 h2 h2
      · exact (Finset.ssubset_insert h1.1).trans_subset (Finset.subset_insert _ _)
      · exact Finset.ssubset_insert h1.1
      · exact Finset.ssubset_insert h2.2

lemma stepItem_buf_bound (st : PropState) (it : ScanItem) :
    (stepItem st it).1.buf ⊆ st.buf ∪ insert it.bit (optSet it.ruleIn) := by
  rcases it with ⟨bit, ro, ri⟩
  cases ro with
  | none =>
    cases ri with
    | none => exact Finset.subset_union_left
    | some o =>
      simp only [stepItem]
      split_ifs with h
      · intro x hx
        simp only [Finset.mem_insert] at hx
        simp only [optSet, Finset.mem_union, Finset.mem_insert, Finset.mem_singleton]
        tauto
      · exact Finset.subset_union_left
  | some p =>
    cases ri with
    | none =>
      simp only [stepItem]
      split_ifs with h
      · intro x hx
        simp only [Finset.mem_insert] at hx
        simp only [optSet, Finset.mem_union, Finset.mem_insert, Finset.not_mem_empty]
        tauto
      · exact Finset.subset_union_left
    | some o =>
      simp only [stepItem]
      split_ifs with h1 h2 h2 <;>
        intro x hx <;>
        simp only [Finset.mem_insert] at hx <;>
        simp only [optSet, Finset.mem_union, Finset.mem_insert, Finset.mem_singleton] <;>
        tauto

lemma stepItem_sink_bound (st : PropState) (it : ScanItem) :
    (stepItem st it).1.sink ⊆ st.sink ∪ optSet it.ruleOut := by
  rcases it with ⟨bit, ro, ri⟩
  cases ro with
  | none =>
    cases ri with
    | none => exact Finset.subset_union_left
    | some o =>
      simp only [stepItem]
      split_ifs with h
      · exact Finset.subset_union_left
      · exact Finset.subset_union_left
  | some p =>
    cases ri with
    | none =>
      simp only [stepItem]
      split_ifs with h
      · intro x hx
        simp only [Finset.mem_insert] at hx
        simp only [optSet, Finset.mem_union, Finset.mem_singleton]
        tauto
      · exact Finset.subset_union_left
    | some o =>
      simp only [stepItem]
      split_ifs with h1 h2 h2 <;>
        intro x hx <;>
        simp only [Finset.mem_insert] at hx <;>
        simp only [optSet, Finset.mem_union, Finset.mem_insert, Finset.mem_singleton] <;>
        tauto

lemma scanOnce_mono (items : List ScanItem) (st : PropState) :
    st.sink ⊆ (scanOnce items st).1.sink ∧ st.buf ⊆ (scanOnce items st).1.buf := by
  induction items generalizing st with
  | nil => exact ⟨subset_rfl, subset_rfl⟩
  | cons it rest ih =>
    have h1 := stepItem_mono st it
    have h2 := ih (stepItem st it).1
    exact ⟨h1.1.trans h2.1, h1.2.trans h2.2⟩

lemma scanOnce_flag_false (items : List ScanItem) (st : PropState)
    (h : (scanOnce items st).2 = false) : (scanOnce items st).1 = st := by
  induction items generalizing st with
  | nil => rfl
  | cons it rest ih =>
    simp only [scanOnce, Bool.or_eq_false_iff] at h ⊢
    have h1 := stepItem_flag_false st it h.1
    rw [h1] at h ⊢
    exact ih st h.2

lemma scanOnce_flag_true (items : List ScanItem) (st : PropState)
    (h : (scanOnce items st).2 = true) : st.buf ⊂ (scanOnce items st).1.buf := by
  induction items generalizing st with
  | nil => simp [scanOnce] at h
  | cons it rest ih =>
    simp only [scanOnce, Bool.or_eq_true] at h ⊢
    rcases h with h | h
    · exact (stepItem_flag_true st it h).trans_subset (scanOnce_mono rest _).2
    · have := ih (stepItem st it).1 h
      exact (stepItem_mono st it).2.trans_ssubset this

lemma scanOnce_buf_bound (items : List ScanItem) (st : PropState) :
    (scanOnce items st).1.buf ⊆ st.buf ∪ bufUniv items := by
  induction items generalizing st with
  | nil => exact Finset.subset_union_left
  | cons it rest ih =>
    simp only [scanOnce, bufUniv]
    refine (ih (stepItem st it).1).trans ?_
    have h1 := stepItem_buf_bound st it
    intro x hx
    simp only [Finset.mem_union] at hx ⊢
    rcases hx with hx | hx
    · have h2 := h1 hx
      simp only [Finset.mem_union, Finset.mem_insert] at h2 ⊢
      rcases h2 with h2 | h2 | h2
      · exact Or.inl h2
      · exact Or.inr (Or.inl h2)
      · exact Or.inr (Or.inr (Or.inl h2))
    · exact Or.inr (Finset.mem_insert_of_mem (Finset.mem_union_right _ hx))

lemma scanOnce_sink_bound (items : List ScanItem) (st : PropState) :
    (scanOnce items st).1.sink ⊆ st.sink ∪ sinkUniv items := by
  induction items generalizing st with
  | nil => exact Finset.subset_union_left
  | cons it rest ih =>
    simp only [scanOnce, sinkUniv]
    refine (ih (stepItem st it).1).trans ?_
    have h1 := stepItem_sink_bound st it
    intro x hx
    simp only [Finset.mem_union] at hx ⊢
    rcases hx with hx | hx
    · have h2 := h1 hx
      simp only [Finset.mem_union] at h2
      rcases h2 with h2 | h2
      · exact Or.inl h2
      · exact Or.inr (Or.inl h2)
    · exact Or.inr (Or.inr hx)

lemma propagate_mono (items : List ScanItem) (fuel : Nat) (st : PropState) :
    st.sink ⊆ (propagate items fuel st).sink ∧
    st.buf ⊆ (propagate items fuel st).buf := by
  induction fuel generalizing st with
  | zero => exact ⟨subset_rfl, subset_rfl⟩
  | succ f ih =>
    simp only [propagate]
    split_ifs with h
    · have h1 := scanOnce_mono items st
      have h2 := ih (scanOnce items st).1
      exact ⟨h1.1.trans h2.1, h1.2.trans h2.2⟩
    · exact scanOnce_mono items st

lemma propagate_buf_bound (items : List ScanItem) (fuel : Nat) (st : PropState) :
    (propagate items fuel st).buf ⊆ st.buf ∪ bufUniv items := by
  induction fuel generalizing st with
  | zero => exact Finset.subset_union_left
  | succ f ih =>
    simp only [propagate]
    split_ifs with h
    · refine (ih (scanOnce items st).1).trans ?_
      have h1 := scanOnce_buf_bound items st
      intro x hx
      simp only [Finset.mem_union] at hx ⊢
      rcases hx with hx | hx
      · have h2 := h1 hx
        simp only [Finset.mem_union] at h2
        tauto
      · tauto
    · exact scanOnce_buf_bound items st

lemma propagate_sink_bound (items : List ScanItem) (fuel : Nat) (st : PropState) :
    (propagate items fuel st).sink ⊆ st.sink ∪ sinkUniv items := by
  induction fuel generalizing st with
  | zero => exact Finset.subset_union_left
  | succ f ih =>
    simp only [propagate]
    split_ifs with h
    · refine (ih (scanOnce items st).1).trans ?_
      have h1 := scanOnce_sink_bound items st
      intro x hx
      simp only [Finset.mem_union] at hx ⊢
      rcases hx with hx | hx
      · have h2 := h1 hx
        simp only [Finset.mem_union] at h2
        tauto
      · tauto
    · exact scanOnce_sink_bound items st

lemma propagate_fixed (items : List ScanItem) (U : Finset SigBit)
    (hU : bufUniv items ⊆ U) :
    ∀ (fuel : Nat) (st : PropState), st.buf ⊆ U → U.card - st.buf.card < fuel →
      (scanOnce items (propagate items fuel st)).2 = false := by
  intro fuel
  induction fuel with
  | zero => intro st _ h; omega
  | succ f ih =>
    intro st hst hcard
    simp only [propagate]
    split_ifs with h
    · have hgrow := scanOnce_flag_true items st h
      have hsub : (scanOnce items st).1.buf ⊆ U := by
        refine (scanOnce_buf_bound items st).trans ?_
        exact Finset.union_subset hst hU
      have hlt : st.buf.card < (scanOnce items st).1.buf.card :=
        Finset.card_lt_card hgrow
      have hle : (scanOnce items st).1.buf.card ≤ U.card :=
        Finset.card_le_card hsub
      have hcard2 : U.card - (scanOnce items st).1.buf.card < f := by omega
      exact ih (scanOnce items st).1 hsub hcard2
    · have hflag : (scanOnce items st).2 = false := by
        simpa using h
      rw [scanOnce_flag_false items st hflag]
      exact hflag

lemma propagateRun_fixed (items : List ScanItem) (st : PropState) :
    (scanOnce items (propagateRun items st)).2 = false := by
  have hle : (st.buf ∪ bufUniv items).card - st.buf.card <
      propFuel items st := by
    simp only [propFuel]
    omega
  exact propagate_fixed items (st.buf ∪ bufUniv items)
    Finset.subset_union_right (propFuel items st) st
    Finset.subset_union_left hle

/-!
Lemmas about the module ordering.
-/

lemma findModule_spec (d : List Module) (t : WName) (T : Module)
    (h : findModule d t = some T) : T ∈ d ∧ T.name = t := by
  unfold findModule at h
  refine ⟨List.mem_of_find?_eq_some h, ?_⟩
  have := List.find?_some h
  simpa using this

lemma beforeIn_append (l t : List Module) (T M : Module)
    (h : beforeIn l T M) : beforeIn (l ++ t) T M := by
  obtain ⟨l1, l2, hl, hT⟩ := h
  refine ⟨l1, l2 ++ t, ?_, hT⟩
  rw [hl]
  simp

lemma closedSched_append (design l : List Module) (m : Module)
    (hc : ClosedSched design l)
    (hch : ∀ c ∈ m.cells, ∀ T, findModule design c.ctype = some T → T ∈ l) :
    ClosedSched design (l ++ [m]) := by
  intro M hM c hcc T hT
  rcases List.mem_append.mp hM with hM | hM
  · exact beforeIn_append _ _ _ _ (hc M hM c hcc T hT)
  · have hMm : M = m := by simpa using hM
    subst hMm
    exact ⟨l, [], rfl, hch c hcc T hT⟩

lemma mq_front (d : List Module) : ∀ fuel : Nat,
    (∀ (m : Module) (s : List Module), ∃ t, module_queue d fuel m s = s ++ t) ∧
    (∀ (cs : List Cell) (s : List Module), ∃ t, mqCells d fuel cs s = s ++ t) := by
  intro fuel
  induction fuel with
  | zero =>
    constructor
    · intro m s
      exact ⟨[], by simp [module_queue]⟩
    · intro cs
      induction cs with
      | nil => intro s; exact ⟨[], by simp [mqCells]⟩
      | cons c rest ihc =>
        intro s
        simp only [mqCells]
        cases hf : findModule d c.ctype with
        | none => exact ihc s
        | some sub =>
          obtain ⟨t, ht⟩ := ihc s
          exact ⟨t, by simp [module_queue, ht]⟩
  | succ f ih =>
    have hmq : ∀ (m : Module) (s : List Module), ∃ t, module_queue d (f + 1) m s = s ++ t := by
      intro m s
      simp only [module_queue]
      split_ifs with h
      · exact ⟨[], by simp⟩
      · obtain ⟨t, ht⟩ := ih.2 m.cells s
        exact ⟨t ++ [m], by rw [ht, List.append_assoc]⟩
    refine ⟨hmq, ?_⟩
    intro cs
    induction cs with
    | nil => intro s; exact ⟨[], by simp [mqCells]⟩
    | cons c rest ihc =>
      intro s
      simp only [mqCells]
      cases hf : findModule d c.ctype with
      | none => exact ihc s
      | some sub =>
        obtain ⟨t1, h1⟩ := hmq sub s
        obtain ⟨t2, h2⟩ := ihc (module_queue d (f + 1) sub s)
        refine ⟨t1 ++ t2, ?_⟩
        change mqCells d (f + 1) rest (module_queue d (f + 1) sub s) = _
        rw [h2, h1, List.append_assoc]

lemma mq_additions (d : List Module) (rank : WName → Nat)
    (hrank : ∀ M ∈ d, ∀ c ∈ M.cells, ∀ T,
      findModule d c.ctype = some T → rank T.name < rank M.name) :
    ∀ fuel : Nat,
    (∀ (m : Module) (s : List Module), m ∈ d →
      ∀ x ∈ module_queue d fuel m s, x ∈ s ∨ (x ∈ d ∧ rank x.name ≤ rank m.name)) ∧
    (∀ (K : Nat) (cs : List Cell) (s : List Module),
      (∀ c ∈ cs, ∀ T, findModule d c.ctype = some T → rank T.name < K) →
      ∀ x ∈ mqCells d fuel cs s, x ∈ s ∨ (x ∈ d ∧ rank x.name < K)) := by
  intro fuel
  induction fuel with
  | zero =>
    constructor
    · intro m s _ x hx
      simp only [module_queue] at hx
      exact Or.inl hx
    · intro K cs
      induction cs with
      | nil =>
        intro s _ x hx
        simp only [mqCells] at hx
        exact Or.inl hx
      | cons c rest ihc =>
        intro s hK x hx
        simp only [mqCells] at hx
        cases hf : findModule d c.ctype with
        | none =>
          rw [hf] at hx
          exact ihc s (fun c' hc' => hK c' (List.mem_cons_of_mem _ hc')) x hx
        | some sub =>
          rw [hf] at hx
          simp only [module_queue] at hx
          exact ihc s (fun c' hc' => hK c' (List.mem_cons_of_mem _ hc')) x hx
  | succ f ih =>
    have hmq : ∀ (m : Module) (s : List Module), m ∈ d →
        ∀ x ∈ module_queue d (f + 1) m s, x ∈ s ∨ (x ∈ d ∧ rank x.name ≤ rank m.name) := by
      intro m s hm x hx
      simp only [module_queue] at hx
      split_ifs at hx with h
      · exact Or.inl hx
      · rcases List.mem_append.mp hx with hx | hx
        · rcases ih.2 (rank m.name) m.cells s (fun c hc T hT => hrank m hm c hc T hT) x hx with
            hx | ⟨hxd, hxr⟩
          · exact Or.inl hx
          · exact Or.inr ⟨hxd, Nat.le_of_lt hxr⟩
        · have hxm : x = m := by simpa using hx
          subst hxm
          exact Or.inr ⟨hm, Nat.le_refl _⟩
    refine ⟨hmq, ?_⟩
    intro K cs
    induction cs with
    | nil =>
      intro s _ x hx
      simp only [mqCells] at hx
      exact Or.inl hx
    | cons c rest ihc =>
      intro s hK x hx
      simp only [mqCells] at hx
      cases hf : findModule d c.ctype with
      | none =>
        rw [hf] at hx
        exact ihc s (fun c' hc' => hK c' (List.mem_cons_of_mem _ hc')) x hx
      | some sub =>
        rw [hf] at hx
        rcases ihc (module_queue d (f + 1) sub s)
            (fun c' hc' => hK c' (List.mem_cons_of_mem _ hc')) x hx with hx2 | hx2
        · have hsub := findModule_spec d c.ctype sub hf
          rcases hmq sub s hsub.1 x hx2 with hx3 | ⟨hxd, hxr⟩
          · exact Or.inl hx3
          · refine Or.inr ⟨hxd, ?_⟩
            have := hK c (List.mem_cons_self _ _) sub hf
            omega
        · exact Or.inr hx2

lemma mq_main (d : List Module) (rank : WName → Nat)
    (hrank : ∀ M ∈ d, ∀ c ∈ M.cells, ∀ T,
      findModule d c.ctype = some T → rank T.name < rank M.name)
    (hnd : NodupNames d) :
    ∀ fuel : Nat,
    (∀ (m : Module) (s : List Module), m ∈ d → rank m.name < fuel →
      (∀ x ∈ s, x ∈ d) → NodupNames s → ClosedSched d s →
      m ∈ module_queue d fuel m s ∧
      ClosedSched d (module_queue d fuel m s) ∧
      (∀ x ∈ module_queue d fuel m s, x ∈ d) ∧
      NodupNames (module_queue d fuel m s)) ∧
    (∀ (cs : List Cell) (s : List Module),
      (∀ c ∈ cs, ∀ T, findModule d c.ctype = some T → rank T.name < fuel) →
      (∀ x ∈ s, x ∈ d) → NodupNames s → ClosedSched d s →
      ClosedSched d (mqCells d fuel cs s) ∧
      (∀ x ∈ mqCells d fuel cs s, x ∈ d) ∧
      NodupNames (mqCells d fuel cs s) ∧
      (∀ c ∈ cs, ∀ T, findModule d c.ctype = some T → T ∈ mqCells d fuel cs s)) := by
  intro fuel
  induction fuel with
  | zero =>
    constructor
    · intro m s _ hr
      exact absurd hr (Nat.not_lt_zero _)
    · intro cs
      induction cs with
      | nil =>
        intro s _ hsd hsn hsc
        simp only [mqCells]
        exact ⟨hsc, hsd, hsn, by intro c hc; cases hc⟩
      | cons c rest ihc =>
        intro s hK hsd hsn hsc
        cases hf : findModule d c.ctype with
        | none =>
          have h := ihc s (fun c' hc' => hK c' (List.mem_cons_of_mem _ hc')) hsd hsn hsc
          have heq : mqCells d 0 (c :: rest) s = mqCells d 0 rest s := by
            simp only [mqCells]
            rw [hf]
          rw [heq]
          refine ⟨h.1, h.2.1, h.2.2.1, ?_⟩
          intro c' hc' T hT
          rcases List.mem_cons.mp hc' with rfl | hc'
          · rw [hf] at hT; cases hT
          · exact h.2.2.2 c' hc' T hT
        | some sub =>
          exfalso
          have := hK c (List.mem_cons_self _ _) sub hf
          exact absurd this (Nat.not_lt_zero _)
  | succ f ih =>
    have hmq : ∀ (m : Module) (s : List Module), m ∈ d → rank m.name < f + 1 →
        (∀ x ∈ s, x ∈ d) → NodupNames s → ClosedSched d s →
        m ∈ module_queue d (f + 1) m s ∧
        ClosedSched d (module_queue d (f + 1) m s) ∧
        (∀ x ∈ module_queue d (f + 1) m s, x ∈ d) ∧
        NodupNames (module_queue d (f + 1) m s) := by
      intro m s hm hr hsd hsn hsc
      simp only [module_queue]
      split_ifs with h
      · have hm_in : m ∈ s := by
          rcases List.mem_map.mp h with ⟨x, hx, hxn⟩
          have hxm : x = m := List.inj_on_of_nodup_map hnd (hsd x hx) hm hxn
          rw [← hxm]
          exact hx
        exact ⟨hm_in, hsc, hsd, hsn⟩
      · have hcells : ∀ c ∈ m.cells, ∀ T, findModule d c.ctype = some T →
            rank T.name < f := by
          intro c hc T hT
          have h1 := hrank m hm c hc T hT
          omega
        obtain ⟨hC, hD, hN, hK⟩ := ih.2 m.cells s hcells hsd hsn hsc
        have hmnotin : m.name ∉ (mqCells d f m.cells s).map Module.name := by
          intro hmem
          rcases List.mem_map.mp hmem with ⟨x, hx, hxn⟩
          rcases (mq_additions d rank hrank f).2 (rank m.name) m.cells s
              (fun c hc T hT => hrank m hm c hc T hT) x hx with hx2 | ⟨_, hx2⟩
          · apply h
            rw [← hxn]
            exact List.mem_map_of_mem _ hx2
          · rw [hxn] at hx2
            omega
        refine ⟨by simp, ?_, ?_, ?_⟩
        · exact closedSched_append d _ m hC (fun c hc T hT => hK c hc T hT)
        · intro x hx
          rcases List.mem_append.mp hx with hx | hx
          · exact hD x hx
          · have hxm : x = m := by simpa using hx
            rw [hxm]
            exact hm
        · unfold NodupNames
          rw [List.map_append, List.nodup_append]
          refine ⟨hN, by simp, ?_⟩
          intro a ha hb
          simp only [List.map_cons, List.map_nil, List.mem_singleton] at hb
          rw [hb] at ha
          exact hmnotin ha
    refine ⟨hmq, ?_⟩
    intro cs
    induction cs with
    | nil =>
      intro s _ hsd hsn hsc
      simp only [mqCells]
      exact ⟨hsc, hsd, hsn, by intro c hc; cases hc⟩
    | cons c rest ihc =>
      intro s hK hsd hsn hsc
      cases hf : findModule d c.ctype with
      | none =>
        have heq : mqCells d (f + 1) (c :: rest) s = mqCells d (f + 1) rest s := by
          simp only [mqCells]
          rw [hf]
        rw [heq]
        have h := ihc s (fun c' hc' => hK c' (List.mem_cons_of_mem _ hc')) hsd hsn hsc
        refine ⟨h.1, h.2.1, h.2.2.1, ?_⟩
        intro c' hc' T hT
        rcases List.mem_cons.mp hc' with rfl | hc'
        · rw [hf] at hT; cases hT
        · exact h.2.2.2 c' hc' T hT
      | some sub =>
        have heq : mqCells d (f + 1) (c :: rest) s =
            mqCells d (f + 1) rest (module_queue d (f + 1) sub s) := by
          simp only [mqCells]
          rw [hf]
        rw [heq]
        have hsubd := findModule_spec d c.ctype sub hf
        have hsubrank : rank sub.name < f + 1 := hK c (List.mem_cons_self _ _) sub hf
        obtain ⟨hsub_in, hC1, hD1, hN1⟩ := hmq sub s hsubd.1 hsubrank hsd hsn hsc
        have h2 := ihc (module_queue d (f + 1) sub s)
            (fun c' hc' => hK c' (List.mem_cons_of_mem _ hc')) hD1 hN1 hC1
        refine ⟨h2.1, h2.2.1, h2.2.2.1, ?_⟩
        intro c' hc' T hT
        rcases List.mem_cons.mp hc' with rfl | hc'
        · rw [hf] at hT
          injection hT with hT
          rw [← hT]
          obtain ⟨t, ht⟩ := (mq_front d (f + 1)).2 rest (module_queue d (f + 1) sub s)
          rw [ht]
          exact List.mem_append_left _ hsub_in
        · exact h2.2.2.2 c' hc' T hT

lemma moduleOrder_front (d : List Module) (fuel : Nat) :
    ∀ (roots acc : List Module),
    ∃ t, roots.foldl (fun s r => module_queue d fuel r s) acc = acc ++ t := by
  intro roots
  induction roots with
  | nil =>
    intro acc
    exact ⟨[], by simp⟩
  | cons r rest ihr =>
    intro acc
    simp only [List.foldl_cons]
    obtain ⟨t1, h1⟩ := (mq_front d fuel).1 r acc
    obtain ⟨t2, h2⟩ := ihr (module_queue d fuel r acc)
    exact ⟨t1 ++ t2, by rw [h2, h1, List.append_assoc]⟩

lemma moduleOrder_fold (d : List Module) (rank : WName → Nat)
    (hrank : ∀ M ∈ d, ∀ c ∈ M.cells, ∀ T,
      findModule d c.ctype = some T → rank T.name < rank M.name)
    (hnd : NodupNames d) (fuel : Nat) :
    ∀ (roots acc : List Module),
    (∀ r ∈ roots, r ∈ d ∧ rank r.name < fuel) →
    (∀ x ∈ acc, x ∈ d) → NodupNames acc → ClosedSched d acc →
    (∀ r ∈ roots, r ∈ roots.foldl (fun s x => module_queue d fuel x s) acc) ∧
    ClosedSched d (roots.foldl (fun s x => module_queue d fuel x s) acc) ∧
    (∀ x ∈ roots.foldl (fun s x => module_queue d fuel x s) acc, x ∈ d) ∧
    NodupNames (roots.foldl (fun s x => module_queue d fuel x s) acc) := by
  intro roots
  induction roots with
  | nil =>
    intro acc _ hacc hnn hcs
    refine ⟨?_, hcs, hacc, hnn⟩
    intro r hr
    cases hr
  | cons r rest ihr =>
    intro acc hroots hacc hnn hcs
    simp only [List.foldl_cons]
    obtain ⟨hrin, hC, hD, hN⟩ := (mq_main d rank hrank hnd fuel).1 r acc
      (hroots r (List.mem_cons_self _ _)).1 (hroots r (List.mem_cons_self _ _)).2 hacc hnn hcs
    have h2 := ihr (module_queue d fuel r acc)
      (fun r' hr' => hroots r' (List.mem_cons_of_mem _ hr')) hD hN hC
    refine ⟨?_, h2.2.1, h2.2.2.1, h2.2.2.2⟩
    intro r' hr'
    rcases List.mem_cons.mp hr' with rfl | hr'
    · obtain ⟨t, ht⟩ := moduleOrder_front d fuel rest (module_queue d fuel r' acc)
      rw [ht]
      exact List.mem_append_left _ hrin
    · exact h2.1 r' hr'

/-!
Lemmas about the insertion stage bookkeeping,
feeding the port-identity and frame theorems.
-/

lemma insertForBit_frame (cfg : Config) (bi top : Bool) (w : Wire)
    (mb : SigBit) (st : InsState) :
    st.counter ≤ (insertForBit cfg bi top w mb st).counter ∧
    (∃ dw, (insertForBit cfg bi top w mb st).newWires = st.newWires ++ dw ∧
      ∀ v ∈ dw, ∃ k, v.name = WName.auto k ∧ st.counter ≤ k ∧
        k < (insertForBit cfg bi top w mb st).counter) ∧
    (insertForBit cfg bi top w mb st).inputQueue = st.inputQueue := by
  unfold insertForBit
  cases h2 : (w.port_input && !(cfg.inpadCelltype == "") && top) with
  | true =>
    simp only [h2, Bool.not_true, Bool.false_or, reduceIte]
    cases h1 : (!(cfg.bufCelltype == "") && bi) with
    | true =>
      simp only [h1, reduceIte]
      refine ⟨by omega, ⟨[⟨WName.auto (st.counter + 1), 1, false, false, {}⟩,
        ⟨WName.auto (st.counter + 2 + 1), 1, false, false, {}⟩], by simp, ?_⟩, trivial⟩
      intro v hv
      rcases List.mem_cons.mp hv with rfl | hv
      · exact ⟨st.counter + 1, rfl, by omega, by omega⟩
      · rcases List.mem_cons.mp hv with rfl | hv
        · exact ⟨st.counter + 2 + 1, rfl, by omega, by omega⟩
        · cases hv
    | false =>
      simp only [h1, Bool.false_eq_true, reduceIte]
      refine ⟨by omega, ⟨[⟨WName.auto (st.counter + 1), 1, false, false, {}⟩], by simp, ?_⟩, trivial⟩
      intro v hv
      rcases List.mem_cons.mp hv with rfl | hv
      · exact ⟨st.counter + 1, rfl, by omega, by omega⟩
      · cases hv
  | false =>
    simp only [h2, Bool.not_false, Bool.or_true, Bool.true_or, Bool.and_true,
      Bool.false_eq_true, reduceIte]
    cases h1 : (!(cfg.bufCelltype == "")) with
    | true =>
      simp only [h1, reduceIte]
      refine ⟨by omega, ⟨[⟨WName.auto (st.counter + 1), 1, false, false, {}⟩], by simp, ?_⟩, trivial⟩
      intro v hv
      rcases List.mem_cons.mp hv with rfl | hv
      · exact ⟨st.counter + 1, rfl, by omega, by omega⟩
      · cases hv
    | false =>
      simp only [h1, Bool.false_and, Bool.false_eq_true, reduceIte]
      exact ⟨Nat.le_refl _, ⟨[], by simp, by intro v hv; cases hv⟩, trivial⟩

lemma wireBitStep_frame (cfg : Config) (bi top : Bool) (modName : WName)
    (sinkW bufW driven : Finset SigBit) (sm : Smap) (w : Wire)
    (st : InsState) (ib : List Nat) (i : Nat) :
    st.counter ≤ (wireBitStep cfg bi top modName sinkW bufW driven sm w (st, ib) i).1.counter ∧
    (∃ dw, (wireBitStep cfg bi top modName sinkW bufW driven sm w (st, ib) i).1.newWires =
        st.newWires ++ dw ∧
      ∀ v ∈ dw, ∃ k, v.name = WName.auto k ∧ st.counter ≤ k ∧
        k < (wireBitStep cfg bi top modName sinkW bufW driven sm w (st, ib) i).1.counter) ∧
    (wireBitStep cfg bi top modName sinkW bufW driven sm w (st, ib) i).1.inputQueue =
      st.inputQueue ∧
    ((wireBitStep cfg bi top modName sinkW bufW driven sm w (st, ib) i).2 = ib ∨
      w.port_input = true) := by
  unfold wireBitStep
  cases hc : classifyBit sinkW bufW driven sm top w i with
  | alreadyBuf =>
    split_ifs with h <;>
      exact ⟨Nat.le_refl _, ⟨[], by simp, by intro v hv; cases hv⟩, rfl, Or.inl rfl⟩
  | notSink => exact ⟨Nat.le_refl _, ⟨[], by simp, by intro v hv; cases hv⟩, rfl, Or.inl rfl⟩
  | doInsert =>
    have h := insertForBit_frame cfg bi top w (sigApply sm (SigBit.wireBit w.name i)) st
    refine ⟨h.1, h.2.1, h.2.2, ?_⟩
    by_cases hin : w.port_input = true
    · exact Or.inr hin
    · left
      simp [hin]
  | deferUp => exact ⟨Nat.le_refl _, ⟨[], by simp, by intro v hv; cases hv⟩, rfl, Or.inl rfl⟩
  | noAction => exact ⟨Nat.le_refl _, ⟨[], by simp, by intro v hv; cases hv⟩, rfl, Or.inl rfl⟩

lemma bitsFold_frame (cfg : Config) (bi top : Bool) (modName : WName)
    (sinkW bufW driven : Finset SigBit) (sm : Smap) (w : Wire) :
    ∀ (l : List Nat) (st : InsState) (ib : List Nat),
    st.counter ≤ (l.foldl (wireBitStep cfg bi top modName sinkW bufW driven sm w) (st, ib)).1.counter ∧
    (∃ dw, (l.foldl (wireBitStep cfg bi top modName sinkW bufW driven sm w) (st, ib)).1.newWires =
        st.newWires ++ dw ∧
      ∀ v ∈ dw, ∃ k, v.name = WName.auto k ∧ st.counter ≤ k ∧
        k < (l.foldl (wireBitStep cfg bi top modName sinkW bufW driven sm w) (st, ib)).1.counter) ∧
    (l.foldl (wireBitStep cfg bi top modName sinkW bufW driven sm w) (st, ib)).1.inputQueue =
      st.inputQueue ∧
    ((l.foldl (wireBitStep cfg bi top modName sinkW bufW driven sm w) (st, ib)).2 = ib ∨
      w.port_input = true) := by
  intro l
  induction l with
  | nil =>
    intro st ib
    exact ⟨Nat.le_refl _, ⟨[], by simp, by intro v hv; cases hv⟩, rfl, Or.inl rfl⟩
  | cons i rest ih =>
    intro st ib
    simp only [List.foldl_cons]
    obtain ⟨h1, ⟨dw1, hw1, hn1⟩, hq1, hi1⟩ :=
      wireBitStep_frame cfg bi top modName sinkW bufW driven sm w st ib i
    obtain ⟨h2, ⟨dw2, hw2, hn2⟩, hq2, hi2⟩ :=
      ih (wireBitStep cfg bi top modName sinkW bufW driven sm w (st, ib) i).1
         (wireBitStep cfg bi top modName sinkW bufW driven sm w (st, ib) i).2
    rw [Prod.mk.eta] at h2 hw2 hn2 hq2 hi2
    refine ⟨by omega, ⟨dw1 ++ dw2, ?_, ?_⟩, ?_, ?_⟩
    · rw [hw2, hw1, List.append_assoc]
    · intro v hv
      rcases List.mem_append.mp hv with hv | hv
      · obtain ⟨k, hk, hk1, hk2⟩ := hn1 v hv
        exact ⟨k, hk, by omega, by omega⟩
      · obtain ⟨k, hk, hk1, hk2⟩ := hn2 v hv
        exact ⟨k, hk, by omega, by omega⟩
    · rw [hq2, hq1]
    · rcases hi2 with hi2 | hi2
      · rcases hi1 with hi1 | hi1
        · exact Or.inl (by rw [hi2, hi1])
        · exact Or.inr hi1
      · exact Or.inr hi2

lemma processWire_frame (cfg : Config) (bi select top : Bool)
    (wsel : WName → Bool) (sm : Smap) (modName : WName)
    (sinkW bufW driven : Finset SigBit) (st : InsState) (w : Wire) :
    st.counter ≤ (processWire cfg bi select top wsel sm modName sinkW bufW driven st w).counter ∧
    (∃ dw, (processWire cfg bi select top wsel sm modName sinkW bufW driven st w).newWires =
        st.newWires ++ dw ∧
      ∀ v ∈ dw, ∃ k, v.name = WName.auto k ∧ st.counter ≤ k ∧
        k < (processWire cfg bi select top wsel sm modName sinkW bufW driven st w).counter) ∧
    ((processWire cfg bi select top wsel sm modName sinkW bufW driven st w).inputQueue =
        st.inputQueue ∨
      ∃ k, (processWire cfg bi select top wsel sm modName sinkW bufW driven st w).inputQueue =
          st.inputQueue ++ [(w.name, WName.auto k)] ∧
        st.counter ≤ k ∧
        k < (processWire cfg bi select top wsel sm modName sinkW bufW driven st w).counter ∧
        w.port_input = true ∧ w.port_output = false ∧
        (⟨WName.auto k, w.width, w.port_input, w.port_output, w.attrs⟩ : Wire) ∈
          (processWire cfg bi select top wsel sm modName sinkW bufW driven st w).newWires) := by
  unfold processWire
  split_ifs with hflags hproc hout
  · exact ⟨Nat.le_refl _, ⟨[], by simp, by intro v hv; cases hv⟩, Or.inl rfl⟩
  · exact ⟨Nat.le_refl _, ⟨[], by simp, by intro v hv; cases hv⟩, Or.inl rfl⟩
  · exact ⟨Nat.le_refl _, ⟨[], by simp, by intro v hv; cases hv⟩, Or.inl rfl⟩
  · obtain ⟨h1, ⟨dw1, hw1, hn1⟩, hq1, hi1⟩ :=
      bitsFold_frame cfg bi top modName sinkW bufW driven sm w (List.range w.width) st []
    by_cases hib : ((List.range w.width).foldl
        (wireBitStep cfg bi top modName sinkW bufW driven sm w) (st, [])).2.isEmpty
    · simp only [hib, if_true]
      exact ⟨h1, ⟨dw1, hw1, hn1⟩, Or.inl hq1⟩
    · simp only [hib, Bool.false_eq_true, if_false]
      have hinp : w.port_input = true := by
        rcases hi1 with hi1 | hi1
        · rw [hi1] at hib
          simp at hib
        · exact hi1
      have hout2 : w.port_output = false := by
        by_cases ho : w.port_output = true
        · exfalso
          apply hflags
          rw [hinp, ho]
          rfl
        · simpa using ho
      refine ⟨by omega, ⟨dw1 ++ [⟨WName.auto ((List.range w.width).foldl
          (wireBitStep cfg bi top modName sinkW bufW driven sm w) (st, [])).1.counter, w.width,
        w.port_input, w.port_output, w.attrs⟩], ?_, ?_⟩, ?_⟩
      · rw [hw1, List.append_assoc]
      · intro v hv
        rcases List.mem_append.mp hv with hv | hv
        · obtain ⟨k, hk, hk1, hk2⟩ := hn1 v hv
          exact ⟨k, hk, hk1, by omega⟩
        · have hv2 : v = ⟨WName.auto ((List.range w.width).foldl
              (wireBitStep cfg bi top modName sinkW bufW driven sm w) (st, [])).1.counter, w.width,
              w.port_input, w.port_output, w.attrs⟩ := by simpa using hv
          rw [hv2]
          exact ⟨_, rfl, by omega, by omega⟩
      · refine Or.inr ⟨((List.range w.width).foldl
            (wireBitStep cfg bi top modName sinkW bufW driven sm w) (st, [])).1.counter,
            ?_, by omega, by omega, hinp, hout2, ?_⟩
        · rw [hq1]
        · rw [hw1]
          simp

lemma swapStage_untouched :
    ∀ (q : List (WName × WName)) (wires : List Wire) (cells : List Cell)
      (conns : List (SigSpec × SigSpec)) (w : Wire),
    w ∈ wires → (∀ p ∈ q, w.name ≠ p.1 ∧ w.name ≠ p.2) →
    w ∈ (swapStage q wires cells conns).1 := by
  intro q
  induction q with
  | nil =>
    intro wires cells conns w hw _
    exact hw
  | cons p rest ih =>
    intro wires cells conns w hw hq
    simp only [swapStage, List.foldl_cons]
    have h1 := hq p (List.mem_cons_self _ _)
    have hmem : w ∈ (swapStep (wires, cells, conns) p).1 := by
      simp only [swapStep]
      have himg : (fun x : Wire =>
          let x1 : Wire := { x with name := swapName p.1 p.2 x.name }
          if x1.name = p.2 then
            { x1 with port_input := false, port_output := false, attrs := {} }
          else x1) w = w := by
        have hn : swapName p.1 p.2 w.name = w.name := by
          unfold swapName
          rw [if_neg h1.1, if_neg h1.2]
        simp only [hn]
        rw [if_neg h1.2]
      rw [← himg]
      exact List.mem_map_of_mem _ hw
    exact ih _ _ _ w hmem (fun p' hp' => hq p' (List.mem_cons_of_mem _ hp'))

lemma swapStage_renamed :
    ∀ (q : List (WName × WName)) (wires : List Wire) (cells : List Cell)
      (conns : List (SigSpec × SigSpec)) (o n : WName) (r : Wire),
    (o, n) ∈ q → r ∈ wires → r.name = n → o ≠ n →
    (q.map Prod.fst).Nodup → (q.map Prod.snd).Nodup →
    (∀ p ∈ q, ∀ p2 ∈ q, (p : WName × WName).1 ≠ (p2 : WName × WName).2) →
    ({ r with name := o } : Wire) ∈ (swapStage q wires cells conns).1 := by
  intro q
  induction q with
  | nil =>
    intro wires cells conns o n r hq
    cases hq
  | cons p rest ih =>
    intro wires cells conns o n r hq hr hrn hon hf hs hfs
    simp only [swapStage, List.foldl_cons]
    rcases List.mem_cons.mp hq with hq | hq
    · -- the head pair is ours
      have hmem : ({ r with name := o } : Wire) ∈ (swapStep (wires, cells, conns) p).1 := by
        simp only [swapStep]
        have himg : (fun x : Wire =>
            let x1 : Wire := { x with name := swapName p.1 p.2 x.name }
            if x1.name = p.2 then
              { x1 with port_input := false, port_output := false, attrs := {} }
            else x1) r = { r with name := o } := by
          have hn : swapName p.1 p.2 r.name = o := by
            unfold swapName
            rw [hrn, ← hq]
            simp only []
            rw [if_neg (Ne.symm hon)]
            simp
          simp only [hn]
          rw [if_neg]
          rw [← hq]
          exact hon
        rw [← himg]
        exact List.mem_map_of_mem _ hr
      refine swapStage_untouched rest _ _ _ _ hmem ?_
      intro p' hp'
      constructor
      · -- o not an old of rest: olds nodup
        intro hc
        have hc2 : o = p'.1 := hc
        rw [← hq] at hf
        simp only [List.map_cons, List.nodup_cons] at hf
        exact hf.1 (hc2 ▸ List.mem_map_of_mem Prod.fst hp')
      · -- o not a new of any pair
        intro hc
        have hc2 : o = p'.2 := hc
        exact hfs (o, n) (List.mem_cons.mpr (Or.inl hq)) p'
          (List.mem_cons_of_mem _ hp') hc2
    · -- our pair is in the tail; r survives the head swap unchanged
      have hne1 : r.name ≠ p.1 := by
        rw [hrn]
        intro hc
        exact hfs p (List.mem_cons_self _ _) (o, n) (List.mem_cons_of_mem _ hq) hc.symm
      have hne2 : r.name ≠ p.2 := by
        rw [hrn]
        intro hc
        simp only [List.map_cons, List.nodup_cons] at hs
        exact hs.1 (hc ▸ List.mem_map_of_mem Prod.snd hq)
      have hmem : r ∈ (swapStep (wires, cells, conns) p).1 := by
        simp only [swapStep]
        have himg : (fun x : Wire =>
            let x1 : Wire := { x with name := swapName p.1 p.2 x.name }
            if x1.name = p.2 then
              { x1 with port_input := false, port_output := false, attrs := {} }
            else x1) r = r := by
          have hn : swapName p.1 p.2 r.name = r.name := by
            unfold swapName
            rw [if_neg hne1, if_neg hne2]
          simp only [hn]
          rw [if_neg hne2]
        rw [← himg]
        exact List.mem_map_of_mem _ hr
      refine ih _ _ _ o n r hq hmem hrn hon ?_ ?_ ?_
      · exact (List.nodup_cons.mp (by simpa using hf)).2
      · exact (List.nodup_cons.mp (by simpa using hs)).2
      · intro a ha b hb
        exact hfs a (List.mem_cons_of_mem _ ha) b (List.mem_cons_of_mem _ hb)

lemma insertStage_queue (cfg : Config) (bi select top : Bool)
    (wsel : WName → Bool) (sm : Smap) (modName : WName)
    (sinkW bufW driven : Finset SigBit) (W : List Wire) :
    ∀ (ws : List Wire) (st : InsState),
    (∀ w ∈ ws, w ∈ W) →
    (ws.map Wire.name).Nodup →
    (st.inputQueue.map Prod.snd).Nodup →
    (st.inputQueue.map Prod.fst).Nodup →
    (∀ p ∈ st.inputQueue, ∃ k, p.2 = WName.auto k ∧ k < st.counter) →
    (∀ p ∈ st.inputQueue, ∀ w ∈ ws, p.1 ≠ w.name) →
    (∀ p ∈ st.inputQueue, ∃ w ∈ W, w.name = p.1 ∧ w.port_input = true ∧
      w.port_output = false ∧
      (⟨p.2, w.width, w.port_input, w.port_output, w.attrs⟩ : Wire) ∈ st.newWires) →
    st.counter ≤ (ws.foldl (processWire cfg bi select top wsel sm modName sinkW bufW driven) st).counter ∧
    (∃ dw, (ws.foldl (processWire cfg bi select top wsel sm modName sinkW bufW driven) st).newWires =
      st.newWires ++ dw) ∧
    (∃ dq, (ws.foldl (processWire cfg bi select top wsel sm modName sinkW bufW driven) st).inputQueue =
      st.inputQueue ++ dq ∧
      ∀ p ∈ dq, (∃ k, p.2 = WName.auto k ∧ st.counter ≤ k) ∧ ∃ w ∈ ws, p.1 = w.name) ∧
    ((ws.foldl (processWire cfg bi select top wsel sm modName sinkW bufW driven) st).inputQueue.map
      Prod.snd).Nodup ∧
    ((ws.foldl (processWire cfg bi select top wsel sm modName sinkW bufW driven) st).inputQueue.map
      Prod.fst).Nodup ∧
    (∀ p ∈ (ws.foldl (processWire cfg bi select top wsel sm modName sinkW bufW driven) st).inputQueue,
      ∃ k, p.2 = WName.auto k ∧
        k < (ws.foldl (processWire cfg bi select top wsel sm modName sinkW bufW driven) st).counter) ∧
    (∀ p ∈ (ws.foldl (processWire cfg bi select top wsel sm modName sinkW bufW driven) st).inputQueue,
      ∃ w ∈ W, w.name = p.1 ∧ w.port_input = true ∧ w.port_output = false ∧
        (⟨p.2, w.width, w.port_input, w.port_output, w.attrs⟩ : Wire) ∈
          (ws.foldl (processWire cfg bi select top wsel sm modName sinkW bufW driven) st).newWires) := by
  intro ws
  induction ws with
  | nil =>
    intro st _ _ h2 h3 h4 h5 h6
    exact ⟨Nat.le_refl _, ⟨[], by simp⟩, ⟨[], by simp⟩, h2, h3, h4, h6⟩
  | cons w ws ih =>
    intro st hW hnd h2 h3 h4 h5 h6
    simp only [List.foldl_cons]
    obtain ⟨hc1, ⟨dw1, hw1, hn1⟩, hq1⟩ :=
      processWire_frame cfg bi select top wsel sm modName sinkW bufW driven st w
    have hndw : (ws.map Wire.name).Nodup := (List.nodup_cons.mp (by simpa using hnd)).2
    have hwname : w.name ∉ ws.map Wire.name := (List.nodup_cons.mp (by simpa using hnd)).1
    -- invariants for the state after processing w
    rcases hq1 with hq1 | ⟨k, hq1, hk1, hk2, hpi, hpo, hcopy⟩
    · -- the queue did not change
      have r := ih (processWire cfg bi select top wsel sm modName sinkW bufW driven st w)
        (fun x hx => hW x (List.mem_cons_of_mem _ hx)) hndw
        (by rw [hq1]; exact h2) (by rw [hq1]; exact h3)
        (by
          rw [hq1]
          intro p hp
          obtain ⟨k, hk, hklt⟩ := h4 p hp
          exact ⟨k, hk, by omega⟩)
        (by
          rw [hq1]
          intro p hp x hx
          exact h5 p hp x (List.mem_cons_of_mem _ hx))
        (by
          rw [hq1]
          intro p hp
          obtain ⟨x, hx, hxn, hxi, hxo, hxc⟩ := h6 p hp
          refine ⟨x, hx, hxn, hxi, hxo, ?_⟩
          rw [hw1]
          exact List.mem_append_left _ hxc)
      obtain ⟨r1, ⟨dw2, hw2⟩, ⟨dq2, hdq2, hdq2p⟩, r4, r5, r6, r7⟩ := r
      refine ⟨by omega, ⟨dw1 ++ dw2, by rw [hw2, hw1, List.append_assoc]⟩,
        ⟨dq2, by rw [hdq2, hq1], ?_⟩, r4, r5, r6, r7⟩
      intro p hp
      obtain ⟨⟨k, hk, hkge⟩, x, hx, hxn⟩ := hdq2p p hp
      exact ⟨⟨k, hk, by omega⟩, x, List.mem_cons_of_mem _ hx, hxn⟩
    · -- the pair (w.name, auto k) was appended
      have r := ih (processWire cfg bi select top wsel sm modName sinkW bufW driven st w)
        (fun x hx => hW x (List.mem_cons_of_mem _ hx)) hndw
        (by
          rw [hq1, List.map_append, List.nodup_append]
          refine ⟨h2, by simp, ?_⟩
          intro a ha hb
          simp only [List.map_cons, List.map_nil, List.mem_singleton] at hb
          rcases List.mem_map.mp ha with ⟨p, hp, hpa⟩
          obtain ⟨k2, hk2a, hk2b⟩ := h4 p hp
          rw [← hpa, hk2a] at hb
          injection hb with hb
          omega)
        (by
          rw [hq1, List.map_append, List.nodup_append]
          refine ⟨h3, by simp, ?_⟩
          intro a ha hb
          simp only [List.map_cons, List.map_nil, List.mem_singleton] at hb
          rcases List.mem_map.mp ha with ⟨p, hp, hpa⟩
          have := h5 p hp w (List.mem_cons_self _ _)
          rw [← hpa] at hb
          exact this hb)
        (by
          rw [hq1]
          intro p hp
          rcases List.mem_append.mp hp with hp | hp
          · obtain ⟨k2, hk2a, hk2b⟩ := h4 p hp
            exact ⟨k2, hk2a, by omega⟩
          · have hpp : p = (w.name, WName.auto k) := by simpa using hp
            rw [hpp]
            exact ⟨k, rfl, hk2⟩)
        (by
          rw [hq1]
          intro p hp x hx
          rcases List.mem_append.mp hp with hp | hp
          · exact h5 p hp x (List.mem_cons_of_mem _ hx)
          · have hpp : p = (w.name, WName.auto k) := by simpa using hp
            rw [hpp]
            intro hc
            have hc2 : w.name = x.name := hc
            apply hwname
            rw [hc2]
            exact List.mem_map_of_mem _ hx)
        (by
          rw [hq1]
          intro p hp
          rcases List.mem_append.mp hp with hp | hp
          · obtain ⟨x, hx, hxn, hxi, hxo, hxc⟩ := h6 p hp
            refine ⟨x, hx, hxn, hxi, hxo, ?_⟩
            rw [hw1]
            exact List.mem_append_left _ hxc
          · have hpp : p = (w.name, WName.auto k) := by simpa using hp
            rw [hpp]
            refine ⟨w, hW w (List.mem_cons_self _ _), rfl, hpi, hpo, ?_⟩
            exact hcopy)
      obtain ⟨r1, ⟨dw2, hw2⟩, ⟨dq2, hdq2, hdq2p⟩, r4, r5, r6, r7⟩ := r
      refine ⟨by omega, ⟨dw1 ++ dw2, by rw [hw2, hw1, List.append_assoc]⟩,
        ⟨(w.name, WName.auto k) :: dq2, ?_, ?_⟩, r4, r5, r6, r7⟩
      · rw [hdq2, hq1]
        simp
      · intro p hp
        rcases List.mem_cons.mp hp with rfl | hp
        · exact ⟨⟨k, rfl, hk1⟩, w, List.mem_cons_self _ _, rfl⟩
        · obtain ⟨⟨k2, hk2a, hk2ge⟩, x, hx, hxn⟩ := hdq2p p hp
          exact ⟨⟨k2, hk2a, by omega⟩, x, List.mem_cons_of_mem _ hx, hxn⟩

lemma foldl_max_init (g : Wire → Nat) :
    ∀ (l : List Wire) (a : Nat), a ≤ l.foldl (fun acc y => max acc (g y)) a := by
  intro l
  induction l with
  | nil => intro a; exact Nat.le_refl _
  | cons x xs ih =>
    intro a
    simp only [List.foldl_cons]
    exact le_trans (Nat.le_max_left a (g x)) (ih _)

lemma foldl_max_mem (g : Wire → Nat) :
    ∀ (l : List Wire) (a : Nat) (x : Wire), x ∈ l →
      g x ≤ l.foldl (fun acc y => max acc (g y)) a := by
  intro l
  induction l with
  | nil =>
    intro a x hx
    cases hx
  | cons y ys ih =>
    intro a x hx
    simp only [List.foldl_cons]
    rcases List.mem_cons.mp hx with rfl | hx
    · exact le_trans (Nat.le_max_right a (g x)) (foldl_max_init g ys _)
    · exact ih _ x hx

lemma maxAutoIdx_wire (m : Module) (w : Wire) (hw : w ∈ m.wires) (k : Nat)
    (hk : w.name = WName.auto k) : k < maxAutoIdx m := by
  have h := foldl_max_mem (fun v : Wire => autoSize v.name) m.wires 0 w hw
  have h2 : autoSize w.name ≤
      m.wires.foldl (fun a v => max a (autoSize v.name)) 0 := h
  rw [hk] at h2
  have h3 : k + 1 ≤ m.wires.foldl (fun a v => max a (autoSize v.name)) 0 := h2
  exact lt_of_lt_of_le (Nat.lt_succ_self k)
    (le_trans h3 (Nat.le_max_left _ _))

lemma fixupPorts_mem (wires : List Wire) (w : Wire) (hw : w ∈ wires)
    (hflag : (w.port_input || w.port_output) = true) : w.name ∈ fixupPorts wires := by
  unfold fixupPorts
  exact List.mem_map_of_mem _ (List.mem_filter.mpr ⟨hw, hflag⟩)

lemma wire_name_ne_auto (m : Module) (w : Wire) (hw : w ∈ m.wires) (k : Nat)
    (hk : maxAutoIdx m ≤ k) : w.name ≠ WName.auto k := by
  cases hn : w.name with
  | user s => simp
  | auto j =>
    have := maxAutoIdx_wire m w hw j hn
    intro hc
    injection hc with hc
    omega

/-- Claim C2: for every wire of a module, the pass preserves a wire of
the same name, width and port direction; in particular every port wire
keeps its external name, width and direction, and stays in the
recomputed port list.  Buffer insertion may change what drives the port
internally (the replacement wire) but never its identity. -/
theorem c2_port_preservation (cfg : Config) (bufferInputs select : Bool)
    (wsel : WName → Bool) (sm : Smap) (gst : GState) (m : Module)
    (hnd : (m.wires.map Wire.name).Nodup) :
    ∀ w ∈ m.wires, ∃ w',
      w' ∈ (processModule cfg bufferInputs select wsel sm gst m).2.wires ∧
      w'.name = w.name ∧ w'.width = w.width ∧
      w'.port_input = w.port_input ∧ w'.port_output = w.port_output ∧
      (m.blackbox = false → (w.port_input || w.port_output) = true →
        w.name ∈ (processModule cfg bufferInputs select wsel sm gst m).2.ports) := by
  intro w hw
  unfold processModule
  by_cases hbb : m.blackbox = true
  · simp only [hbb, if_true]
    exact ⟨w, hw, rfl, rfl, rfl, rfl, by intro hc; exact absurd hc (by decide)⟩
  · have hbb2 : m.blackbox = false := by simpa using hbb
    simp only [hbb2, Bool.false_eq_true, if_false]
    -- name the insertion result
    obtain ⟨hc1, ⟨dw, hdw⟩, ⟨dq, hdq, hdqp⟩, hnodn, hnodo, hkbound, hcopies⟩ :=
      insertStage_queue cfg bufferInputs select m.top wsel sm m.name
        (propagateRun (scanItems gst.invOut gst.invIn sm m.cells)
          ⟨collectTagBits gst.sinkPorts sm m.cells, collectTagBits gst.bufPorts sm m.cells⟩).sink
        (propagateRun (scanItems gst.invOut gst.invIn sm m.cells)
          ⟨collectTagBits gst.sinkPorts sm m.cells, collectTagBits gst.bufPorts sm m.cells⟩).buf
        (collectDriven m.cells) m.wires m.wires { counter := maxAutoIdx m }
        (fun x hx => hx) hnd (by simp) (by simp) (by simp) (by simp) (by simp)
    rw [List.nil_append] at hdq
    by_cases hq : ∀ p ∈ (insertStage cfg bufferInputs select m.top wsel sm m.name
        (propagateRun (scanItems gst.invOut gst.invIn sm m.cells)
          ⟨collectTagBits gst.sinkPorts sm m.cells, collectTagBits gst.bufPorts sm m.cells⟩).sink
        (propagateRun (scanItems gst.invOut gst.invIn sm m.cells)
          ⟨collectTagBits gst.sinkPorts sm m.cells, collectTagBits gst.bufPorts sm m.cells⟩).buf
        (collectDriven m.cells) (maxAutoIdx m) m.wires).inputQueue, p.1 ≠ w.name
    · -- the wire is not queued: it survives untouched
      have key : ∀ (cells : List Cell) (conns : List (SigSpec × SigSpec)),
          w ∈ (swapStage (insertStage cfg bufferInputs select m.top wsel sm m.name
        (propagateRun (scanItems gst.invOut gst.invIn sm m.cells)
          ⟨collectTagBits gst.sinkPorts sm m.cells, collectTagBits gst.bufPorts sm m.cells⟩).sink
        (propagateRun (scanItems gst.invOut gst.invIn sm m.cells)
          ⟨collectTagBits gst.sinkPorts sm m.cells, collectTagBits gst.bufPorts sm m.cells⟩).buf
        (collectDriven m.cells) (maxAutoIdx m) m.wires).inputQueue
            (m.wires ++ (insertStage cfg bufferInputs select m.top wsel sm m.name
        (propagateRun (scanItems gst.invOut gst.invIn sm m.cells)
          ⟨collectTagBits gst.sinkPorts sm m.cells, collectTagBits gst.bufPorts sm m.cells⟩).sink
        (propagateRun (scanItems gst.invOut gst.invIn sm m.cells)
          ⟨collectTagBits gst.sinkPorts sm m.cells, collectTagBits gst.bufPorts sm m.cells⟩).buf
        (collectDriven m.cells) (maxAutoIdx m) m.wires).newWires) cells conns).1 := by
        intro cells conns
        apply swapStage_untouched
        · exact List.mem_append_left _ hw
        · intro p hp
          refine ⟨fun hc => hq p hp hc.symm, ?_⟩
          have hp2 := hdqp p (hdq ▸ hp)
          obtain ⟨⟨k, hk, hkge⟩, _⟩ := hp2
          rw [hk]
          exact wire_name_ne_auto m w hw k hkge
      exact ⟨w, key _ _, rfl, rfl, rfl, rfl,
        fun _ hflag => fixupPorts_mem _ w (key _ _) hflag⟩
    · -- the wire was queued: its renamed copy carries its identity
      push_neg at hq
      obtain ⟨p, hp, hpeq⟩ := hq
      obtain ⟨x, hx, hxname, hxi, hxo, hxcopy⟩ := hcopies p hp
      have hxw : x = w := by
        apply List.inj_on_of_nodup_map hnd hx hw
        rw [hxname, hpeq]
      rw [hxw] at hxcopy hxname hxi hxo
      obtain ⟨⟨k, hk, hkge⟩, _⟩ := hdqp p (hdq ▸ hp)
      have key : ∀ (cells : List Cell) (conns : List (SigSpec × SigSpec)),
          w ∈ (swapStage (insertStage cfg bufferInputs select m.top wsel sm m.name
        (propagateRun (scanItems gst.invOut gst.invIn sm m.cells)
          ⟨collectTagBits gst.sinkPorts sm m.cells, collectTagBits gst.bufPorts sm m.cells⟩).sink
        (propagateRun (scanItems gst.invOut gst.invIn sm m.cells)
          ⟨collectTagBits gst.sinkPorts sm m.cells, collectTagBits gst.bufPorts sm m.cells⟩).buf
        (collectDriven m.cells) (maxAutoIdx m) m.wires).inputQueue
            (m.wires ++ (insertStage cfg bufferInputs select m.top wsel sm m.name
        (propagateRun (scanItems gst.invOut gst.invIn sm m.cells)
          ⟨collectTagBits gst.sinkPorts sm m.cells, collectTagBits gst.bufPorts sm m.cells⟩).sink
        (propagateRun (scanItems gst.invOut gst.invIn sm m.cells)
          ⟨collectTagBits gst.sinkPorts sm m.cells, collectTagBits gst.bufPorts sm m.cells⟩).buf
        (collectDriven m.cells) (maxAutoIdx m) m.wires).newWires) cells conns).1 := by
        intro cells conns
        have hr := swapStage_renamed (insertStage cfg bufferInputs select m.top wsel sm m.name
        (propagateRun (scanItems gst.invOut gst.invIn sm m.cells)
          ⟨collectTagBits gst.sinkPorts sm m.cells, collectTagBits gst.bufPorts sm m.cells⟩).sink
        (propagateRun (scanItems gst.invOut gst.invIn sm m.cells)
          ⟨collectTagBits gst.sinkPorts sm m.cells, collectTagBits gst.bufPorts sm m.cells⟩).buf
        (collectDriven m.cells) (maxAutoIdx m) m.wires).inputQueue
          (m.wires ++ (insertStage cfg bufferInputs select m.top wsel sm m.name
        (propagateRun (scanItems gst.invOut gst.invIn sm m.cells)
          ⟨collectTagBits gst.sinkPorts sm m.cells, collectTagBits gst.bufPorts sm m.cells⟩).sink
        (propagateRun (scanItems gst.invOut gst.invIn sm m.cells)
          ⟨collectTagBits gst.sinkPorts sm m.cells, collectTagBits gst.bufPorts sm m.cells⟩).buf
        (collectDriven m.cells) (maxAutoIdx m) m.wires).newWires) cells conns
          w.name p.2 ⟨p.2, w.width, w.port_input, w.port_output, w.attrs⟩
          (by rw [← hpeq]; simpa using hp)
          (List.mem_append_right _ hxcopy)
          rfl
          (by rw [hk]; exact wire_name_ne_auto m w hw k hkge)
          hnodo hnodn
          (by
            intro a ha b hb
            obtain ⟨xa, hxa, hxaname, _, _, _⟩ := hcopies a ha
            obtain ⟨⟨kb, hkb, hkbge⟩, _⟩ := hdqp b (hdq ▸ hb)
            rw [← hxaname, hkb]
            exact wire_name_ne_auto m xa hxa kb hkbge)
        exact hr
      exact ⟨w, key _ _, rfl, rfl, rfl, rfl,
        fun _ hflag => fixupPorts_mem _ w (key _ _) hflag⟩

/-- Witness for claim C2: the top-level clock input of the end-to-end
scenario keeps its name, width and direction across the pass. -/
theorem c2_witness :
    ∃ w', w' ∈ (processModule
        { bufCelltype := "BUFG", bufPortname := "O", bufPortname2 := "I" }
        true false (fun _ => true) []
        ⟨{(WName.user "\\FF", WName.user "\\CLK", 0)}, ∅, [], []⟩
        { name := WName.user "\\top",
          wires := [⟨WName.user "\\clk", 1, true, false, {}⟩,
                    ⟨WName.user "\\q", 1, false, false, {}⟩],
          cells := [⟨WName.user "\\ff0", WName.user "\\FF",
            [⟨WName.user "\\CLK", false, [SigBit.wireBit (WName.user "\\clk") 0]⟩,
             ⟨WName.user "\\Q", true, [SigBit.wireBit (WName.user "\\q") 0]⟩]⟩],
          top := true }).2.wires ∧
      w'.name = (⟨WName.user "\\clk", 1, true, false, {}⟩ : Wire).name ∧
      w'.width = (⟨WName.user "\\clk", 1, true, false, {}⟩ : Wire).width ∧
      w'.port_input = (⟨WName.user "\\clk", 1, true, false, {}⟩ : Wire).port_input ∧
      w'.port_output = (⟨WName.user "\\clk", 1, true, false, {}⟩ : Wire).port_output ∧
      (({ name := WName.user "\\top",
          wires := [⟨WName.user "\\clk", 1, true, false, {}⟩,
                    ⟨WName.user "\\q", 1, false, false, {}⟩],
          cells := [⟨WName.user "\\ff0", WName.user "\\FF",
            [⟨WName.user "\\CLK", false, [SigBit.wireBit (WName.user "\\clk") 0]⟩,
             ⟨WName.user "\\Q", true, [SigBit.wireBit (WName.user "\\q") 0]⟩]⟩],
          top := true } : Module).blackbox = false →
        ((⟨WName.user "\\clk", 1, true, false, {}⟩ : Wire).port_input ||
          (⟨WName.user "\\clk", 1, true, false, {}⟩ : Wire).port_output) = true →
        (⟨WName.user "\\clk", 1, true, false, {}⟩ : Wire).name ∈
          (processModule
            { bufCelltype := "BUFG", bufPortname := "O", bufPortname2 := "I" }
            true false (fun _ => true) []
            ⟨{(WName.user "\\FF", WName.user "\\CLK", 0)}, ∅, [], []⟩
            { name := WName.user "\\top",
              wires := [⟨WName.user "\\clk", 1, true, false, {}⟩,
                        ⟨WName.user "\\q", 1, false, false, {}⟩],
              cells := [⟨WName.user "\\ff0", WName.user "\\FF",
                [⟨WName.user "\\CLK", false, [SigBit.wireBit (WName.user "\\clk") 0]⟩,
                 ⟨WName.user "\\Q", true, [SigBit.wireBit (WName.user "\\q") 0]⟩]⟩],
              top := true }).2.ports) :=
  c2_port_preservation
    { bufCelltype := "BUFG", bufPortname := "O", bufPortname2 := "I" }
    true false (fun _ => true) []
    ⟨{(WName.user "\\FF", WName.user "\\CLK", 0)}, ∅, [], []⟩
    { name := WName.user "\\top",
      wires := [⟨WName.user "\\clk", 1, true, false, {}⟩,
                ⟨WName.user "\\q", 1, false, false, {}⟩],
      cells := [⟨WName.user "\\ff0", WName.user "\\FF",
        [⟨WName.user "\\CLK", false, [SigBit.wireBit (WName.user "\\clk") 0]⟩,
         ⟨WName.user "\\Q", true, [SigBit.wireBit (WName.user "\\q") 0]⟩]⟩],
      top := true }
    (by decide)
    ⟨WName.user "\\clk", 1, true, false, {}⟩ (by decide)

/-!
Theorems about the claims.
-/

/-- Claim C6: on an acyclic instantiation graph (witnessed by a rank
function decreasing along instantiation edges and bounding the fuel),
the module-ordering traversal started from the selected root modules
produces a sequence that contains every root, is closed under
instantiation (every instantiated design module of a scheduled module is
scheduled), places the module T of every cell instance of type T inside
a scheduled module M strictly before M, and repeats no module. -/
theorem c6_module_order (design : List Module) (rank : WName → Nat)
    (roots : List Module) (fuel : Nat)
    (hrank : ∀ M ∈ design, ∀ c ∈ M.cells, ∀ T,
      findModule design c.ctype = some T → rank T.name < rank M.name)
    (hnd : NodupNames design)
    (hroots : ∀ r ∈ roots, r ∈ design ∧ rank r.name < fuel) :
    (∀ r ∈ roots, r ∈ moduleOrder design fuel roots) ∧
    (∀ M ∈ moduleOrder design fuel roots, ∀ c ∈ M.cells, ∀ T,
      findModule design c.ctype = some T →
      T ∈ moduleOrder design fuel roots ∧
      beforeIn (moduleOrder design fuel roots) T M) ∧
    NodupNames (moduleOrder design fuel roots) := by
  have hempty1 : ∀ x ∈ ([] : List Module), x ∈ design := by
    intro x hx
    cases hx
  have hempty2 : NodupNames ([] : List Module) := by
    simp [NodupNames]
  have hempty3 : ClosedSched design ([] : List Module) := by
    intro M hM
    cases hM
  have h := moduleOrder_fold design rank hrank hnd fuel roots [] hroots
    hempty1 hempty2 hempty3
  unfold moduleOrder
  refine ⟨h.1, ?_, h.2.2.2⟩
  intro M hM c hc T hT
  have hb := h.2.1 M hM c hc T hT
  refine ⟨?_, hb⟩
  obtain ⟨l1, l2, hl, hT1⟩ := hb
  rw [hl]
  exact List.mem_append_left _ hT1

/-- Witness for claim C6: a two-module design where top instantiates
sub; the order places sub before top and schedules both once. -/
theorem c6_witness :
    (∀ r ∈ [({ name := WName.user "\\top",
               wires := [],
               cells := [⟨WName.user "\\u0", WName.user "\\sub", []⟩],
               top := true } : Module)],
      r ∈ moduleOrder
        [{ name := WName.user "\\top",
           wires := [],
           cells := [⟨WName.user "\\u0", WName.user "\\sub", []⟩],
           top := true },
         { name := WName.user "\\sub", wires := [], cells := [] }] 2
        [{ name := WName.user "\\top",
           wires := [],
           cells := [⟨WName.user "\\u0", WName.user "\\sub", []⟩],
           top := true }]) ∧
    (∀ M ∈ moduleOrder
        [{ name := WName.user "\\top",
           wires := [],
           cells := [⟨WName.user "\\u0", WName.user "\\sub", []⟩],
           top := true },
         { name := WName.user "\\sub", wires := [], cells := [] }] 2
        [{ name := WName.user "\\top",
           wires := [],
           cells := [⟨WName.user "\\u0", WName.user "\\sub", []⟩],
           top := true }],
      ∀ c ∈ M.cells, ∀ T,
      findModule
        [{ name := WName.user "\\top",
           wires := [],
           cells := [⟨WName.user "\\u0", WName.user "\\sub", []⟩],
           top := true },
         { name := WName.user "\\sub", wires := [], cells := [] }] c.ctype = some T →
      T ∈ moduleOrder
        [{ name := WName.user "\\top",
           wires := [],
           cells := [⟨WName.user "\\u0", WName.user "\\sub", []⟩],
           top := true },
         { name := WName.user "\\sub", wires := [], cells := [] }] 2
        [{ name := WName.user "\\top",
           wires := [],
           cells := [⟨WName.user "\\u0", WName.user "\\sub", []⟩],
           top := true }] ∧
      beforeIn (moduleOrder
        [{ name := WName.user "\\top",
           wires := [],
           cells := [⟨WName.user "\\u0", WName.user "\\sub", []⟩],
           top := true },
         { name := WName.user "\\sub", wires := [], cells := [] }] 2
        [{ name := WName.user "\\top",
           wires := [],
           cells := [⟨WName.user "\\u0", WName.user "\\sub", []⟩],
           top := true }]) T M) ∧
    NodupNames (moduleOrder
        [{ name := WName.user "\\top",
           wires := [],
           cells := [⟨WName.user "\\u0", WName.user "\\sub", []⟩],
           top := true },
         { name := WName.user "\\sub", wires := [], cells := [] }] 2
        [{ name := WName.user "\\top",
           wires := [],
           cells := [⟨WName.user "\\u0", WName.user "\\sub", []⟩],
           top := true }]) :=
  c6_module_order
    [{ name := WName.user "\\top",
       wires := [],
       cells := [⟨WName.user "\\u0", WName.user "\\sub", []⟩],
       top := true },
     { name := WName.user "\\sub", wires := [], cells := [] }]
    (fun n => if n = WName.user "\\sub" then 0 else 1)
    [{ name := WName.user "\\top",
       wires := [],
       cells := [⟨WName.user "\\u0", WName.user "\\sub", []⟩],
       top := true }] 2
    (by decide) (by unfold NodupNames; decide) (by decide)

/-- Claim C5: the inverter propagation worklist loop terminates for
every module: both module-local tag sets only grow along the run, the
bits they can acquire are bounded by the bits occurring in the module
scan (sinkUniv and bufUniv of the scan items), and the loop ends with a
full scan in which neither rule fires. -/
theorem c5_propagation_terminates
    (invOut invIn : List ((WName × WName × Nat) × (WName × Nat)))
    (sm : Smap) (cells : List Cell) (st : PropState) :
    (st.sink ⊆ (propagateRun (scanItems invOut invIn sm cells) st).sink ∧
     st.buf ⊆ (propagateRun (scanItems invOut invIn sm cells) st).buf) ∧
    (scanOnce (scanItems invOut invIn sm cells)
      (propagateRun (scanItems invOut invIn sm cells) st)).2 = false ∧
    (propagateRun (scanItems invOut invIn sm cells) st).sink ⊆
      st.sink ∪ sinkUniv (scanItems invOut invIn sm cells) ∧
    (propagateRun (scanItems invOut invIn sm cells) st).buf ⊆
      st.buf ∪ bufUniv (scanItems invOut invIn sm cells) := by
  refine ⟨propagate_mono _ _ _, propagateRun_fixed _ _, ?_, ?_⟩
  · exact propagate_sink_bound _ _ _
  · exact propagate_buf_bound _ _ _

/-- Claim C1, counterexample: one NOT-type inverter cell scanned in two
opposite cell orders (two inverter instances sharing an output bit, with
the output tagged as a sink).  Both orders run the worklist to a state
where no rule fires, yet the two final sink sets differ: whichever
inverter is scanned first wins the race of rule one, whose negative
guard (output not yet buffered) is then permanently false for the other
instance.  The buffered sets also depend on the race in larger designs;
here already the sink sets differ, refuting the claimed identity. -/
theorem c1_counterexample :
    ([⟨WName.user "\\x", WName.user "\\NOT",
        [⟨WName.user "\\Y", true, [SigBit.wireBit (WName.user "\\b") 0]⟩,
         ⟨WName.user "\\A", false, [SigBit.wireBit (WName.user "\\p") 0]⟩]⟩,
      ⟨WName.user "\\xp", WName.user "\\NOT",
        [⟨WName.user "\\Y", true, [SigBit.wireBit (WName.user "\\b") 0]⟩,
         ⟨WName.user "\\A", false, [SigBit.wireBit (WName.user "\\pp") 0]⟩]⟩] :
      List Cell).Perm
      [⟨WName.user "\\xp", WName.user "\\NOT",
        [⟨WName.user "\\Y", true, [SigBit.wireBit (WName.user "\\b") 0]⟩,
         ⟨WName.user "\\A", false, [SigBit.wireBit (WName.user "\\pp") 0]⟩]⟩,
       ⟨WName.user "\\x", WName.user "\\NOT",
        [⟨WName.user "\\Y", true, [SigBit.wireBit (WName.user "\\b") 0]⟩,
         ⟨WName.user "\\A", false, [SigBit.wireBit (WName.user "\\p") 0]⟩]⟩] ∧
    (propagateRun
        (scanItems [((WName.user "\\NOT", WName.user "\\Y", 0), (WName.user "\\A", 0))]
          [((WName.user "\\NOT", WName.user "\\A", 0), (WName.user "\\Y", 0))] []
          [⟨WName.user "\\x", WName.user "\\NOT",
              [⟨WName.user "\\Y", true, [SigBit.wireBit (WName.user "\\b") 0]⟩,
               ⟨WName.user "\\A", false, [SigBit.wireBit (WName.user "\\p") 0]⟩]⟩,
           ⟨WName.user "\\xp", WName.user "\\NOT",
              [⟨WName.user "\\Y", true, [SigBit.wireBit (WName.user "\\b") 0]⟩,
               ⟨WName.user "\\A", false, [SigBit.wireBit (WName.user "\\pp") 0]⟩]⟩])
        ⟨{SigBit.wireBit (WName.user "\\b") 0}, ∅⟩).sink ≠
    (propagateRun
        (scanItems [((WName.user "\\NOT", WName.user "\\Y", 0), (WName.user "\\A", 0))]
          [((WName.user "\\NOT", WName.user "\\A", 0), (WName.user "\\Y", 0))] []
          [⟨WName.user "\\xp", WName.user "\\NOT",
              [⟨WName.user "\\Y", true, [SigBit.wireBit (WName.user "\\b") 0]⟩,
               ⟨WName.user "\\A", false, [SigBit.wireBit (WName.user "\\pp") 0]⟩]⟩,
           ⟨WName.user "\\x", WName.user "\\NOT",
              [⟨WName.user "\\Y", true, [SigBit.wireBit (WName.user "\\b") 0]⟩,
               ⟨WName.user "\\A", false, [SigBit.wireBit (WName.user "\\p") 0]⟩]⟩])
        ⟨{SigBit.wireBit (WName.user "\\b") 0}, ∅⟩).sink := by
  constructor
  · exact List.Perm.swap _ _ _
  · decide

/-- Claim C1 (amended): for every module and every two cell-scan orders
of the inverter-propagation worklist, each run terminates in a state
where neither rule fires and which contains the initial sink and
buffered sets; the final sets themselves may however depend on the scan
order (see the counterexample), so only the fixed-point property, not
set identity, is order independent. -/
theorem c1_any_order_fixed_point
    (invOut invIn : List ((WName × WName × Nat) × (WName × Nat)))
    (sm : Smap) (cells1 cells2 : List Cell) (st : PropState)
    (hperm : cells1.Perm cells2) :
    ((scanOnce (scanItems invOut invIn sm cells1)
        (propagateRun (scanItems invOut invIn sm cells1) st)).2 = false ∧
      st.sink ⊆ (propagateRun (scanItems invOut invIn sm cells1) st).sink ∧
      st.buf ⊆ (propagateRun (scanItems invOut invIn sm cells1) st).buf) ∧
    ((scanOnce (scanItems invOut invIn sm cells2)
        (propagateRun (scanItems invOut invIn sm cells2) st)).2 = false ∧
      st.sink ⊆ (propagateRun (scanItems invOut invIn sm cells2) st).sink ∧
      st.buf ⊆ (propagateRun (scanItems invOut invIn sm cells2) st).buf) := by
  refine ⟨⟨propagateRun_fixed _ _, ?_, ?_⟩, ⟨propagateRun_fixed _ _, ?_, ?_⟩⟩
  · exact (propagate_mono _ _ _).1
  · exact (propagate_mono _ _ _).2
  · exact (propagate_mono _ _ _).1
  · exact (propagate_mono _ _ _).2

/-- Witness for the amended claim C1 at the concrete two scan orders of
the counterexample module. -/
theorem c1_witness :
    (([⟨WName.user "\\x", WName.user "\\NOT",
        [⟨WName.user "\\Y", true, [SigBit.wireBit (WName.user "\\b") 0]⟩,
         ⟨WName.user "\\A", false, [SigBit.wireBit (WName.user "\\p") 0]⟩]⟩] :
      List Cell).Perm
      [⟨WName.user "\\x", WName.user "\\NOT",
        [⟨WName.user "\\Y", true, [SigBit.wireBit (WName.user "\\b") 0]⟩,
         ⟨WName.user "\\A", false, [SigBit.wireBit (WName.user "\\p") 0]⟩]⟩]) ∧
    (scanOnce
      (scanItems [((WName.user "\\NOT", WName.user "\\Y", 0), (WName.user "\\A", 0))] [] []
        [⟨WName.user "\\x", WName.user "\\NOT",
          [⟨WName.user "\\Y", true, [SigBit.wireBit (WName.user "\\b") 0]⟩,
           ⟨WName.user "\\A", false, [SigBit.wireBit (WName.user "\\p") 0]⟩]⟩])
      (propagateRun
        (scanItems [((WName.user "\\NOT", WName.user "\\Y", 0), (WName.user "\\A", 0))] [] []
          [⟨WName.user "\\x", WName.user "\\NOT",
            [⟨WName.user "\\Y", true, [SigBit.wireBit (WName.user "\\b") 0]⟩,
             ⟨WName.user "\\A", false, [SigBit.wireBit (WName.user "\\p") 0]⟩]⟩])
        ⟨{SigBit.wireBit (WName.user "\\b") 0}, ∅⟩)).2 = false :=
  ⟨List.Perm.refl _,
    (c1_any_order_fixed_point
      [((WName.user "\\NOT", WName.user "\\Y", 0), (WName.user "\\A", 0))] [] []
      [⟨WName.user "\\x", WName.user "\\NOT",
        [⟨WName.user "\\Y", true, [SigBit.wireBit (WName.user "\\b") 0]⟩,
         ⟨WName.user "\\A", false, [SigBit.wireBit (WName.user "\\p") 0]⟩]⟩]
      [⟨WName.user "\\x", WName.user "\\NOT",
        [⟨WName.user "\\Y", true, [SigBit.wireBit (WName.user "\\b") 0]⟩,
         ⟨WName.user "\\A", false, [SigBit.wireBit (WName.user "\\p") 0]⟩]⟩]
      ⟨{SigBit.wireBit (WName.user "\\b") 0}, ∅⟩ (List.Perm.refl _)).1.1⟩

/-- Claim C9, counterexample: with the port specification O holding no
colon, split_portname_pair leaves the second name empty, and the
inserted buffer cell therefore carries the empty input port name rather
than the single given name. -/
theorem c9_counterexample :
    split_portname_pair "O" "" = ("O", "") ∧
    ("" : String) ≠ "O" ∧
    (insertForBit { bufCelltype := "BUFG", bufPortname := "O", bufPortname2 := "" }
        true false ⟨WName.user "\\clk", 1, true, false, {}⟩
        (SigBit.wireBit (WName.user "\\clk") 0) { counter := 0 }).newCells =
      [⟨WName.auto 0, WName.user "\\BUFG",
        [⟨WName.user "\\O", true, [SigBit.wireBit (WName.user "\\clk") 0]⟩,
         ⟨WName.user "", false, [SigBit.wireBit (WName.auto 1) 0]⟩]⟩] ∧
    WName.user "" ≠ WName.user "\\O" := by
  refine ⟨rfl, by decide, rfl, by decide⟩

/-- Claim C9 (amended): if the buffer or pad port specification holds no
colon separator, the given name becomes the output port name and the
second (input) port name is left unchanged, hence empty in the pass. -/
theorem c9_no_separator_keeps_second_name (p1 p2 : String)
    (h : ':' ∉ p1.toList) : split_portname_pair p1 p2 = (p1, p2) := by
  unfold split_portname_pair
  have hnone : p1.toList.findIdx? (fun c => c = ':') = none := by
    rw [List.findIdx?_eq_none_iff]
    intro a ha
    simp only [decide_eq_false_iff_not]
    intro hc
    exact h (hc ▸ ha)
  rw [hnone]

/-- Witness for the amended claim C9 at the concrete name O. -/
theorem c9_witness :
    (':' ∉ "O".toList) ∧ split_portname_pair "O" "" = ("O", "") :=
  ⟨by decide, c9_no_separator_keeps_second_name "O" "" (by decide)⟩

/-- Claim C7: when a pad cell type is configured and the pad module
declares the clkbuf_driver attribute on its wire named after the buffer
output port, buffer_inputs computes to false, and a top-level input sink
bit receives exactly the pad cell, wired output to the canonical bit and
input to a fresh internal wire, with no separate buffer cell even when a
buffer cell type is configured. -/
theorem c7_pad_only_on_top_inputs (design : List Module) (cfg : Config)
    (im : Module) (bw : Wire)
    (hfm : findModule design (WName.user (escapeId cfg.inpadCelltype)) = some im)
    (hfw : findWire im (WName.user (escapeId cfg.bufPortname)) = some bw)
    (hdrv : bw.attrs.driver = true)
    (hpad : cfg.inpadCelltype ≠ "")
    (w : Wire) (mb : SigBit) (st : InsState)
    (hinp : w.port_input = true) :
    computeBufferInputs design cfg = false ∧
    insertForBit cfg (computeBufferInputs design cfg) true w mb st =
      { st with counter := st.counter + 2,
                newCells := st.newCells ++
                  [⟨WName.auto st.counter, WName.user (escapeId cfg.inpadCelltype),
                    [⟨WName.user (escapeId cfg.inpadPortname), true, [mb]⟩,
                     ⟨WName.user (escapeId cfg.inpadPortname2), false,
                      [SigBit.wireBit (WName.auto (st.counter + 1)) 0]⟩]⟩],
                newWires := st.newWires ++
                  [⟨WName.auto (st.counter + 1), 1, false, false, {}⟩],
                buffered := (mb, WName.auto st.counter, WName.auto (st.counter + 1)) ::
                  st.buffered } := by
  have hbi : computeBufferInputs design cfg = false := by
    simp [computeBufferInputs, hfm, hfw, hdrv]
  refine ⟨hbi, ?_⟩
  rw [hbi]
  have hpad' : (cfg.inpadCelltype == "") = false := by
    simp [hpad]
  unfold insertForBit
  simp [hinp, hpad']

/-- Witness for claim C7: a concrete IBUF pad module carrying the driver
attribute on its port O. -/
theorem c7_witness :
    computeBufferInputs
        [{ name := WName.user "\\IBUF",
           wires := [⟨WName.user "\\O", 1, false, true,
             { driver := true }⟩],
           cells := [], blackbox := true }]
        { bufCelltype := "BUFG", bufPortname := "O", bufPortname2 := "I",
          inpadCelltype := "IBUF", inpadPortname := "O", inpadPortname2 := "I" } = false ∧
    insertForBit
        { bufCelltype := "BUFG", bufPortname := "O", bufPortname2 := "I",
          inpadCelltype := "IBUF", inpadPortname := "O", inpadPortname2 := "I" }
        (computeBufferInputs
          [{ name := WName.user "\\IBUF",
             wires := [⟨WName.user "\\O", 1, false, true,
               { driver := true }⟩],
             cells := [], blackbox := true }]
          { bufCelltype := "BUFG", bufPortname := "O", bufPortname2 := "I",
            inpadCelltype := "IBUF", inpadPortname := "O", inpadPortname2 := "I" })
        true ⟨WName.user "\\clk", 1, true, false, {}⟩
        (SigBit.wireBit (WName.user "\\clk") 0) { counter := 0 } =
      { counter := 2,
        newCells :=
          [⟨WName.auto 0, WName.user "\\IBUF",
            [⟨WName.user "\\O", true, [SigBit.wireBit (WName.user "\\clk") 0]⟩,
             ⟨WName.user "\\I", false, [SigBit.wireBit (WName.auto 1) 0]⟩]⟩],
        newWires := [⟨WName.auto 1, 1, false, false, {}⟩],
        buffered := [(SigBit.wireBit (WName.user "\\clk") 0, WName.auto 0, WName.auto 1)] } := by
  have h := c7_pad_only_on_top_inputs
    [{ name := WName.user "\\IBUF",
       wires := [⟨WName.user "\\O", 1, false, true, { driver := true }⟩],
       cells := [], blackbox := true }]
    { bufCelltype := "BUFG", bufPortname := "O", bufPortname2 := "I",
      inpadCelltype := "IBUF", inpadPortname := "O", inpadPortname2 := "I" }
    _ _ rfl rfl rfl (by decide)
    ⟨WName.user "\\clk", 1, true, false, {}⟩
    (SigBit.wireBit (WName.user "\\clk") 0) { counter := 0 } rfl
  exact h

/-- Claim C3, counterexample: in a concrete insertion for a sink bit on
a top-level input, the created buffer cell connects its OUTPUT port to
the canonical bit and its INPUT port to the fresh internal wire, which
is the opposite of the claimed wiring (input to canonical bit, output to
fresh wire). -/
theorem c3_counterexample :
    (insertForBit { bufCelltype := "BUFG", bufPortname := "O", bufPortname2 := "I" }
        true true ⟨WName.user "\\clk", 1, true, false, {}⟩
        (SigBit.wireBit (WName.user "\\clk") 0) { counter := 0 }).newCells =
      [⟨WName.auto 0, WName.user "\\BUFG",
        [⟨WName.user "\\O", true, [SigBit.wireBit (WName.user "\\clk") 0]⟩,
         ⟨WName.user "\\I", false, [SigBit.wireBit (WName.auto 1) 0]⟩]⟩] ∧
    ([SigBit.wireBit (WName.auto 1) 0] : SigSpec) ≠ [SigBit.wireBit (WName.user "\\clk") 0] := by
  refine ⟨rfl, by decide⟩

/-- Claim C3 (amended): whenever a buffer is inserted for a sink bit,
the created buffer cell's OUTPUT port is connected to the canonical bit
and its INPUT port is connected to a fresh internal wire of width one;
the fresh name is no name of any wire whose auto indices stay below the
running counter. -/
theorem c3_buffer_wiring (cfg : Config) (bufferInputs topMod : Bool)
    (w : Wire) (mb : SigBit) (st : InsState)
    (hbuf : cfg.bufCelltype ≠ "")
    (hcase : (w.port_input && !(cfg.inpadCelltype == "") && topMod) = false ∨
      bufferInputs = true) :
    (⟨WName.auto st.counter, WName.user (escapeId cfg.bufCelltype),
      [⟨WName.user (escapeId cfg.bufPortname), true, [mb]⟩,
       ⟨WName.user (escapeId cfg.bufPortname2), false,
        [SigBit.wireBit (WName.auto (st.counter + 1)) 0]⟩]⟩ : Cell) ∈
      (insertForBit cfg bufferInputs topMod w mb st).newCells ∧
    (⟨WName.auto (st.counter + 1), 1, false, false, {}⟩ : Wire) ∈
      (insertForBit cfg bufferInputs topMod w mb st).newWires ∧
    ∀ ws : List Wire, (∀ v ∈ ws, ∀ k, v.name = WName.auto k → k < st.counter) →
      WName.auto (st.counter + 1) ∉ ws.map Wire.name := by
  have hbuf' : (cfg.bufCelltype == "") = false := by simp [hbuf]
  have hcond : (!(cfg.bufCelltype == "") &&
      (!(w.port_input && !(cfg.inpadCelltype == "") && topMod) || bufferInputs)) = true := by
    rcases hcase with h | h <;> simp [hbuf', h]
  constructor
  · by_cases hii : (w.port_input && !(cfg.inpadCelltype == "") && topMod) = true
    · have hbi : bufferInputs = true := by
        rcases hcase with h | h
        · rw [h] at hii; exact absurd hii (by decide)
        · exact h
      simp [insertForBit, hcond, hii, hbi, hbuf]
    · simp [insertForBit, hcond, hii, hbuf]
  constructor
  · by_cases hii : (w.port_input && !(cfg.inpadCelltype == "") && topMod) = true
    · have hbi : bufferInputs = true := by
        rcases hcase with h | h
        · rw [h] at hii; exact absurd hii (by decide)
        · exact h
      simp [insertForBit, hcond, hii, hbi, hbuf]
    · simp [insertForBit, hcond, hii, hbuf]
  · intro ws hws hmem
    rcases List.mem_map.mp hmem with ⟨v, hv, hvn⟩
    have := hws v hv (st.counter + 1) hvn
    omega

/-- Witness for the amended claim C3 at a concrete configuration. -/
theorem c3_witness :
    (⟨WName.auto 5, WName.user "\\BUFG",
      [⟨WName.user "\\O", true, [SigBit.wireBit (WName.user "\\clknet") 0]⟩,
       ⟨WName.user "\\I", false, [SigBit.wireBit (WName.auto 6) 0]⟩]⟩ : Cell) ∈
      (insertForBit { bufCelltype := "BUFG", bufPortname := "O", bufPortname2 := "I" }
        true false ⟨WName.user "\\clknet", 1, false, false, {}⟩
        (SigBit.wireBit (WName.user "\\clknet") 0) { counter := 5 }).newCells ∧
    (⟨WName.auto 6, 1, false, false, {}⟩ : Wire) ∈
      (insertForBit { bufCelltype := "BUFG", bufPortname := "O", bufPortname2 := "I" }
        true false ⟨WName.user "\\clknet", 1, false, false, {}⟩
        (SigBit.wireBit (WName.user "\\clknet") 0) { counter := 5 }).newWires ∧
    ∀ ws : List Wire, (∀ v ∈ ws, ∀ k, v.name = WName.auto k → k < 5) →
      WName.auto 6 ∉ ws.map Wire.name :=
  c3_buffer_wiring { bufCelltype := "BUFG", bufPortname := "O", bufPortname2 := "I" }
    true false ⟨WName.user "\\clknet", 1, false, false, {}⟩
    (SigBit.wireBit (WName.user "\\clknet") 0) { counter := 5 }
    (by decide) (Or.inl (by decide))

/-- Claim C10: the locally-driven test uses the raw, un-canonicalized
bit; a sink bit of an input-port wire of a non-top module whose exact
(wire, index) pair stands in no output connection is deferred to the
parent (registered in sink_ports) and receives no buffer, even when the
electrical net is driven through an aliased bit. -/
theorem c10_raw_driven_defer (sinkW bufW driven : Finset SigBit) (sm : Smap)
    (w : Wire) (i : Nat)
    (hsink : sigApply sm (SigBit.wireBit w.name i) ∈ sinkW)
    (hbuf : sigApply sm (SigBit.wireBit w.name i) ∉ bufW)
    (hraw : SigBit.wireBit w.name i ∉ driven)
    (hinp : w.port_input = true)
    (b' : SigBit) (halias : sigApply sm b' = sigApply sm (SigBit.wireBit w.name i))
    (hb' : b' ∈ driven) :
    classifyBit sinkW bufW driven sm false w i = .deferUp ∧
    ∀ (cfg : Config) (bufferInputs : Bool) (modName : WName) (st : InsState) (ib : List Nat),
      wireBitStep cfg bufferInputs false modName sinkW bufW driven sm w (st, ib) i =
        ({ st with sinkAdds := st.sinkAdds ++ [(modName, w.name, i)] }, ib) := by
  have hc : classifyBit sinkW bufW driven sm false w i = .deferUp := by
    unfold classifyBit
    simp [hsink, hbuf, hraw, hinp]
  refine ⟨hc, ?_⟩
  intro cfg bufferInputs modName st ib
  unfold wireBitStep
  rw [hc]

/-- Witness for claim C10: the net of an input port bit is driven only
through an aliased wire, so the bit defers to the parent. -/
theorem c10_witness :
    (sigApply [(SigBit.wireBit (WName.user "\\v") 0, SigBit.wireBit (WName.user "\\w") 0)]
        (SigBit.wireBit (WName.user "\\w") 0) ∈
        ({SigBit.wireBit (WName.user "\\w") 0} : Finset SigBit)) ∧
    classifyBit {SigBit.wireBit (WName.user "\\w") 0} ∅
        {SigBit.wireBit (WName.user "\\v") 0}
        [(SigBit.wireBit (WName.user "\\v") 0, SigBit.wireBit (WName.user "\\w") 0)]
        false ⟨WName.user "\\w", 1, true, false, {}⟩ 0 = .deferUp := by
  constructor
  · decide
  · exact (c10_raw_driven_defer {SigBit.wireBit (WName.user "\\w") 0} ∅
      {SigBit.wireBit (WName.user "\\v") 0}
      [(SigBit.wireBit (WName.user "\\v") 0, SigBit.wireBit (WName.user "\\w") 0)]
      ⟨WName.user "\\w", 1, true, false, {}⟩ 0
      (by decide) (by decide) (by decide) rfl
      (SigBit.wireBit (WName.user "\\v") 0) (by decide) (by decide)).1


/-- Claim C4 (amended): during driver reconnection, a registered
secondary buffer cell (BUFR or BUFIO, recorded under its single raw
input bit, a canonical bit) whose key bit both carries a primary-buffer
substitution and is reached by the reconnection loop (some cell other
than the inserted buffer drives a bit of that canonical class) has its
input port repointed to the new internal wire of the primary buffer; and
only such cells: any cell whose secondary-buffer registration fails, or
whose key bit is never reached by the loop or has no substitution, keeps
every input connection unchanged. -/
theorem c4_secondary_realignment (sm : Smap)
    (buffered : List (SigBit × WName × WName))
    (bufrPairs : List (SigBit × WName)) (cells : List Cell) :
    (∀ x ∈ cells, (x.ctype = idBUFR ∨ x.ctype = idBUFIO) →
      ∀ b, bufrPairs.find? (fun p => p.2 == x.name) = some (b, x.name) →
      ∀ q, buffered.lookup b = some q →
      touchedBit sm buffered cells b = true →
      reconnectCell sm buffered bufrPairs cells x ∈
        reconnectStage sm buffered bufrPairs cells ∧
      (reconnectCell sm buffered bufrPairs cells x).name = x.name ∧
      ∀ conn ∈ x.conns, conn.port = idI → conn.isOutput = false →
        ({ conn with sig := conn.sig.map (fun _ => SigBit.wireBit q.2 0) } : Conn) ∈
          (reconnectCell sm buffered bufrPairs cells x).conns) ∧
    (∀ y ∈ cells,
      ((y.ctype ≠ idBUFR ∧ y.ctype ≠ idBUFIO) ∨
        bufrPairs.find? (fun p => p.2 == y.name) = none ∨
        (∃ b nm2, bufrPairs.find? (fun p => p.2 == y.name) = some (b, nm2) ∧
          (touchedBit sm buffered cells b = false ∨ buffered.lookup b = none))) →
      ∀ conn ∈ y.conns, conn.isOutput = false →
        conn ∈ (reconnectCell sm buffered bufrPairs cells y).conns) := by
  constructor
  · intro x hx hxty b hreg q hbuf htouch
    refine ⟨List.mem_map_of_mem _ hx, rfl, ?_⟩
    intro conn hconn hport hout
    unfold reconnectCell
    have hty : (x.ctype == idBUFR || x.ctype == idBUFIO) = true := by
      rcases hxty with h | h <;> simp [h]
    simp only [hty, if_true, hreg, htouch, hbuf]
    have h1 : conn ∈ x.conns.map (fun c0 =>
        if c0.isOutput then
          { c0 with sig := c0.sig.map (rewriteOutBit sm buffered x.name) }
        else c0) := by
      have himg : (fun c0 : Conn =>
          if c0.isOutput then
            { c0 with sig := c0.sig.map (rewriteOutBit sm buffered x.name) }
          else c0) conn = conn := by
        simp [hout]
      rw [← himg]
      exact List.mem_map_of_mem _ hconn
    have h2 := List.mem_map_of_mem (fun c0 : Conn =>
      if c0.port == idI then
        { c0 with sig := c0.sig.map (fun _ => SigBit.wireBit q.2 0) }
      else c0) h1
    have hcond : (conn.port == idI) = true := by simp [hport]
    simp only [hcond, if_true] at h2
    exact h2
  · intro y hy hneg conn hconn hout
    unfold reconnectCell
    have h1 : conn ∈ y.conns.map (fun c0 =>
        if c0.isOutput then
          { c0 with sig := c0.sig.map (rewriteOutBit sm buffered y.name) }
        else c0) := by
      have himg : (fun c0 : Conn =>
          if c0.isOutput then
            { c0 with sig := c0.sig.map (rewriteOutBit sm buffered y.name) }
          else c0) conn = conn := by
        simp [hout]
      rw [← himg]
      exact List.mem_map_of_mem _ hconn
    rcases hneg with ⟨h2, h3⟩ | h2 | ⟨b, nm2, h2, h3⟩
    · have hty : (y.ctype == idBUFR || y.ctype == idBUFIO) = false := by
        simp [h2, h3]
      simp only [hty, Bool.false_eq_true, if_false]
      exact h1
    · by_cases hty : (y.ctype == idBUFR || y.ctype == idBUFIO) = true
      · simp only [hty, if_true, h2]
        exact h1
      · simp only [Bool.not_eq_true] at hty
        simp only [hty, Bool.false_eq_true, if_false]
        exact h1
    · by_cases hty : (y.ctype == idBUFR || y.ctype == idBUFIO) = true
      · simp only [hty, if_true, h2]
        rcases h3 with h3 | h3
        · simp only [h3, Bool.false_eq_true, if_false]
          exact h1
        · by_cases ht : touchedBit sm buffered cells b = true
          · simp only [ht, if_true, h3]
            exact h1
          · simp only [Bool.not_eq_true] at ht
            simp only [ht, Bool.false_eq_true, if_false]
            exact h1
      · simp only [Bool.not_eq_true] at hty
        simp only [hty, Bool.false_eq_true, if_false]
        exact h1

/-- Claim C4, counterexample: a BUFR cell reads a canonical top-level
input clock bit for which a primary buffer is inserted, and it is duly
registered as a secondary buffer; yet because no cell (other than the
inserted buffer) drives that bit, the driver-reconnection loop never
reaches it and the BUFR input is NOT repointed to the internal wire of
the primary buffer (it ends up reading the buffer output net instead). -/
theorem c4_counterexample :
    computeBufrPairs [⟨WName.user "\\ff0", WName.user "\\FF", [⟨WName.user "\\CLK", false, [SigBit.wireBit (WName.user "\\clk") 0]⟩, ⟨WName.user "\\Q", true, [SigBit.wireBit (WName.user "\\q") 0]⟩]⟩, ⟨WName.user "\\bufr0", idBUFR, [⟨idI, false, [SigBit.wireBit (WName.user "\\clk") 0]⟩, ⟨WName.user "\\O", true, [SigBit.wireBit (WName.user "\\ro") 0]⟩]⟩]
      (computeBufBits false (fun _ => true) [] [⟨WName.user "\\clk", 1, true, false, {}⟩, ⟨WName.user "\\q", 1, false, false, {}⟩, ⟨WName.user "\\ro", 1, false, false, {}⟩]) =
      [(SigBit.wireBit (WName.user "\\clk") 0, WName.user "\\bufr0")] ∧
    sigApply [] (SigBit.wireBit (WName.user "\\clk") 0) =
      SigBit.wireBit (WName.user "\\clk") 0 ∧
    (⟨WName.auto 0, WName.user "\\BUFG",
      [⟨WName.user "\\O", true, [SigBit.wireBit (WName.auto 2) 0]⟩,
       ⟨WName.user "\\I", false, [SigBit.wireBit (WName.auto 1) 0]⟩]⟩ : Cell) ∈
      (processModule { bufCelltype := "BUFG", bufPortname := "O", bufPortname2 := "I" } true false (fun _ => true) [] ⟨{(WName.user "\\FF", WName.user "\\CLK", 0)}, ∅, [], []⟩ ⟨WName.user "\\top", [⟨WName.user "\\clk", 1, true, false, {}⟩, ⟨WName.user "\\q", 1, false, false, {}⟩, ⟨WName.user "\\ro", 1, false, false, {}⟩], [⟨WName.user "\\ff0", WName.user "\\FF", [⟨WName.user "\\CLK", false, [SigBit.wireBit (WName.user "\\clk") 0]⟩, ⟨WName.user "\\Q", true, [SigBit.wireBit (WName.user "\\q") 0]⟩]⟩, ⟨WName.user "\\bufr0", idBUFR, [⟨idI, false, [SigBit.wireBit (WName.user "\\clk") 0]⟩, ⟨WName.user "\\O", true, [SigBit.wireBit (WName.user "\\ro") 0]⟩]⟩], [], false, true, []⟩).2.cells ∧
    (⟨WName.user "\\bufr0", idBUFR,
      [⟨idI, false, [SigBit.wireBit (WName.auto 2) 0]⟩,
       ⟨WName.user "\\O", true, [SigBit.wireBit (WName.user "\\ro") 0]⟩]⟩ : Cell) ∈
      (processModule { bufCelltype := "BUFG", bufPortname := "O", bufPortname2 := "I" } true false (fun _ => true) [] ⟨{(WName.user "\\FF", WName.user "\\CLK", 0)}, ∅, [], []⟩ ⟨WName.user "\\top", [⟨WName.user "\\clk", 1, true, false, {}⟩, ⟨WName.user "\\q", 1, false, false, {}⟩, ⟨WName.user "\\ro", 1, false, false, {}⟩], [⟨WName.user "\\ff0", WName.user "\\FF", [⟨WName.user "\\CLK", false, [SigBit.wireBit (WName.user "\\clk") 0]⟩, ⟨WName.user "\\Q", true, [SigBit.wireBit (WName.user "\\q") 0]⟩]⟩, ⟨WName.user "\\bufr0", idBUFR, [⟨idI, false, [SigBit.wireBit (WName.user "\\clk") 0]⟩, ⟨WName.user "\\O", true, [SigBit.wireBit (WName.user "\\ro") 0]⟩]⟩], [], false, true, []⟩).2.cells ∧
    ([SigBit.wireBit (WName.auto 2) 0] : SigSpec) ≠ [SigBit.wireBit (WName.auto 1) 0] := by
  refine ⟨by decide, rfl, by decide, by decide, by decide⟩

/-- Witness for the amended C4 theorem: a concrete BUFR cell whose key
bit is driven by another cell has its input connection repointed to the
fresh internal wire of the primary buffer. -/
theorem c4_witness :
    ({ port := idI, isOutput := false,
       sig := [SigBit.wireBit (WName.auto 1) 0] } : Conn) ∈
      (reconnectCell []
        [(SigBit.wireBit (WName.user "\\clknet") 0, WName.auto 0, WName.auto 1)]
        [(SigBit.wireBit (WName.user "\\clknet") 0, WName.user "\\bufr0")]
        [⟨WName.user "\\drv", WName.user "\\DRV",
          [⟨WName.user "\\Q", true, [SigBit.wireBit (WName.user "\\clknet") 0]⟩]⟩,
         ⟨WName.user "\\bufr0", idBUFR,
          [⟨idI, false, [SigBit.wireBit (WName.user "\\clknet") 0]⟩,
           ⟨WName.user "\\O", true, [SigBit.wireBit (WName.user "\\ro") 0]⟩]⟩]
        ⟨WName.user "\\bufr0", idBUFR,
          [⟨idI, false, [SigBit.wireBit (WName.user "\\clknet") 0]⟩,
           ⟨WName.user "\\O", true, [SigBit.wireBit (WName.user "\\ro") 0]⟩]⟩).conns := by
  have h := (c4_secondary_realignment []
      [(SigBit.wireBit (WName.user "\\clknet") 0, WName.auto 0, WName.auto 1)]
      [(SigBit.wireBit (WName.user "\\clknet") 0, WName.user "\\bufr0")]
      [⟨WName.user "\\drv", WName.user "\\DRV",
        [⟨WName.user "\\Q", true, [SigBit.wireBit (WName.user "\\clknet") 0]⟩]⟩,
       ⟨WName.user "\\bufr0", idBUFR,
        [⟨idI, false, [SigBit.wireBit (WName.user "\\clknet") 0]⟩,
         ⟨WName.user "\\O", true, [SigBit.wireBit (WName.user "\\ro") 0]⟩]⟩]).1
      ⟨WName.user "\\bufr0", idBUFR,
        [⟨idI, false, [SigBit.wireBit (WName.user "\\clknet") 0]⟩,
         ⟨WName.user "\\O", true, [SigBit.wireBit (WName.user "\\ro") 0]⟩]⟩
      (by decide) (Or.inl rfl)
      (SigBit.wireBit (WName.user "\\clknet") 0) (by decide)
      (WName.auto 0, WName.auto 1) (by decide) (by decide)
  have h2 := h.2.2 ⟨idI, false, [SigBit.wireBit (WName.user "\\clknet") 0]⟩
      (by decide) rfl rfl
  simpa using h2


/-- Claim C8, counterexample: with no explicit selection, a wire
carrying the inhibit attribute is skipped by the insertion loop, but its
canonical bit class is still reachable through an alias (a top-level
input whose canonical representative is the inhibited wire); a buffer is
inserted for the alias, the reconnection loop rewrites the driver of the
inhibited wire to the fresh internal wire, and the new buffer cell now
drives the inhibited wire: the wire is NOT left unmodified. -/
theorem c8_counterexample :
    (⟨WName.user "\\w", 1, false, false, { inhibit := true }⟩ : Wire) ∈
      (⟨WName.user "\\top", [⟨WName.user "\\v", 1, true, false, {}⟩, ⟨WName.user "\\w", 1, false, false, { inhibit := true }⟩], [⟨WName.user "\\d", WName.user "\\DRV", [⟨WName.user "\\Q", true, [SigBit.wireBit (WName.user "\\w") 0]⟩]⟩, ⟨WName.user "\\ff", WName.user "\\FF", [⟨WName.user "\\CLK", false, [SigBit.wireBit (WName.user "\\v") 0]⟩]⟩], [], false, true, []⟩ : Module).wires ∧
    (⟨WName.user "\\d", WName.user "\\DRV",
      [⟨WName.user "\\Q", true, [SigBit.wireBit (WName.user "\\w") 0]⟩]⟩ : Cell) ∈
      (⟨WName.user "\\top", [⟨WName.user "\\v", 1, true, false, {}⟩, ⟨WName.user "\\w", 1, false, false, { inhibit := true }⟩], [⟨WName.user "\\d", WName.user "\\DRV", [⟨WName.user "\\Q", true, [SigBit.wireBit (WName.user "\\w") 0]⟩]⟩, ⟨WName.user "\\ff", WName.user "\\FF", [⟨WName.user "\\CLK", false, [SigBit.wireBit (WName.user "\\v") 0]⟩]⟩], [], false, true, []⟩ : Module).cells ∧
    (∀ c ∈ (processModule { bufCelltype := "BUFG", bufPortname := "O", bufPortname2 := "I" } true false (fun _ => true) [(SigBit.wireBit (WName.user "\\v") 0, SigBit.wireBit (WName.user "\\w") 0)] ⟨{(WName.user "\\FF", WName.user "\\CLK", 0)}, ∅, [], []⟩ ⟨WName.user "\\top", [⟨WName.user "\\v", 1, true, false, {}⟩, ⟨WName.user "\\w", 1, false, false, { inhibit := true }⟩], [⟨WName.user "\\d", WName.user "\\DRV", [⟨WName.user "\\Q", true, [SigBit.wireBit (WName.user "\\w") 0]⟩]⟩, ⟨WName.user "\\ff", WName.user "\\FF", [⟨WName.user "\\CLK", false, [SigBit.wireBit (WName.user "\\v") 0]⟩]⟩], [], false, true, []⟩).2.cells, c.name = WName.user "\\d" →
      c.conns = [⟨WName.user "\\Q", true, [SigBit.wireBit (WName.auto 1) 0]⟩]) ∧
    (⟨WName.auto 0, WName.user "\\BUFG",
      [⟨WName.user "\\O", true, [SigBit.wireBit (WName.user "\\w") 0]⟩,
       ⟨WName.user "\\I", false, [SigBit.wireBit (WName.auto 1) 0]⟩]⟩ : Cell) ∈
      (processModule { bufCelltype := "BUFG", bufPortname := "O", bufPortname2 := "I" } true false (fun _ => true) [(SigBit.wireBit (WName.user "\\v") 0, SigBit.wireBit (WName.user "\\w") 0)] ⟨{(WName.user "\\FF", WName.user "\\CLK", 0)}, ∅, [], []⟩ ⟨WName.user "\\top", [⟨WName.user "\\v", 1, true, false, {}⟩, ⟨WName.user "\\w", 1, false, false, { inhibit := true }⟩], [⟨WName.user "\\d", WName.user "\\DRV", [⟨WName.user "\\Q", true, [SigBit.wireBit (WName.user "\\w") 0]⟩]⟩, ⟨WName.user "\\ff", WName.user "\\FF", [⟨WName.user "\\CLK", false, [SigBit.wireBit (WName.user "\\v") 0]⟩]⟩], [], false, true, []⟩).2.cells ∧
    ([SigBit.wireBit (WName.auto 1) 0] : SigSpec) ≠ [SigBit.wireBit (WName.user "\\w") 0] := by
  refine ⟨by decide, by decide, by decide, by decide, by decide⟩

/-!
Lemmas for the inhibited-wire frame argument.
-/

lemma bitPreserves_refl (wn : WName) (b : SigBit) : bitPreserves wn b b :=
  fun _ => rfl

lemma sigPreserves_refl (wn : WName) (s : SigSpec) : sigPreserves wn s s :=
  List.forall₂_same.mpr (fun b _ => bitPreserves_refl wn b)

lemma pairPreserves_refl (wn : WName) (p : SigSpec × SigSpec) :
    pairPreserves wn p p :=
  ⟨sigPreserves_refl wn p.1, sigPreserves_refl wn p.2⟩

lemma c8_forall2_mem_right {α β : Type} {R : α → β → Prop} :
    ∀ {l1 : List α} {l2 : List β}, List.Forall₂ R l1 l2 →
    ∀ b ∈ l2, ∃ a ∈ l1, R a b := by
  intro l1 l2 h
  induction h with
  | nil => intro b hb; cases hb
  | cons hR hrest ih =>
    intro b hb
    rcases List.mem_cons.mp hb with rfl | hb
    · exact ⟨_, List.mem_cons_self _ _, hR⟩
    · obtain ⟨a, ha, hab⟩ := ih b hb
      exact ⟨a, List.mem_cons_of_mem _ ha, hab⟩

lemma c8_lookup_mem :
    ∀ (l : List (SigBit × WName × WName)) (b : SigBit) (v : WName × WName),
    l.lookup b = some v → ∃ k, (k, v) ∈ l := by
  intro l
  induction l with
  | nil => intro b v h; cases h
  | cons e rest ih =>
    intro b v h
    obtain ⟨k0, v0⟩ := e
    cases hk : (b == k0) with
    | true =>
      simp only [List.lookup, hk, Option.some.injEq] at h
      exact ⟨k0, by rw [← h]; exact List.mem_cons_self _ _⟩
    | false =>
      simp only [List.lookup, hk] at h
      obtain ⟨k, hkmem⟩ := ih b v h
      exact ⟨k, List.mem_cons_of_mem _ hkmem⟩

lemma c8_lookup_none (wn : WName) :
    ∀ (l : List (SigBit × WName × WName)) (b : SigBit),
    (∀ e ∈ l, isWBit wn e.1 = false) → isWBit wn b = true →
    l.lookup b = none := by
  intro l
  induction l with
  | nil => intro b _ _; rfl
  | cons e rest ih =>
    intro b hkeys hb
    obtain ⟨k0, v0⟩ := e
    have hk : (b == k0) = false := by
      cases hkk : (b == k0) with
      | true =>
        have hkb : b = k0 := eq_of_beq hkk
        have h2 := hkeys (k0, v0) (List.mem_cons_self _ _)
        rw [← hkb, hb] at h2
        cases h2
      | false => rfl
    simp only [List.lookup, hk]
    exact ih b (fun e he => hkeys e (List.mem_cons_of_mem _ he)) hb

lemma c8_swapBit_neutral (wn o n : WName) (ho : o ≠ wn) (hn : n ≠ wn)
    (b : SigBit) : isWBit wn (swapBit o n b) = isWBit wn b := by
  cases b with
  | wireBit x i =>
    simp only [swapBit, isWBit, swapName]
    split_ifs with h1 h2
    · subst h1
      simp [ho, hn]
    · subst h2
      simp [ho, hn]
    · rfl
  | constBit v => rfl

lemma c8_swapBit_fix (wn o n : WName) (ho : o ≠ wn) (hn : n ≠ wn)
    (b : SigBit) (hb : isWBit wn b = true) : swapBit o n b = b := by
  cases b with
  | wireBit x i =>
    have hx : x = wn := eq_of_beq (by simpa [isWBit] using hb)
    subst hx
    simp only [swapBit, swapName]
    rw [if_neg (fun hc => ho hc.symm), if_neg (fun hc => hn hc.symm)]
  | constBit v => simp [isWBit] at hb

lemma c8_bitPreserves_swap (wn o n : WName) (ho : o ≠ wn) (hn : n ≠ wn)
    (b bp : SigBit) (h : bitPreserves wn b bp) :
    bitPreserves wn b (swapBit o n bp) := by
  intro hor
  rw [c8_swapBit_neutral wn o n ho hn bp] at hor
  have hbp : bp = b := h hor
  subst hbp
  have hbb : isWBit wn bp = true := by
    cases hor2 : isWBit wn bp with
    | true => rfl
    | false => rw [hor2] at hor; simpa using hor
  exact c8_swapBit_fix wn o n ho hn bp hbb

lemma c8_connPreserves_swap (wn o n : WName) (ho : o ≠ wn) (hn : n ≠ wn)
    (c cp : Conn) (h : connPreserves wn c cp) :
    connPreserves wn c { cp with sig := cp.sig.map (swapBit o n) } := by
  refine ⟨h.1, h.2.1, ?_⟩
  have h2 := h.2.2
  unfold sigPreserves at h2 ⊢
  rw [List.forall₂_map_right_iff]
  exact h2.imp (fun a b hab => c8_bitPreserves_swap wn o n ho hn a b hab)

lemma c8_cellPreserves_swap (wn o n : WName) (ho : o ≠ wn) (hn : n ≠ wn)
    (c cp : Cell) (h : cellPreserves wn c cp) :
    cellPreserves wn c
      { cp with
        conns := cp.conns.map (fun cn => { cn with sig := cn.sig.map (swapBit o n) }) } := by
  refine ⟨h.1, h.2.1, ?_⟩
  have h2 := h.2.2
  rw [List.forall₂_map_right_iff]
  exact h2.imp (fun a b hab => c8_connPreserves_swap wn o n ho hn a b hab)

lemma c8_pairPreserves_swap (wn o n : WName) (ho : o ≠ wn) (hn : n ≠ wn)
    (p pp : SigSpec × SigSpec) (h : pairPreserves wn p pp) :
    pairPreserves wn p (pp.1.map (swapBit o n), pp.2.map (swapBit o n)) := by
  constructor
  · have h1 := h.1
    unfold sigPreserves at h1 ⊢
    rw [List.forall₂_map_right_iff]
    exact h1.imp (fun a b hab => c8_bitPreserves_swap wn o n ho hn a b hab)
  · have h2 := h.2
    unfold sigPreserves at h2 ⊢
    rw [List.forall₂_map_right_iff]
    exact h2.imp (fun a b hab => c8_bitPreserves_swap wn o n ho hn a b hab)

lemma c8_sigAll_trans (wn : WName) (s sp : SigSpec)
    (hpres : sigPreserves wn s sp)
    (hall : s.all (fun b => !(isWBit wn b)) = true) :
    sp.all (fun b => !(isWBit wn b)) = true := by
  rw [List.all_eq_true] at hall ⊢
  intro b hb
  obtain ⟨a, ha, hab⟩ := c8_forall2_mem_right hpres b hb
  cases hbw : isWBit wn b with
  | false => simp [hbw]
  | true =>
    have hba : b = a := hab (by rw [hbw]; simp)
    have h3 := hall a ha
    rw [← hba, hbw] at h3
    simp at h3

lemma c8_noWireRef_trans (wn : WName) (c cp : Cell)
    (h : cellPreserves wn c cp) (hc : noWireRef wn c = true) :
    noWireRef wn cp = true := by
  unfold noWireRef at hc ⊢
  rw [List.all_eq_true] at hc ⊢
  intro connp hconnp
  obtain ⟨conn, hconn, hcp⟩ := c8_forall2_mem_right h.2.2 connp hconnp
  exact c8_sigAll_trans wn conn.sig connp.sig hcp.2.2 (hc conn hconn)

lemma c8_noPairRef_trans (wn : WName) (p pp : SigSpec × SigSpec)
    (h : pairPreserves wn p pp) (hp : noPairRef wn p = true) :
    noPairRef wn pp = true := by
  unfold noPairRef at hp ⊢
  rw [Bool.and_eq_true] at hp ⊢
  exact ⟨c8_sigAll_trans wn p.1 pp.1 h.1 hp.1, c8_sigAll_trans wn p.2 pp.2 h.2 hp.2⟩

lemma c8_swapStage_cells (wn : WName) :
    ∀ (q : List (WName × WName)) (wires : List Wire) (cells : List Cell)
      (conns : List (SigSpec × SigSpec)) (base : List Cell),
    (∀ p ∈ q, p.1 ≠ wn ∧ p.2 ≠ wn) →
    List.Forall₂ (cellPreserves wn) base cells →
    List.Forall₂ (cellPreserves wn) base (swapStage q wires cells conns).2.1 := by
  intro q
  induction q with
  | nil =>
    intro wires cells conns base _ h
    exact h
  | cons p rest ih =>
    intro wires cells conns base hq h
    simp only [swapStage, List.foldl_cons]
    have hstep : List.Forall₂ (cellPreserves wn) base
        (swapStep (wires, cells, conns) p).2.1 := by
      simp only [swapStep]
      rw [List.forall₂_map_right_iff]
      exact h.imp (fun a b hab =>
        c8_cellPreserves_swap wn p.1 p.2 (hq p (List.mem_cons_self _ _)).1
          (hq p (List.mem_cons_self _ _)).2 a b hab)
    exact ih (swapStep (wires, cells, conns) p).1
      (swapStep (wires, cells, conns) p).2.1
      (swapStep (wires, cells, conns) p).2.2 base
      (fun p2 hp2 => hq p2 (List.mem_cons_of_mem _ hp2)) hstep

lemma c8_swapStage_conns (wn : WName) :
    ∀ (q : List (WName × WName)) (wires : List Wire) (cells : List Cell)
      (conns : List (SigSpec × SigSpec)) (base : List (SigSpec × SigSpec)),
    (∀ p ∈ q, p.1 ≠ wn ∧ p.2 ≠ wn) →
    List.Forall₂ (pairPreserves wn) base conns →
    List.Forall₂ (pairPreserves wn) base (swapStage q wires cells conns).2.2 := by
  intro q
  induction q with
  | nil =>
    intro wires cells conns base _ h
    exact h
  | cons p rest ih =>
    intro wires cells conns base hq h
    simp only [swapStage, List.foldl_cons]
    have hstep : List.Forall₂ (pairPreserves wn) base
        (swapStep (wires, cells, conns) p).2.2 := by
      simp only [swapStep]
      rw [List.forall₂_map_right_iff]
      exact h.imp (fun a b hab =>
        c8_pairPreserves_swap wn p.1 p.2 (hq p (List.mem_cons_self _ _)).1
          (hq p (List.mem_cons_self _ _)).2 a b hab)
    exact ih (swapStep (wires, cells, conns) p).1
      (swapStep (wires, cells, conns) p).2.1
      (swapStep (wires, cells, conns) p).2.2 base
      (fun p2 hp2 => hq p2 (List.mem_cons_of_mem _ hp2)) hstep

lemma c8_rewriteOutBit (wn : WName) (sm : Smap) (c0 : Nat)
    (buffered : List (SigBit × WName × WName)) (cname : WName)
    (hkeys : ∀ e ∈ buffered, isWBit wn e.1 = false)
    (hvals : ∀ e ∈ buffered, ∃ k, e.2.2 = WName.auto k ∧ c0 ≤ k)
    (hfresh : ∀ k, c0 ≤ k → wn ≠ WName.auto k)
    (hsm1 : ∀ i, sigApply sm (SigBit.wireBit wn i) = SigBit.wireBit wn i)
    (b : SigBit) :
    bitPreserves wn b (rewriteOutBit sm buffered cname b) := by
  cases hb : isWBit wn b with
  | true =>
    intro _
    have hsa : sigApply sm b = b := by
      cases b with
      | wireBit x i =>
        have hx : x = wn := eq_of_beq (by simpa [isWBit] using hb)
        subst hx
        exact hsm1 i
      | constBit v => simp [isWBit] at hb
    unfold rewriteOutBit
    rw [hsa, c8_lookup_none wn buffered b hkeys hb]
  | false =>
    cases hl : buffered.lookup (sigApply sm b) with
    | none =>
      intro _
      unfold rewriteOutBit
      rw [hl]
    | some pq =>
      obtain ⟨cn, iw⟩ := pq
      by_cases hcn : cname = cn
      · intro _
        unfold rewriteOutBit
        rw [hl]
        simp [hcn]
      · have hr : rewriteOutBit sm buffered cname b = SigBit.wireBit iw 0 := by
          unfold rewriteOutBit
          rw [hl]
          simp [hcn]
        intro hor
        rw [hr] at hor
        obtain ⟨kk, hmem⟩ := c8_lookup_mem buffered (sigApply sm b) (cn, iw) hl
        obtain ⟨k, hk, hkge⟩ := hvals (kk, cn, iw) hmem
        have hiw : iw = WName.auto k := hk
        have hni : isWBit wn (SigBit.wireBit iw 0) = false := by
          simp only [isWBit]
          rw [hiw]
          exact beq_eq_false_iff_ne.mpr (fun hc => hfresh k hkge hc.symm)
        rw [hb, hni] at hor
        simp at hor

lemma c8_conn_out (wn : WName) (sm : Smap) (c0 : Nat)
    (buffered : List (SigBit × WName × WName)) (cname : WName)
    (hkeys : ∀ e ∈ buffered, isWBit wn e.1 = false)
    (hvals : ∀ e ∈ buffered, ∃ k, e.2.2 = WName.auto k ∧ c0 ≤ k)
    (hfresh : ∀ k, c0 ≤ k → wn ≠ WName.auto k)
    (hsm1 : ∀ i, sigApply sm (SigBit.wireBit wn i) = SigBit.wireBit wn i)
    (conn : Conn) :
    connPreserves wn conn
      (if conn.isOutput then
        { conn with sig := conn.sig.map (rewriteOutBit sm buffered cname) }
       else conn) := by
  by_cases ho : conn.isOutput = true
  · simp only [ho, reduceIte]
    refine ⟨rfl, ho.symm, ?_⟩
    unfold sigPreserves
    rw [List.forall₂_map_right_iff]
    refine List.forall₂_same.mpr (fun b _ => ?_)
    exact c8_rewriteOutBit wn sm c0 buffered cname hkeys hvals hfresh hsm1 b
  · have ho2 : conn.isOutput = false := by simpa using ho
    simp only [ho2, Bool.false_eq_true, reduceIte]
    exact ⟨rfl, rfl, sigPreserves_refl wn conn.sig⟩

lemma c8_reconnectCell_pres (wn : WName) (sm : Smap) (c0 : Nat)
    (buffered : List (SigBit × WName × WName))
    (bufrPairs : List (SigBit × WName)) (cells1 : List Cell) (x : Cell)
    (hkeys : ∀ e ∈ buffered, isWBit wn e.1 = false)
    (hvals : ∀ e ∈ buffered, ∃ k, e.2.2 = WName.auto k ∧ c0 ≤ k)
    (hfresh : ∀ k, c0 ≤ k → wn ≠ WName.auto k)
    (hsm1 : ∀ i, sigApply sm (SigBit.wireBit wn i) = SigBit.wireBit wn i)
    (hIbits : ∀ p, bufrPairs.find? (fun pr => pr.2 == x.name) = some p →
      ∀ conn ∈ x.conns, conn.port = idI → ∀ b ∈ conn.sig, isWBit wn b = false) :
    cellPreserves wn x (reconnectCell sm buffered bufrPairs cells1 x) := by
  have hbase : List.Forall₂ (connPreserves wn) x.conns
      (x.conns.map (fun conn =>
        if conn.isOutput then
          { conn with sig := conn.sig.map (rewriteOutBit sm buffered x.name) }
        else conn)) := by
    rw [List.forall₂_map_right_iff]
    refine List.forall₂_same.mpr (fun conn _ => ?_)
    exact c8_conn_out wn sm c0 buffered x.name hkeys hvals hfresh hsm1 conn
  by_cases hty : (x.ctype == idBUFR || x.ctype == idBUFIO) = true
  · cases hfind : bufrPairs.find? (fun pr => pr.2 == x.name) with
    | none =>
      refine ⟨rfl, rfl, ?_⟩
      have hconns : (reconnectCell sm buffered bufrPairs cells1 x).conns =
          x.conns.map (fun conn =>
            if conn.isOutput then
              { conn with sig := conn.sig.map (rewriteOutBit sm buffered x.name) }
            else conn) := by
        simp [reconnectCell, hty, hfind]
      rw [hconns]
      exact hbase
    | some p =>
      cases htch : touchedBit sm buffered cells1 p.1 with
      | false =>
        refine ⟨rfl, rfl, ?_⟩
        have hconns : (reconnectCell sm buffered bufrPairs cells1 x).conns =
            x.conns.map (fun conn =>
              if conn.isOutput then
                { conn with sig := conn.sig.map (rewriteOutBit sm buffered x.name) }
              else conn) := by
          simp [reconnectCell, hty, hfind, htch]
        rw [hconns]
        exact hbase
      | true =>
        cases hlk : buffered.lookup p.1 with
        | none =>
          refine ⟨rfl, rfl, ?_⟩
          have hconns : (reconnectCell sm buffered bufrPairs cells1 x).conns =
              x.conns.map (fun conn =>
                if conn.isOutput then
                  { conn with sig := conn.sig.map (rewriteOutBit sm buffered x.name) }
                else conn) := by
            simp [reconnectCell, hty, hfind, htch, hlk]
          rw [hconns]
          exact hbase
        | some q =>
          refine ⟨rfl, rfl, ?_⟩
          have hconns : (reconnectCell sm buffered bufrPairs cells1 x).conns =
              (x.conns.map (fun conn =>
                if conn.isOutput then
                  { conn with sig := conn.sig.map (rewriteOutBit sm buffered x.name) }
                else conn)).map (fun conn =>
                  if conn.port == idI then
                    { conn with sig := conn.sig.map (fun _ => SigBit.wireBit q.2 0) }
                  else conn) := by
            simp [reconnectCell, hty, hfind, htch, hlk]
          rw [hconns, List.map_map, List.forall₂_map_right_iff]
          refine List.forall₂_same.mpr (fun conn hconn => ?_)
          show connPreserves wn conn
            ((fun cn : Conn =>
                if cn.port == idI then
                  { cn with sig := cn.sig.map (fun _ => SigBit.wireBit q.2 0) }
                else cn)
              ((fun cn : Conn =>
                if cn.isOutput then
                  { cn with sig := cn.sig.map (rewriteOutBit sm buffered x.name) }
                else cn) conn))
          obtain ⟨kk, hmem⟩ := c8_lookup_mem buffered p.1 q hlk
          obtain ⟨k, hk, hkge⟩ := hvals (kk, q) hmem
          have hq2 : isWBit wn (SigBit.wireBit q.2 0) = false := by
            have hq2eq : q.2 = WName.auto k := hk
            simp only [isWBit]
            rw [hq2eq]
            exact beq_eq_false_iff_ne.mpr (fun hc => hfresh k hkge hc.symm)
          by_cases hport : (conn.port == idI) = true
          · have hport2 : conn.port = idI := eq_of_beq hport
            have hbits := hIbits p hfind conn hconn hport2
            have himg : ((fun cn : Conn =>
                  if cn.port == idI then
                    { cn with sig := cn.sig.map (fun _ => SigBit.wireBit q.2 0) }
                  else cn)
                ((fun cn : Conn =>
                  if cn.isOutput then
                    { cn with sig := cn.sig.map (rewriteOutBit sm buffered x.name) }
                  else cn) conn)) =
                { conn with sig := conn.sig.map (fun _ => SigBit.wireBit q.2 0) } := by
              by_cases hco : conn.isOutput = true
              · simp [hco, hport, Function.comp_def, List.map_const]
              · have hco2 : conn.isOutput = false := by simpa using hco
                simp [hco2, hport]
            rw [himg]
            refine ⟨rfl, rfl, ?_⟩
            unfold sigPreserves
            rw [List.forall₂_map_right_iff]
            refine List.forall₂_same.mpr (fun b hb => ?_)
            intro hor
            rw [hbits b hb, hq2] at hor
            simp at hor
          · have hport3 : (conn.port == idI) = false := by simpa using hport
            have hfport : ((fun cn : Conn =>
                  if cn.isOutput then
                    { cn with sig := cn.sig.map (rewriteOutBit sm buffered x.name) }
                  else cn) conn).port = conn.port := by
              by_cases hco : conn.isOutput = true
              · simp [hco]
              · have hco2 : conn.isOutput = false := by simpa using hco
                simp [hco2]
            have hgp : (((fun cn : Conn =>
                  if cn.isOutput then
                    { cn with sig := cn.sig.map (rewriteOutBit sm buffered x.name) }
                  else cn) conn).port == idI) = false := by
              rw [hfport]
              exact hport3
            have himg : ((fun cn : Conn =>
                  if cn.port == idI then
                    { cn with sig := cn.sig.map (fun _ => SigBit.wireBit q.2 0) }
                  else cn)
                ((fun cn : Conn =>
                  if cn.isOutput then
                    { cn with sig := cn.sig.map (rewriteOutBit sm buffered x.name) }
                  else cn) conn)) =
                ((fun cn : Conn =>
                  if cn.isOutput then
                    { cn with sig := cn.sig.map (rewriteOutBit sm buffered x.name) }
                  else cn) conn) := by
              simp only [hgp, Bool.false_eq_true, reduceIte]
            rw [himg]
            exact c8_conn_out wn sm c0 buffered x.name hkeys hvals hfresh hsm1 conn
  · have hty2 : (x.ctype == idBUFR || x.ctype == idBUFIO) = false := by simpa using hty
    refine ⟨rfl, rfl, ?_⟩
    have hconns : (reconnectCell sm buffered bufrPairs cells1 x).conns =
        x.conns.map (fun conn =>
          if conn.isOutput then
            { conn with sig := conn.sig.map (rewriteOutBit sm buffered x.name) }
          else conn) := by
      simp [reconnectCell, hty2]
    rw [hconns]
    exact hbase

lemma c8_reconnectStage_pres (wn : WName) (sm : Smap) (c0 : Nat)
    (buffered : List (SigBit × WName × WName))
    (bufrPairs : List (SigBit × WName)) (cells1 : List Cell)
    (hkeys : ∀ e ∈ buffered, isWBit wn e.1 = false)
    (hvals : ∀ e ∈ buffered, ∃ k, e.2.2 = WName.auto k ∧ c0 ≤ k)
    (hfresh : ∀ k, c0 ≤ k → wn ≠ WName.auto k)
    (hsm1 : ∀ i, sigApply sm (SigBit.wireBit wn i) = SigBit.wireBit wn i)
    (hall : ∀ x ∈ cells1, ∀ p, bufrPairs.find? (fun pr => pr.2 == x.name) = some p →
      ∀ conn ∈ x.conns, conn.port = idI → ∀ b ∈ conn.sig, isWBit wn b = false) :
    List.Forall₂ (cellPreserves wn) cells1
      (reconnectStage sm buffered bufrPairs cells1) := by
  unfold reconnectStage
  rw [List.forall₂_map_right_iff]
  refine List.forall₂_same.mpr (fun x hx => ?_)
  exact c8_reconnectCell_pres wn sm c0 buffered bufrPairs cells1 x
    hkeys hvals hfresh hsm1 (hall x hx)

lemma c8_insertForBit_inv (wn : WName) (c0 : Nat) (cfg : Config) (bi top : Bool)
    (u : Wire) (mb : SigBit) (st : InsState)
    (hfresh : ∀ k, c0 ≤ k → wn ≠ WName.auto k)
    (hmb : isWBit wn mb = false)
    (hinv : InsInv wn c0 st) :
    InsInv wn c0 (insertForBit cfg bi top u mb st) ∧
    (insertForBit cfg bi top u mb st).bufAdds = st.bufAdds := by
  obtain ⟨hc, hbuf, hcells, hconn, hqueue⟩ := hinv
  have hne : ∀ k, c0 ≤ k → (WName.auto k == wn) = false :=
    fun k hk => beq_eq_false_iff_ne.mpr (fun hc2 => hfresh k hk hc2.symm)
  have hb1 : isWBit wn (SigBit.wireBit (WName.auto (st.counter + 1)) 0) = false := by
    simp only [isWBit]
    exact hne (st.counter + 1) (by omega)
  have hb3 : isWBit wn (SigBit.wireBit (WName.auto (st.counter + 2 + 1)) 0) = false := by
    simp only [isWBit]
    exact hne (st.counter + 2 + 1) (by omega)
  unfold insertForBit
  cases h2 : (u.port_input && !(cfg.inpadCelltype == "") && top) with
  | true =>
    simp only [h2, Bool.not_true, Bool.false_or, reduceIte]
    cases h1 : (!(cfg.bufCelltype == "") && bi) with
    | true =>
      simp only [h1, reduceIte]
      refine ⟨⟨by change c0 ≤ st.counter + 2 + 2; omega, ?_, ?_, hconn, hqueue⟩, trivial⟩
      · intro e he
        rcases List.mem_cons.mp he with rfl | he
        · exact ⟨hmb, st.counter + 2 + 1, rfl, by omega⟩
        · exact hbuf e he
      · intro c hcm
        rcases List.mem_append.mp hcm with hcm | hcm
        · rcases List.mem_append.mp hcm with hcm | hcm
          · exact hcells c hcm
          · have hc2 : c = ⟨WName.auto st.counter,
                WName.user (escapeId cfg.bufCelltype),
                [⟨WName.user (escapeId cfg.bufPortname), true, [mb]⟩,
                 ⟨WName.user (escapeId cfg.bufPortname2), false,
                   [SigBit.wireBit (WName.auto (st.counter + 1)) 0]⟩]⟩ := by
              simpa using hcm
            rw [hc2]
            simp [noWireRef, hmb, hb1]
        · have hc2 : c = ⟨WName.auto (st.counter + 2),
              WName.user (escapeId cfg.inpadCelltype),
              [⟨WName.user (escapeId cfg.inpadPortname), true,
                 [SigBit.wireBit (WName.auto (st.counter + 1)) 0]⟩,
               ⟨WName.user (escapeId cfg.inpadPortname2), false,
                 [SigBit.wireBit (WName.auto (st.counter + 2 + 1)) 0]⟩]⟩ := by
            simpa using hcm
          rw [hc2]
          simp [noWireRef, hb1, hb3]
    | false =>
      simp only [h1, Bool.false_eq_true, reduceIte]
      refine ⟨⟨by change c0 ≤ st.counter + 2; omega, ?_, ?_, hconn, hqueue⟩, trivial⟩
      · intro e he
        rcases List.mem_cons.mp he with rfl | he
        · exact ⟨hmb, st.counter + 1, rfl, by omega⟩
        · exact hbuf e he
      · intro c hcm
        rcases List.mem_append.mp hcm with hcm | hcm
        · exact hcells c hcm
        · have hc2 : c = ⟨WName.auto st.counter,
              WName.user (escapeId cfg.inpadCelltype),
              [⟨WName.user (escapeId cfg.inpadPortname), true, [mb]⟩,
               ⟨WName.user (escapeId cfg.inpadPortname2), false,
                 [SigBit.wireBit (WName.auto (st.counter + 1)) 0]⟩]⟩ := by
            simpa using hcm
          rw [hc2]
          simp [noWireRef, hmb, hb1]
  | false =>
    simp only [h2, Bool.not_false, Bool.or_true, Bool.true_or, Bool.and_true,
      Bool.false_eq_true, reduceIte]
    cases h1 : (!(cfg.bufCelltype == "")) with
    | true =>
      simp only [h1, reduceIte]
      refine ⟨⟨by change c0 ≤ st.counter + 2; omega, ?_, ?_, hconn, hqueue⟩, trivial⟩
      · intro e he
        rcases List.mem_cons.mp he with rfl | he
        · exact ⟨hmb, st.counter + 1, rfl, by omega⟩
        · exact hbuf e he
      · intro c hcm
        rcases List.mem_append.mp hcm with hcm | hcm
        · exact hcells c hcm
        · have hc2 : c = ⟨WName.auto st.counter,
              WName.user (escapeId cfg.bufCelltype),
              [⟨WName.user (escapeId cfg.bufPortname), true, [mb]⟩,
               ⟨WName.user (escapeId cfg.bufPortname2), false,
                 [SigBit.wireBit (WName.auto (st.counter + 1)) 0]⟩]⟩ := by
            simpa using hcm
          rw [hc2]
          simp [noWireRef, hmb, hb1]
    | false =>
      simp only [h1, Bool.false_and, Bool.false_eq_true, reduceIte]
      exact ⟨⟨hc, hbuf, hcells, hconn, hqueue⟩, trivial⟩

lemma c8_wireBitStep_inv (wn : WName) (c0 : Nat) (cfg : Config) (bi top : Bool)
    (modName : WName) (sinkW bufW driven : Finset SigBit) (sm : Smap) (u : Wire)
    (st : InsState) (ib : List Nat) (i : Nat)
    (hfresh : ∀ k, c0 ≤ k → wn ≠ WName.auto k)
    (hbit : isWBit wn (sigApply sm (SigBit.wireBit u.name i)) = false)
    (hinv : InsInv wn c0 st) :
    InsInv wn c0 (wireBitStep cfg bi top modName sinkW bufW driven sm u (st, ib) i).1 ∧
    ∃ t, (wireBitStep cfg bi top modName sinkW bufW driven sm u (st, ib) i).1.bufAdds =
      st.bufAdds ++ t := by
  unfold wireBitStep
  cases hcl : classifyBit sinkW bufW driven sm top u i with
  | alreadyBuf =>
    dsimp only
    split_ifs with h
    · exact ⟨hinv, [(modName, u.name, i)], rfl⟩
    · exact ⟨hinv, [], (List.append_nil _).symm⟩
  | notSink => exact ⟨hinv, [], (List.append_nil _).symm⟩
  | doInsert =>
    obtain ⟨h1, h2⟩ := c8_insertForBit_inv wn c0 cfg bi top u
      (sigApply sm (SigBit.wireBit u.name i)) st hfresh hbit hinv
    exact ⟨h1, [], h2.trans (List.append_nil _).symm⟩
  | deferUp => exact ⟨hinv, [], (List.append_nil _).symm⟩
  | noAction => exact ⟨hinv, [], (List.append_nil _).symm⟩

lemma c8_bitsFold_inv (wn : WName) (c0 : Nat) (cfg : Config) (bi top : Bool)
    (modName : WName) (sinkW bufW driven : Finset SigBit) (sm : Smap) (u : Wire)
    (hfresh : ∀ k, c0 ≤ k → wn ≠ WName.auto k)
    (hbitall : ∀ i, isWBit wn (sigApply sm (SigBit.wireBit u.name i)) = false) :
    ∀ (l : List Nat) (st : InsState) (ib : List Nat), InsInv wn c0 st →
    InsInv wn c0
      ((l.foldl (wireBitStep cfg bi top modName sinkW bufW driven sm u) (st, ib)).1) ∧
    ∃ t, (l.foldl (wireBitStep cfg bi top modName sinkW bufW driven sm u) (st, ib)).1.bufAdds =
      st.bufAdds ++ t := by
  intro l
  induction l with
  | nil =>
    intro st ib h
    exact ⟨h, [], (List.append_nil _).symm⟩
  | cons i rest ih =>
    intro st ib h
    simp only [List.foldl_cons]
    obtain ⟨h1, t1, ht1⟩ := c8_wireBitStep_inv wn c0 cfg bi top modName sinkW bufW driven
      sm u st ib i hfresh (hbitall i) h
    obtain ⟨h2, t2, ht2⟩ := ih (wireBitStep cfg bi top modName sinkW bufW driven sm u (st, ib) i).1
      (wireBitStep cfg bi top modName sinkW bufW driven sm u (st, ib) i).2 h1
    rw [Prod.mk.eta] at h2 ht2
    exact ⟨h2, t1 ++ t2, by rw [ht2, ht1, List.append_assoc]⟩

lemma c8_processWire_inv (wn : WName) (c0 : Nat) (cfg : Config) (bi select top : Bool)
    (wsel : WName → Bool) (sm : Smap) (modName : WName)
    (sinkW bufW driven : Finset SigBit) (st : InsState) (u : Wire)
    (hfresh : ∀ k, c0 ≤ k → wn ≠ WName.auto k)
    (hu : processedWire select wsel u = true →
      u.name ≠ wn ∧ ∀ i, isWBit wn (sigApply sm (SigBit.wireBit u.name i)) = false)
    (hinv : InsInv wn c0 st) :
    InsInv wn c0 (processWire cfg bi select top wsel sm modName sinkW bufW driven st u) ∧
    ∃ t, (processWire cfg bi select top wsel sm modName sinkW bufW driven st u).bufAdds =
      st.bufAdds ++ t := by
  unfold processWire
  split_ifs with hflags hproc hout
  · exact ⟨hinv, [], (List.append_nil _).symm⟩
  · exact ⟨hinv, (List.range u.width).map (fun i => (modName, u.name, i)), rfl⟩
  · exact ⟨hinv, [], (List.append_nil _).symm⟩
  · have hpu : processedWire select wsel u = true := by simpa using hproc
    obtain ⟨hun, hball⟩ := hu hpu
    obtain ⟨hf1, t1, ht1⟩ := c8_bitsFold_inv wn c0 cfg bi top modName sinkW bufW driven
      sm u hfresh hball (List.range u.width) st [] hinv
    by_cases hib : ((List.range u.width).foldl
        (wireBitStep cfg bi top modName sinkW bufW driven sm u) (st, [])).2.isEmpty
    · simp only [hib, if_true]
      exact ⟨hf1, t1, ht1⟩
    · simp only [hib, Bool.false_eq_true, if_false]
      set F := (List.range u.width).foldl
        (wireBitStep cfg bi top modName sinkW bufW driven sm u) (st, []) with hF
      obtain ⟨hfc, hfbuf, hfcell, hfconn, hfq⟩ := hf1
      refine ⟨⟨?_, hfbuf, hfcell, ?_, ?_⟩, t1, ht1⟩
      · show c0 ≤ F.1.counter + 1
        omega
      · intro p hp
        rcases List.mem_append.mp hp with hp | hp
        · exact hfconn p hp
        · obtain ⟨i, hi, hpi⟩ := List.mem_map.mp hp
          cases hlk : F.1.buffered.lookup (sigApply sm (SigBit.wireBit u.name i)) with
          | none =>
            rw [← hpi]
            have hub : isWBit wn (SigBit.wireBit u.name i) = false := by
              simp only [isWBit]
              exact beq_eq_false_iff_ne.mpr hun
            have hnb : isWBit wn (SigBit.wireBit (WName.auto F.1.counter) i) = false := by
              simp only [isWBit]
              exact beq_eq_false_iff_ne.mpr (fun hc2 => hfresh F.1.counter hfc hc2.symm)
            simp [hlk, noPairRef, hub, hnb]
          | some q =>
            rw [← hpi]
            obtain ⟨kk, hmem⟩ := c8_lookup_mem F.1.buffered
              (sigApply sm (SigBit.wireBit u.name i)) q hlk
            obtain ⟨_, k, hk, hkge⟩ := hfbuf (kk, q) hmem
            have hqb : isWBit wn (SigBit.wireBit q.2 0) = false := by
              have hq2eq : q.2 = WName.auto k := hk
              simp only [isWBit]
              rw [hq2eq]
              exact beq_eq_false_iff_ne.mpr (fun hc2 => hfresh k hkge hc2.symm)
            have hnb : isWBit wn (SigBit.wireBit (WName.auto F.1.counter) i) = false := by
              simp only [isWBit]
              exact beq_eq_false_iff_ne.mpr (fun hc2 => hfresh F.1.counter hfc hc2.symm)
            simp [hlk, noPairRef, hqb, hnb]
      · intro q hq
        rcases List.mem_append.mp hq with hq | hq
        · exact hfq q hq
        · have hq2 : q = (u.name, WName.auto F.1.counter) := by simpa using hq
          rw [hq2]
          exact ⟨hun, F.1.counter, rfl, hfc⟩

lemma c8_insertStage_inv (wn : WName) (c0 : Nat) (cfg : Config) (bi select top : Bool)
    (wsel : WName → Bool) (sm : Smap) (modName : WName)
    (sinkW bufW driven : Finset SigBit)
    (hfresh : ∀ k, c0 ≤ k → wn ≠ WName.auto k) :
    ∀ (ws : List Wire) (st : InsState),
    (∀ u ∈ ws, processedWire select wsel u = true →
      u.name ≠ wn ∧ ∀ i, isWBit wn (sigApply sm (SigBit.wireBit u.name i)) = false) →
    InsInv wn c0 st →
    InsInv wn c0
      (ws.foldl (processWire cfg bi select top wsel sm modName sinkW bufW driven) st) ∧
    ∃ t, (ws.foldl (processWire cfg bi select top wsel sm modName sinkW bufW driven) st).bufAdds =
      st.bufAdds ++ t := by
  intro ws
  induction ws with
  | nil =>
    intro st _ h
    exact ⟨h, [], (List.append_nil _).symm⟩
  | cons u rest ih =>
    intro st hws h
    simp only [List.foldl_cons]
    obtain ⟨h1, t1, ht1⟩ := c8_processWire_inv wn c0 cfg bi select top wsel sm modName
      sinkW bufW driven st u hfresh (hws u (List.mem_cons_self _ _)) h
    obtain ⟨h2, t2, ht2⟩ := ih (processWire cfg bi select top wsel sm modName sinkW bufW driven st u)
      (fun x hx => hws x (List.mem_cons_of_mem _ hx)) h1
    exact ⟨h2, t1 ++ t2, by rw [ht2, ht1, List.append_assoc]⟩

lemma c8_computeBufBits_aux (select : Bool) (wsel : WName → Bool) (sm : Smap) :
    ∀ (wires : List Wire) (acc : List SigBit),
    ∀ b ∈ wires.foldl (fun acc w =>
      if w.port_input && w.port_output then acc
      else if !(processedWire select wsel w) then acc
      else acc ++ (List.range w.width).map (fun i => sigApply sm (SigBit.wireBit w.name i))) acc,
    b ∈ acc ∨ ∃ u ∈ wires, processedWire select wsel u = true ∧
      ∃ i, b = sigApply sm (SigBit.wireBit u.name i) := by
  intro wires
  induction wires with
  | nil => intro acc b hb; exact Or.inl hb
  | cons u rest ih =>
    intro acc b hb
    simp only [List.foldl_cons] at hb
    by_cases h1 : (u.port_input && u.port_output) = true
    · rw [if_pos h1] at hb
      rcases ih acc b hb with h | ⟨x, hx, hxs⟩
      · exact Or.inl h
      · exact Or.inr ⟨x, List.mem_cons_of_mem _ hx, hxs⟩
    · rw [if_neg h1] at hb
      by_cases h2 : (!(processedWire select wsel u)) = true
      · rw [if_pos h2] at hb
        rcases ih acc b hb with h | ⟨x, hx, hxs⟩
        · exact Or.inl h
        · exact Or.inr ⟨x, List.mem_cons_of_mem _ hx, hxs⟩
      · rw [if_neg h2] at hb
        have hpu : processedWire select wsel u = true := by simpa using h2
        rcases ih _ b hb with h | ⟨x, hx, hxs⟩
        · rcases List.mem_append.mp h with h | h
          · exact Or.inl h
          · obtain ⟨i, _, hbi⟩ := List.mem_map.mp h
            exact Or.inr ⟨u, List.mem_cons_self _ _, hpu, i, hbi.symm⟩
        · exact Or.inr ⟨x, List.mem_cons_of_mem _ hx, hxs⟩

lemma c8_computeBufBits_mem (select : Bool) (wsel : WName → Bool) (sm : Smap)
    (wires : List Wire) :
    ∀ b ∈ computeBufBits select wsel sm wires,
    ∃ u ∈ wires, processedWire select wsel u = true ∧
      ∃ i, b = sigApply sm (SigBit.wireBit u.name i) := by
  intro b hb
  have h := c8_computeBufBits_aux select wsel sm wires [] b hb
  rcases h with h | h
  · exact absurd h (List.not_mem_nil _)
  · exact h

lemma c8_computeBufrPairs_aux (bufBits : List SigBit) :
    ∀ (cells : List Cell) (acc : List (SigBit × WName)),
    ∀ p ∈ cells.foldl (fun acc c =>
      if c.ctype == idBUFR || c.ctype == idBUFIO then
        match getPort c idI with
        | some [b] => if b ∈ bufBits then acc ++ [(b, c.name)] else acc
        | _ => acc
      else acc) acc,
    p ∈ acc ∨ ∃ cp ∈ cells, p.2 = cp.name ∧ getPort cp idI = some [p.1] ∧
      p.1 ∈ bufBits := by
  intro cells
  induction cells with
  | nil => intro acc p hp; exact Or.inl hp
  | cons c rest ih =>
    intro acc p hp
    simp only [List.foldl_cons] at hp
    have hnext : ∀ acc2 : List (SigBit × WName),
        p ∈ rest.foldl (fun acc c =>
          if c.ctype == idBUFR || c.ctype == idBUFIO then
            match getPort c idI with
            | some [b] => if b ∈ bufBits then acc ++ [(b, c.name)] else acc
            | _ => acc
          else acc) acc2 →
        (p ∈ acc2 ∨ ∃ cp ∈ c :: rest, p.2 = cp.name ∧ getPort cp idI = some [p.1] ∧
          p.1 ∈ bufBits) := by
      intro acc2 hp2
      rcases ih acc2 p hp2 with h | ⟨x, hx, hxs⟩
      · exact Or.inl h
      · exact Or.inr ⟨x, List.mem_cons_of_mem _ hx, hxs⟩
    by_cases hty : (c.ctype == idBUFR || c.ctype == idBUFIO) = true
    · rw [if_pos hty] at hp
      cases hgp : getPort c idI with
      | none =>
        rw [hgp] at hp
        exact hnext acc hp
      | some s =>
        cases s with
        | nil =>
          rw [hgp] at hp
          exact hnext acc hp
        | cons b tl =>
          cases tl with
          | nil =>
            rw [hgp] at hp
            dsimp only at hp
            by_cases hbm : b ∈ bufBits
            · rw [if_pos hbm] at hp
              rcases hnext _ hp with h | h
              · rcases List.mem_append.mp h with h | h
                · exact Or.inl h
                · have hpe : p = (b, c.name) := by simpa using h
                  refine Or.inr ⟨c, List.mem_cons_self _ _, ?_, ?_, ?_⟩
                  · rw [hpe]
                  · rw [hpe, hgp]
                  · rw [hpe]
                    exact hbm
              · exact Or.inr h
            · rw [if_neg hbm] at hp
              exact hnext acc hp
          | cons b2 tl2 =>
            rw [hgp] at hp
            exact hnext acc hp
    · rw [if_neg hty] at hp
      exact hnext acc hp

lemma c8_computeBufrPairs_mem (bufBits : List SigBit) (cells : List Cell) :
    ∀ p ∈ computeBufrPairs cells bufBits,
    ∃ cp ∈ cells, p.2 = cp.name ∧ getPort cp idI = some [p.1] ∧ p.1 ∈ bufBits := by
  intro p hp
  have h := c8_computeBufrPairs_aux bufBits cells [] p hp
  rcases h with h | h
  · exact absurd h (List.not_mem_nil _)
  · exact h

lemma c8_insertStage_bufAdds (wn : WName) (c0 : Nat) (cfg : Config)
    (bi select top : Bool) (wsel : WName → Bool) (sm : Smap) (modName : WName)
    (sinkW bufW driven : Finset SigBit) (w : Wire) (i : Nat)
    (hfresh : ∀ k, c0 ≤ k → wn ≠ WName.auto k)
    (hpw : processedWire select wsel w = false)
    (hwi : w.port_input = false) (hwo : w.port_output = true) (hi : i < w.width) :
    ∀ (ws : List Wire) (st : InsState), w ∈ ws →
    (∀ u ∈ ws, processedWire select wsel u = true →
      u.name ≠ wn ∧ ∀ j, isWBit wn (sigApply sm (SigBit.wireBit u.name j)) = false) →
    InsInv wn c0 st →
    (modName, w.name, i) ∈
      (ws.foldl (processWire cfg bi select top wsel sm modName sinkW bufW driven) st).bufAdds := by
  intro ws
  induction ws with
  | nil => intro st hw _ _; exact absurd hw (List.not_mem_nil _)
  | cons u rest ih =>
    intro st hw hws hinv
    simp only [List.foldl_cons]
    obtain ⟨hinv2, t2, ht2⟩ := c8_processWire_inv wn c0 cfg bi select top wsel sm modName
      sinkW bufW driven st u hfresh (hws u (List.mem_cons_self _ _)) hinv
    rcases List.mem_cons.mp hw with rfl | hw
    · have hstep : (processWire cfg bi select top wsel sm modName sinkW bufW driven st w).bufAdds =
          st.bufAdds ++ (List.range w.width).map (fun j => (modName, w.name, j)) := by
        unfold processWire
        simp only [hwi, hwo, hpw, Bool.false_and, Bool.not_false, Bool.false_eq_true,
          reduceIte]
      have hmem : (modName, w.name, i) ∈
          (processWire cfg bi select top wsel sm modName sinkW bufW driven st w).bufAdds := by
        rw [hstep]
        refine List.mem_append_right _ ?_
        exact List.mem_map_of_mem _ (List.mem_range.mpr hi)
      obtain ⟨_, t3, ht3⟩ := c8_insertStage_inv wn c0 cfg bi select top wsel sm modName
        sinkW bufW driven hfresh rest
        (processWire cfg bi select top wsel sm modName sinkW bufW driven st w)
        (fun x hx => hws x (List.mem_cons_of_mem _ hx)) hinv2
      rw [ht3]
      exact List.mem_append_left _ hmem
    · exact ih (processWire cfg bi select top wsel sm modName sinkW bufW driven st u) hw
        (fun x hx => hws x (List.mem_cons_of_mem _ hx)) hinv2

/-- Claim C8 (amended): with no explicit selection, a wire carrying the
inhibit attribute whose bits form their own canonical class (its bits
are their own canonical representatives and no other bit maps onto
them) is left unmodified by the run: the wire itself survives
untouched, every original cell keeps every occurrence of its bits
positionally unchanged (same drivers, same sinks), no inserted cell or
created connection ever mentions one of its bits, the original
module-level connections keep its bits unchanged, and when the wire is
a pure output port each of its bits is registered in the global
buf_ports table for the parents.  The well-formedness hypotheses ask
for distinct wire names, distinct cell names and distinct port names
per cell. -/
theorem c8_inhibit_frame (cfg : Config) (bufferInputs : Bool)
    (wsel : WName → Bool) (sm : Smap) (gst : GState) (m : Module) (w : Wire)
    (hbb : m.blackbox = false)
    (hw : w ∈ m.wires)
    (hinh : w.attrs.inhibit = true)
    (hnw : (m.wires.map Wire.name).Nodup)
    (hnc : (m.cells.map Cell.name).Nodup)
    (hports : ∀ c ∈ m.cells, (c.conns.map Conn.port).Nodup)
    (hsm1 : ∀ i, sigApply sm (SigBit.wireBit w.name i) = SigBit.wireBit w.name i)
    (hsm2 : ∀ b i, sigApply sm b = SigBit.wireBit w.name i → b = SigBit.wireBit w.name i) :
    w ∈ (processModule cfg bufferInputs false wsel sm gst m).2.wires ∧
    List.Forall₂ (cellPreserves w.name) m.cells
      ((processModule cfg bufferInputs false wsel sm gst m).2.cells.take m.cells.length) ∧
    (∀ c ∈ (processModule cfg bufferInputs false wsel sm gst m).2.cells.drop m.cells.length,
      noWireRef w.name c = true) ∧
    List.Forall₂ (pairPreserves w.name) m.connects
      ((processModule cfg bufferInputs false wsel sm gst m).2.connects.take m.connects.length) ∧
    (∀ p ∈ (processModule cfg bufferInputs false wsel sm gst m).2.connects.drop m.connects.length,
      noPairRef w.name p = true) ∧
    (w.port_input = false → w.port_output = true → ∀ i, i < w.width →
      (m.name, w.name, i) ∈ (processModule cfg bufferInputs false wsel sm gst m).1.bufPorts) := by
  have hpw : processedWire false wsel w = false := by
    simp [processedWire, hinh]
  have hfresh : ∀ k, maxAutoIdx m ≤ k → w.name ≠ WName.auto k :=
    fun k hk => wire_name_ne_auto m w hw k hk
  have hnokey : ∀ u ∈ m.wires, processedWire false wsel u = true →
      ∀ i, isWBit w.name (sigApply sm (SigBit.wireBit u.name i)) = false := by
    intro u hu hup i
    cases hsb : sigApply sm (SigBit.wireBit u.name i) with
    | constBit v => simp [isWBit]
    | wireBit x j =>
      simp only [isWBit]
      cases hxx : (x == w.name) with
      | false => rfl
      | true =>
        exfalso
        have hx : x = w.name := eq_of_beq hxx
        rw [hx] at hsb
        have hub := hsm2 (SigBit.wireBit u.name i) j hsb
        injection hub with hun hij
        have huw : u = w := List.inj_on_of_nodup_map hnw hu hw hun
        rw [huw, hpw] at hup
        exact Bool.noConfusion hup
  have hwsproc : ∀ u ∈ m.wires, processedWire false wsel u = true →
      u.name ≠ w.name ∧
      ∀ j, isWBit w.name (sigApply sm (SigBit.wireBit u.name j)) = false := by
    intro u hu hup
    refine ⟨?_, hnokey u hu hup⟩
    intro hc
    have huw : u = w := List.inj_on_of_nodup_map hnw hu hw hc
    rw [huw, hpw] at hup
    exact Bool.noConfusion hup
  have hinit : InsInv w.name (maxAutoIdx m) ({ counter := maxAutoIdx m } : InsState) := by
    refine ⟨Nat.le_refl _, ?_, ?_, ?_, ?_⟩ <;> intro e he <;>
      exact absurd he (List.not_mem_nil _)
  unfold processModule
  simp only [hbb, Bool.false_eq_true, if_false]
  set PR := propagateRun (scanItems gst.invOut gst.invIn sm m.cells)
    ⟨collectTagBits gst.sinkPorts sm m.cells, collectTagBits gst.bufPorts sm m.cells⟩ with hPR
  set BB := computeBufBits false wsel sm m.wires with hBB
  set BP := computeBufrPairs m.cells BB with hBP
  set I := insertStage cfg bufferInputs false m.top wsel sm m.name PR.sink PR.buf
    (collectDriven m.cells) (maxAutoIdx m) m.wires with hI
  set W1 := m.wires ++ I.newWires with hW1
  set BA2 := markOutputs wsel sm I.buffered m.name W1 with hBA2
  set C1 := m.cells ++ I.newCells with hC1
  set C2 := reconnectStage sm I.buffered BP C1 with hC2
  set FIN := swapStage I.inputQueue W1 C2 (m.connects ++ I.connects) with hFIN
  obtain ⟨hins, tBA, hBA⟩ := c8_insertStage_inv w.name (maxAutoIdx m) cfg bufferInputs false
    m.top wsel sm m.name PR.sink PR.buf (collectDriven m.cells) hfresh m.wires
    { counter := maxAutoIdx m } hwsproc hinit
  have hins2 : InsInv w.name (maxAutoIdx m) I := by
    rw [hI]
    exact hins
  have hkeys : ∀ e ∈ I.buffered, isWBit w.name e.1 = false :=
    fun e he => (hins2.2.1 e he).1
  have hvals : ∀ e ∈ I.buffered, ∃ k, e.2.2 = WName.auto k ∧ maxAutoIdx m ≤ k :=
    fun e he => (hins2.2.1 e he).2
  have hcellsNew : ∀ c ∈ I.newCells, noWireRef w.name c = true := hins2.2.2.1
  have hconnNew : ∀ p ∈ I.connects, noPairRef w.name p = true := hins2.2.2.2.1
  have hqueue : ∀ q ∈ I.inputQueue, q.1 ≠ w.name ∧
      ∃ k, q.2 = WName.auto k ∧ maxAutoIdx m ≤ k := hins2.2.2.2.2
  have hqneutral : ∀ p ∈ I.inputQueue, p.1 ≠ w.name ∧ p.2 ≠ w.name := by
    intro p hp
    obtain ⟨h1, k, hk, hkge⟩ := hqueue p hp
    exact ⟨h1, by rw [hk]; exact fun hc => hfresh k hkge hc.symm⟩
  have hBPfact : ∀ p ∈ BP, ∃ cp ∈ m.cells, p.2 = cp.name ∧
      getPort cp idI = some [p.1] ∧ p.1 ∈ BB := by
    intro p hp
    exact c8_computeBufrPairs_mem BB m.cells p (hBP ▸ hp)
  have hBBfact : ∀ b ∈ BB, isWBit w.name b = false := by
    intro b hb
    obtain ⟨u, hu, hup, i, hbi⟩ := c8_computeBufBits_mem false wsel sm m.wires b (hBB ▸ hb)
    rw [hbi]
    exact hnokey u hu hup i
  have hall : ∀ x ∈ C1, ∀ p, BP.find? (fun pr => pr.2 == x.name) = some p →
      ∀ conn ∈ x.conns, conn.port = idI → ∀ b ∈ conn.sig, isWBit w.name b = false := by
    intro x hx p hfind conn hconn hport b hbmem
    rcases List.mem_append.mp (hC1 ▸ hx) with hxm | hxm
    · have hpmem : p ∈ BP := List.mem_of_find?_eq_some hfind
      have hpred : (p.2 == x.name) = true := by
        have h0 := List.find?_some hfind
        simpa using h0
      obtain ⟨cp, hcp, hcpn, hgp, hbb2⟩ := hBPfact p hpmem
      have hcpx : cp = x := by
        apply List.inj_on_of_nodup_map hnc hcp hxm
        rw [← hcpn]
        exact eq_of_beq hpred
      rw [hcpx] at hgp
      obtain ⟨cn0, hfind0, hsig0⟩ := Option.map_eq_some'.mp hgp
      have hcn0mem : cn0 ∈ x.conns := List.mem_of_find?_eq_some hfind0
      have hcn0port : (cn0.port == idI) = true := by
        have h0 := List.find?_some hfind0
        simpa using h0
      have hconncn0 : conn = cn0 := by
        apply List.inj_on_of_nodup_map (hports x hxm) hconn hcn0mem
        show conn.port = cn0.port
        rw [hport]
        exact (eq_of_beq hcn0port).symm
      rw [hconncn0, hsig0] at hbmem
      have hbp : b = p.1 := by simpa using hbmem
      rw [hbp]
      exact hBBfact p.1 hbb2
    · have hnr := hcellsNew x hxm
      unfold noWireRef at hnr
      rw [List.all_eq_true] at hnr
      have h2 := hnr conn hconn
      rw [List.all_eq_true] at h2
      have h3 := h2 b hbmem
      simp only [Bool.not_eq_true'] at h3
      exact h3
  have hforallCells : List.Forall₂ (cellPreserves w.name) C1 FIN.2.1 := by
    rw [hFIN]
    apply c8_swapStage_cells w.name I.inputQueue W1 C2 (m.connects ++ I.connects) C1 hqneutral
    rw [hC2]
    exact c8_reconnectStage_pres w.name sm (maxAutoIdx m) I.buffered BP C1
      hkeys hvals hfresh hsm1 hall
  have hforallConns : List.Forall₂ (pairPreserves w.name)
      (m.connects ++ I.connects) FIN.2.2 := by
    rw [hFIN]
    apply c8_swapStage_conns w.name I.inputQueue W1 C2 (m.connects ++ I.connects)
      (m.connects ++ I.connects) hqneutral
    exact List.forall₂_same.mpr (fun p _ => pairPreserves_refl w.name p)
  have hwmem : w ∈ FIN.1 := by
    rw [hFIN]
    apply swapStage_untouched I.inputQueue W1 C2 (m.connects ++ I.connects) w
    · rw [hW1]
      exact List.mem_append_left _ hw
    · intro p hp
      obtain ⟨h1, h2⟩ := hqneutral p hp
      exact ⟨fun hc => h1 hc.symm, fun hc => h2 hc.symm⟩
  have hctake : List.Forall₂ (cellPreserves w.name) m.cells
      (FIN.2.1.take m.cells.length) := by
    have h1 := List.forall₂_take m.cells.length hforallCells
    rw [hC1, List.take_left] at h1
    exact h1
  have hcdrop : ∀ c ∈ FIN.2.1.drop m.cells.length, noWireRef w.name c = true := by
    intro c hc
    have h1 := List.forall₂_drop m.cells.length hforallCells
    rw [hC1, List.drop_left] at h1
    obtain ⟨nc, hnc2, hpres⟩ := c8_forall2_mem_right h1 c hc
    exact c8_noWireRef_trans w.name nc c hpres (hcellsNew nc hnc2)
  have hdtake : List.Forall₂ (pairPreserves w.name) m.connects
      (FIN.2.2.take m.connects.length) := by
    have h1 := List.forall₂_take m.connects.length hforallConns
    rw [List.take_left] at h1
    exact h1
  have hddrop : ∀ p ∈ FIN.2.2.drop m.connects.length, noPairRef w.name p = true := by
    intro p hp
    have h1 := List.forall₂_drop m.connects.length hforallConns
    rw [List.drop_left] at h1
    obtain ⟨np, hnp2, hpres⟩ := c8_forall2_mem_right h1 p hp
    exact c8_noPairRef_trans w.name np p hpres (hconnNew np hnp2)
  have hbufports : w.port_input = false → w.port_output = true → ∀ i, i < w.width →
      (m.name, w.name, i) ∈
        (gst.bufPorts ∪ I.bufAdds.toFinset ∪ BA2.toFinset) := by
    intro hwi hwo i hi
    have hm := c8_insertStage_bufAdds w.name (maxAutoIdx m) cfg bufferInputs false m.top
      wsel sm m.name PR.sink PR.buf (collectDriven m.cells) w i hfresh hpw hwi hwo hi
      m.wires { counter := maxAutoIdx m } hw hwsproc hinit
    have hm2 : (m.name, w.name, i) ∈ I.bufAdds := by
      rw [hI]
      exact hm
    exact Finset.mem_union.mpr (Or.inl (Finset.mem_union.mpr
      (Or.inr (List.mem_toFinset.mpr hm2))))
  exact ⟨hwmem, hctake, hcdrop, hdtake, hddrop, hbufports⟩

/-- Witness for the amended C8 theorem: a one-wire module whose
inhibited output-port wire is driven by one cell; the wire survives the
run untouched and each of its bits is registered in the global
buf_ports table. -/
theorem c8_witness :
    (⟨WName.user "\\w", 1, false, true, { inhibit := true }⟩ : Wire) ∈
      (processModule { bufCelltype := "BUFG", bufPortname := "O", bufPortname2 := "I" }
        true false (fun _ => true) [] ⟨∅, ∅, [], []⟩
        ⟨WName.user "\\top",
         [⟨WName.user "\\w", 1, false, true, { inhibit := true }⟩],
         [⟨WName.user "\\d", WName.user "\\DRV",
           [⟨WName.user "\\Q", true, [SigBit.wireBit (WName.user "\\w") 0]⟩]⟩],
         [], false, true, []⟩).2.wires ∧
    (WName.user "\\top", WName.user "\\w", 0) ∈
      (processModule { bufCelltype := "BUFG", bufPortname := "O", bufPortname2 := "I" }
        true false (fun _ => true) [] ⟨∅, ∅, [], []⟩
        ⟨WName.user "\\top",
         [⟨WName.user "\\w", 1, false, true, { inhibit := true }⟩],
         [⟨WName.user "\\d", WName.user "\\DRV",
           [⟨WName.user "\\Q", true, [SigBit.wireBit (WName.user "\\w") 0]⟩]⟩],
         [], false, true, []⟩).1.bufPorts := by
  have h := c8_inhibit_frame
    { bufCelltype := "BUFG", bufPortname := "O", bufPortname2 := "I" }
    true (fun _ => true) [] ⟨∅, ∅, [], []⟩
    ⟨WName.user "\\top",
     [⟨WName.user "\\w", 1, false, true, { inhibit := true }⟩],
     [⟨WName.user "\\d", WName.user "\\DRV",
       [⟨WName.user "\\Q", true, [SigBit.wireBit (WName.user "\\w") 0]⟩]⟩],
     [], false, true, []⟩
    ⟨WName.user "\\w", 1, false, true, { inhibit := true }⟩
    rfl (by decide) rfl (by decide) (by decide) (by decide)
    (fun i => rfl) (fun b i hsa => hsa)
  exact ⟨h.1, h.2.2.2.2.2 rfl rfl 0 (by decide)⟩

end Clkbufmap
